import Mathlib

/-
Verification development for the data-model-management core: a shallow
embedding of the JSON-LD validator, the JSON-LD to PG-JSON converter
(dmm_api/utilities/json_tools.py), the PG-JSON to JSON-LD converter
(re-exported by dmm_api/utilities/__init__.py; its body is not among the
staged sources, so it is modelled from the specification), and the
Analytical-Pattern extractor (dmm_api/tools/AP/parse_AP.py), together with
proofs and refutations of the specification claims.

Conventions of the embedding:
- Python dicts coming from json.loads are association lists with unique,
  insertion-ordered keys; dict.get is first-match lookup.
- Python exceptions that a function raises (JsonLDValidationError,
  ValueError, HTTPException) are modelled as the error branch of Except,
  carrying the message / detail string built exactly as the source builds it.
- uuid.uuid5 is a fixed pure hash of its name string; it enters the model
  as an explicit function parameter (uuid5hash), since no claim depends on
  the SHA-1 internals, only on the hash being a function of its input.
- uuid.uuid4 is nondeterministic; fresh identifiers enter the model as an
  explicit supply (a function from an index to a string).
-/

/-- JSON values as produced by json.loads: null, booleans, numbers
(integral, the only kind the claims touch), strings, arrays, and objects
as insertion-ordered association lists. -/
inductive JValue where
  | null
  | bool (b : Bool)
  | num (n : Int)
  | str (s : String)
  | arr (elems : List JValue)
  | obj (entries : List (String × JValue))

/- Boolean structural equality on JSON values (mutually with lists). -/
mutual
def JValue.beq : JValue → JValue → Bool
  | .null, .null => true
  | .bool a, .bool b => a == b
  | .num a, .num b => a == b
  | .str a, .str b => a == b
  | .arr xs, .arr ys => JValue.beqList xs ys
  | .obj xs, .obj ys => JValue.beqEntries xs ys
  | _, _ => false
def JValue.beqList : List JValue → List JValue → Bool
  | [], [] => true
  | x :: xs, y :: ys => JValue.beq x y && JValue.beqList xs ys
  | _, _ => false
def JValue.beqEntries : List (String × JValue) → List (String × JValue) → Bool
  | [], [] => true
  | (k1, v1) :: xs, (k2, v2) :: ys => k1 == k2 && JValue.beq v1 v2 && JValue.beqEntries xs ys
  | _, _ => false
end

mutual
theorem JValue.beq_iff : ∀ (a b : JValue), JValue.beq a b = true ↔ a = b
  | .null, b => by cases b <;> simp [JValue.beq]
  | .bool a, b => by cases b <;> simp [JValue.beq]
  | .num a, b => by cases b <;> simp [JValue.beq]
  | .str a, b => by cases b <;> simp [JValue.beq]
  | .arr xs, b => by
      cases b <;> simp [JValue.beq]
      exact JValue.beqList_iff xs _
  | .obj xs, b => by
      cases b <;> simp [JValue.beq]
      exact JValue.beqEntries_iff xs _
theorem JValue.beqList_iff : ∀ (xs ys : List JValue), JValue.beqList xs ys = true ↔ xs = ys
  | [], ys => by cases ys <;> simp [JValue.beqList]
  | x :: xs, ys => by
      cases ys with
      | nil => simp [JValue.beqList]
      | cons y ys =>
          simp [JValue.beqList, JValue.beq_iff x y, JValue.beqList_iff xs ys]
theorem JValue.beqEntries_iff :
    ∀ (xs ys : List (String × JValue)), JValue.beqEntries xs ys = true ↔ xs = ys
  | [], ys => by cases ys <;> simp [JValue.beqEntries]
  | (k, v) :: xs, ys => by
      cases ys with
      | nil => simp [JValue.beqEntries]
      | cons y ys =>
          obtain ⟨k2, v2⟩ := y
          simp [JValue.beqEntries, JValue.beq_iff v v2, JValue.beqEntries_iff xs ys,
            and_assoc, Prod.ext_iff]
end

instance : DecidableEq JValue := fun a b => decidable_of_iff _ (JValue.beq_iff a b)

instance {ε α : Type} [DecidableEq ε] [DecidableEq α] : DecidableEq (Except ε α) :=
  fun a b =>
    match a, b with
    | .ok x, .ok y => decidable_of_iff (x = y) (by simp)
    | .error e, .error f => decidable_of_iff (e = f) (by simp)
    | .ok _, .error _ => isFalse (by simp)
    | .error _, .ok _ => isFalse (by simp)

/-- First-match association lookup: the semantics of Python dict access for
dicts built by json.loads (keys unique). -/
def getKey (entries : List (String × JValue)) (k : String) : Option JValue :=
  match entries with
  | [] => none
  | (k1, v) :: rest => if k1 = k then some v else getKey rest k

def hasKey (entries : List (String × JValue)) (k : String) : Bool :=
  (getKey entries k).isSome

/-- Python truthiness of a JSON value: None, False, 0, empty string, empty
list and empty dict are falsy. -/
def pyTruthy : JValue → Bool
  | .null => false
  | .bool b => b
  | .num n => n != 0
  | .str s => !s.data.isEmpty
  | .arr xs => !xs.isEmpty
  | .obj es => !es.isEmpty

/-- Key.startswith of the at-sign, the JSON-LD keyword test used throughout
json_tools.py. -/
def startsWithAt (k : String) : Bool :=
  match k.data with
  | c :: _ => c = '@'
  | [] => false

/-- Whether a dict has at least one at-prefixed key: the source's test for a
nested JSON-LD object. -/
def hasAtKey (entries : List (String × JValue)) : Bool :=
  entries.any (fun kv => startsWithAt kv.1)

def isDictWithAt : JValue → Bool
  | .obj es => hasAtKey es
  | _ => false

/-- Text of Python type of a json.loads value, as an f-string renders it. -/
def pyTypeName : JValue → String
  | .null => "<class 'NoneType'>"
  | .bool _ => "<class 'bool'>"
  | .num _ => "<class 'int'>"
  | .str _ => "<class 'str'>"
  | .arr _ => "<class 'list'>"
  | .obj _ => "<class 'dict'>"

/-- Decimal digits of a natural number, fuel-driven so that the kernel can
evaluate it (the fuel argument is always given as the number itself, which
bounds the number of divisions). -/
def natDigits : Nat → Nat → List Char → List Char
  | 0, n, acc => Char.ofNat (48 + n % 10) :: acc
  | fuel + 1, n, acc =>
      if n < 10 then Char.ofNat (48 + n) :: acc
      else natDigits fuel (n / 10) (Char.ofNat (48 + n % 10) :: acc)

def natStr (n : Nat) : String := String.mk (natDigits n n [])

/-- Decimal rendering of an integer, as Python str renders int. -/
def intStr (n : Int) : String :=
  if n < 0 then "-" ++ natStr n.natAbs else natStr n.natAbs

/- Python str and repr of a json.loads value (repr for containers, which is
how f-strings render dicts and lists). String repr is simplified to plain
single quotes: none of the strings any claim touches needs repr escaping. -/
mutual
def pyRepr : JValue → String
  | .null => "None"
  | .bool true => "True"
  | .bool false => "False"
  | .num n => intStr n
  | .str s => "'" ++ s ++ "'"
  | .arr xs => "[" ++ pyReprList xs ++ "]"
  | .obj es => "\x7b" ++ pyReprEntries es ++ "\x7d"
def pyReprList : List JValue → String
  | [] => ""
  | [x] => pyRepr x
  | x :: rest => pyRepr x ++ ", " ++ pyReprList rest
def pyReprEntries : List (String × JValue) → String
  | [] => ""
  | [(k, v)] => "'" ++ k ++ "': " ++ pyRepr v
  | (k, v) :: rest => "'" ++ k ++ "': " ++ pyRepr v ++ ", " ++ pyReprEntries rest
end

/-- Python str of a value: the string itself for str, repr-style otherwise. -/
def pyStr : JValue → String
  | .str s => s
  | v => pyRepr v

/-- Left-to-right removal of every occurrence of urn: as str.replace
performs it (scanning resumes after a removed occurrence). -/
def removeUrn : List Char → List Char
  | 'u' :: 'r' :: 'n' :: ':' :: rest => removeUrn rest
  | c :: cs => c :: removeUrn cs
  | [] => []

/-- Left-to-right removal of every occurrence of uuid: as str.replace
performs it. -/
def removeUuidColon : List Char → List Char
  | 'u' :: 'u' :: 'i' :: 'd' :: ':' :: rest => removeUuidColon rest
  | c :: cs => c :: removeUuidColon cs
  | [] => []

/-- Python str.strip with a character set: drop the set's characters from
both ends. -/
def stripSet (set : List Char) (l : List Char) : List Char :=
  ((l.dropWhile (fun c => set.contains c)).reverse.dropWhile
    (fun c => set.contains c)).reverse

def isHexDigit (c : Char) : Bool :=
  (48 ≤ c.toNat && c.toNat ≤ 57) || (97 ≤ c.toNat && c.toNat ≤ 102) ||
    (65 ≤ c.toNat && c.toNat ≤ 70)

/-- The hex string uuid.UUID builds from its argument before parsing:
remove every occurrence of urn: and uuid:, strip curly braces from the ends,
remove dashes. -/
def pyUuidNormalize (s : String) : List Char :=
  (stripSet ['\x7b', '\x7d'] (removeUuidColon (removeUrn s.data))).filter
    (fun c => c ≠ '-')

/-- Whether uuid.UUID(s) succeeds: the normalized hex must be exactly 32 hex
digits. (CPython parses the digits with int(-, 16); the underscore and sign
corners that int additionally tolerates are not modelled, no claim reaches
them.) No version is checked: uuid.UUID without a version argument accepts
any version, and uuid.UUID(s, version=4) overwrites the version bits instead
of validating them, so it accepts exactly the same strings. -/
def pyUuidParseOk (s : String) : Bool :=
  (pyUuidNormalize s).length == 32 && (pyUuidNormalize s).all isHexDigit

/-- Whether a string denotes a version-4 UUID: it parses, and the version
nibble (the 13th hex digit) is 4. This is the reading of the specification,
not of the code: the code never inspects the version. -/
def isUuidV4 (s : String) : Bool :=
  pyUuidParseOk s && ((pyUuidNormalize s).get? 12 == some '4')

/-- ASCII lowercase of a character, enough for the croissant and fileobject
substring checks (all comparisons in the source involve ASCII constants). -/
def lowerChar (c : Char) : Char :=
  if 65 ≤ c.toNat && c.toNat ≤ 90 then Char.ofNat (c.toNat + 32) else c

def lowerChars (l : List Char) : List Char := l.map lowerChar

/-- Substring containment on character lists (the Python in operator on
strings). -/
def containsSub (pat : List Char) : List Char → Bool
  | [] => pat.isEmpty
  | c :: cs => pat.isPrefixOf (c :: cs) || containsSub pat cs

/-- Check of one string value against UUID format, json_tools._validate_uuid.
Raises with the field name and the offending value. A non-string value makes
uuid.UUID raise AttributeError, which the source also catches. -/
def _validate_uuid (value : JValue) (field_name : String) : Except String Unit :=
  if (match value with | .str s => pyUuidParseOk s | _ => false) then .ok ()
  else .error ("'" ++ field_name ++ "' must be a valid UUID, got '" ++ pyStr value ++ "'")

/-- Per-item loop of the distribution / recordSet checks: each item must be
a dict, and an at-id inside it must be a valid UUID. -/
def checkCroissantItems (fieldName : String) : Nat → List JValue → Except String Unit
  | _, [] => .ok ()
  | idx, item :: rest => do
      match item with
      | .obj ies =>
          (match getKey ies "@id" with
            | some idv => _validate_uuid idv (fieldName ++ "[" ++ natStr idx ++ "].@id")
            | none => .ok ())
          checkCroissantItems fieldName (idx + 1) rest
      | _ =>
          .error (fieldName ++ "[" ++ natStr idx ++ "] must be an object, got " ++
            pyTypeName item)

/-- Croissant-specific checks, json_tools._validate_croissant_structure.
The types list is a singleton for a string @type; validate_jsonld has
already rejected every non-string non-list @type before calling this. -/
def _validate_croissant_structure (entries : List (String × JValue)) (strict : Bool) :
    Except String Unit := do
  (match getKey entries "@type" with
    | some t =>
        let types : List JValue := match t with | .arr l => l | other => [other]
        if strict && !(types.any (fun tt => containsSub "Dataset".data (pyStr tt).data)) then
          .error "Croissant JSON-LD must have @type containing 'Dataset' (strict)"
        else .ok ()
    | none => .ok ())
  (if strict then
      if !hasKey entries "name" then
        .error "Croissant dataset should contain 'name' (strict mode)"
      else if !hasKey entries "description" then
        .error "Croissant dataset should contain 'description' (strict mode)"
      else if !hasKey entries "distribution" then
        .error "Croissant dataset should contain 'distribution' (strict mode)"
      else .ok ()
    else .ok ())
  (match getKey entries "distribution" with
    | some dist =>
        match dist with
        | .arr items => checkCroissantItems "distribution" 0 items
        | _ => .error "'distribution' must be an array"
    | none => .ok ())
  (match getKey entries "recordSet" with
    | some rs =>
        match rs with
        | .arr items => checkCroissantItems "recordSet" 0 items
        | _ => .error "'recordSet' must be an array"
    | none => .ok ())

/-- Whether the context dict signals the Croissant vocabulary: some value is
a string containing croissant case-insensitively. -/
def hasCroissantContext (context : JValue) : Bool :=
  match context with
  | .obj ces => ces.any (fun kv =>
      match kv.2 with
      | .str s => containsSub "croissant".data (lowerChars s.data)
      | _ => false)
  | _ => false

/-- Context shape check of validate_jsonld: string, object or array. -/
def checkContextType (context : JValue) : Except String Unit :=
  match context with
  | .obj _ | .str _ | .arr _ => .ok ()
  | _ => .error ("'@context' must be a string, object, or array, got " ++
      pyTypeName context)

/-- Strict-mode at-type presence check of validate_jsonld. -/
def checkStrictType (entries : List (String × JValue)) (strict : Bool) :
    Except String Unit :=
  if strict && !hasKey entries "@type" then
    .error "JSON-LD document must contain '@type' field (strict mode)"
  else .ok ()

/-- At-type shape check of validate_jsonld: string or list when present. -/
def checkTypeShape (entries : List (String × JValue)) : Except String Unit :=
  match getKey entries "@type" with
  | some tv =>
      match tv with
      | .str _ | .arr _ => .ok ()
      | _ => .error ("'@type' must be a string or array, got " ++ pyTypeName tv)
  | none => .ok ()

/-- At-id check of validate_jsonld: when present it must be a string, and
then parse as a UUID. -/
def checkIdShape (entries : List (String × JValue)) : Except String Unit :=
  match getKey entries "@id" with
  | some idv => do
      (match idv with
        | .str _ => .ok ()
        | _ => .error ("'@id' must be a string, got " ++ pyTypeName idv))
      _validate_uuid idv "@id"
  | none => .ok ()

/-- Croissant gate of validate_jsonld: the extra checks run only when the
context signals the Croissant vocabulary. -/
def checkCroissant (entries : List (String × JValue)) (context : JValue)
    (strict : Bool) : Except String Unit :=
  if hasCroissantContext context then _validate_croissant_structure entries strict
  else .ok ()

/-- JSON-LD validation, json_tools.validate_jsonld: the checks run in source
order (each helper above embeds one block of the function body), the first
failure wins, and on success the input is returned unchanged. -/
def validate_jsonld (data : JValue) (strict : Bool) : Except String JValue := do
  let .obj entries := data
    | .error ("JSON-LD document must be a dictionary, got " ++ pyTypeName data)
  let some context := getKey entries "@context"
    | .error "JSON-LD document must contain '@context' field"
  checkContextType context
  checkStrictType entries strict
  checkTypeShape entries
  checkIdShape entries
  checkCroissant entries context strict
  .ok data

theorem exceptSeq_ok {α : Type} {e : Except String Unit} {k : Unit → Except String α}
    {r : α} (h : (e >>= k) = .ok r) : e = .ok () ∧ k () = .ok r := by
  cases e with
  | error msg => exact absurd h (by simp [Bind.bind, Except.bind])
  | ok u =>
      cases u
      refine ⟨rfl, ?_⟩
      simpa [Bind.bind, Except.bind] using h

theorem exceptSeq_err {α : Type} {e : Except String Unit} {k : Unit → Except String α}
    {msg : String} (h : e = .error msg) : (e >>= k) = .error msg := by
  rw [h]
  rfl

theorem exceptSeq_pass {α : Type} {e : Except String Unit} {k : Unit → Except String α}
    (h : e = .ok ()) : (e >>= k) = k () := by
  rw [h]
  rfl

/-- Code-point comparison of character lists: Python string less-or-equal. -/
def charListLe : List Char → List Char → Bool
  | [], _ => true
  | _ :: _, [] => false
  | a :: as, b :: bs => if a = b then charListLe as bs else decide (a.toNat < b.toNat)

def strLe (a b : String) : Bool := charListLe a.data b.data

/-- Order on dict entries by key, the order json.dumps(sort_keys=True) uses
(keys are unique in a Python dict, so values are never compared). -/
def entryLe (p q : String × JValue) : Prop := strLe p.1 q.1 = true

instance : DecidableRel entryLe :=
  fun p q => inferInstanceAs (Decidable (strLe p.1 q.1 = true))

theorem charListLe_total (a b : List Char) : charListLe a b = true ∨ charListLe b a = true := by
  induction a generalizing b with
  | nil => left; rfl
  | cons x xs ih =>
    cases b with
    | nil => right; rfl
    | cons y ys =>
      by_cases hxy : x = y
      · subst hxy
        simp only [charListLe, if_pos rfl]
        exact ih ys
      · have hyx : ¬ y = x := fun h => hxy h.symm
        have hne : x.toNat ≠ y.toNat := fun h =>
          hxy (Char.eq_of_val_eq (UInt32.toNat.inj h))
        simp only [charListLe, if_neg hxy, if_neg hyx, decide_eq_true_eq]
        omega

theorem charListLe_trans {a b c : List Char} (h1 : charListLe a b = true)
    (h2 : charListLe b c = true) : charListLe a c = true := by
  induction a generalizing b c with
  | nil => rfl
  | cons x xs ih =>
    cases b with
    | nil => simp [charListLe] at h1
    | cons y ys =>
      cases c with
      | nil => simp [charListLe] at h2
      | cons z zs =>
        by_cases hxy : x = y <;> by_cases hyz : y = z
        · subst hxy; subst hyz
          simp only [charListLe, if_pos rfl] at h1 h2 ⊢
          exact ih h1 h2
        · subst hxy
          simp only [charListLe, if_pos rfl, if_neg hyz] at h1 h2 ⊢
          exact h2
        · subst hyz
          simp only [charListLe, if_pos rfl, if_neg hxy] at h1 h2 ⊢
          exact h1
        · simp only [charListLe, if_neg hxy, if_neg hyz, decide_eq_true_eq] at h1 h2
          by_cases hxz : x = z
          · subst hxz; omega
          · simp only [charListLe, if_neg hxz, decide_eq_true_eq]
            omega

theorem charListLe_antisymm {a b : List Char} (h1 : charListLe a b = true)
    (h2 : charListLe b a = true) : a = b := by
  induction a generalizing b with
  | nil =>
    cases b with
    | nil => rfl
    | cons y ys => simp [charListLe] at h2
  | cons x xs ih =>
    cases b with
    | nil => simp [charListLe] at h1
    | cons y ys =>
      by_cases hxy : x = y
      · subst hxy
        simp only [charListLe, if_pos rfl] at h1 h2
        exact congrArg _ (ih h1 h2)
      · have hyx : ¬ y = x := fun h => hxy h.symm
        simp only [charListLe, if_neg hxy, if_neg hyx, decide_eq_true_eq] at h1 h2
        omega

instance : IsTotal (String × JValue) entryLe :=
  ⟨fun a b => by
    rcases charListLe_total a.1.data b.1.data with h | h
    · exact Or.inl h
    · exact Or.inr h⟩

instance : IsTrans (String × JValue) entryLe :=
  ⟨fun _ _ _ h1 h2 => charListLe_trans h1 h2⟩

/-- Stable sort of dict entries by key. -/
def sortPairs (l : List (String × JValue)) : List (String × JValue) :=
  List.insertionSort entryLe l

/- Recursive key-sorted copy of a JSON value: the value json.dumps with
sort_keys=True serializes in plain order. -/
mutual
def sortKeysRec : JValue → JValue
  | .null => .null
  | .bool b => .bool b
  | .num n => .num n
  | .str s => .str s
  | .arr xs => .arr (sortKeysList xs)
  | .obj es => .obj (sortPairs (sortKeysEntries es))
def sortKeysList : List JValue → List JValue
  | [] => []
  | x :: rest => sortKeysRec x :: sortKeysList rest
def sortKeysEntries : List (String × JValue) → List (String × JValue)
  | [] => []
  | (k, v) :: rest => (k, sortKeysRec v) :: sortKeysEntries rest
end

def hexDigitChar (n : Nat) : Char :=
  if n < 10 then Char.ofNat (48 + n) else Char.ofNat (87 + n)

/-- JSON string escaping as json.dumps performs it with the default
ensure_ascii (astral code points, which would need surrogate pairs, are
rendered as a single four-digit escape here; no claim serializes one). -/
def jsonEscapeChar (c : Char) : List Char :=
  if c = '"' then ['\\', '"']
  else if c = '\\' then ['\\', '\\']
  else if c = '\n' then ['\\', 'n']
  else if c = '\t' then ['\\', 't']
  else if c = '\r' then ['\\', 'r']
  else if c.toNat < 32 || 126 < c.toNat then
    ['\\', 'u', hexDigitChar (c.toNat / 4096 % 16), hexDigitChar (c.toNat / 256 % 16),
      hexDigitChar (c.toNat / 16 % 16), hexDigitChar (c.toNat % 16)]
  else [c]

def jsonEscape : List Char → List Char
  | [] => []
  | c :: cs => jsonEscapeChar c ++ jsonEscape cs

def dumpStr (s : String) : String := "\"" ++ String.mk (jsonEscape s.data) ++ "\""

/- Serialization of an already key-sorted value with the default json.dumps
separators. -/
mutual
def dumpJson : JValue → String
  | .null => "null"
  | .bool true => "true"
  | .bool false => "false"
  | .num n => intStr n
  | .str s => dumpStr s
  | .arr xs => "[" ++ dumpJsonList xs ++ "]"
  | .obj es => "\x7b" ++ dumpJsonEntries es ++ "\x7d"
def dumpJsonList : List JValue → String
  | [] => ""
  | [x] => dumpJson x
  | x :: rest => dumpJson x ++ ", " ++ dumpJsonList rest
def dumpJsonEntries : List (String × JValue) → String
  | [] => ""
  | [(k, v)] => dumpStr k ++ ": " ++ dumpJson v
  | (k, v) :: rest => dumpStr k ++ ": " ++ dumpJson v ++ ", " ++ dumpJsonEntries rest
end

/-- json.dumps(obj, sort_keys=True): keys sorted at every nesting level,
then serialized. -/
def dumps (v : JValue) : String := dumpJson (sortKeysRec v)

/-- Deterministic identifier for an object without at-id,
_JsonLDToPGJSONConverter._generate_id: a name-based UUID of the key-sorted
JSON serialization. The uuid5 digest enters as the function uuid5hash. -/
def _generate_id (uuid5hash : String → String) (entries : List (String × JValue)) : String :=
  uuid5hash (dumps (.obj entries))

def splitOnChar (sep : Char) : List Char → List (List Char)
  | [] => [[]]
  | c :: cs =>
      let r := splitOnChar sep cs
      if c = sep then [] :: r
      else
        match r with
        | h :: t => (c :: h) :: t
        | [] => [[c]]

/-- Namespace stripping, _JsonLDToPGJSONConverter._clean_type: the part
after the last colon, else after the last slash, else the string itself. -/
def _clean_type (t : String) : String :=
  if t.data.contains ':' then String.mk ((splitOnChar ':' t.data).getLastD [])
  else if t.data.contains '/' then String.mk ((splitOnChar '/' t.data).getLastD [])
  else t

/-- Node record of the PG-JSON output. The identifier is whatever JSON value
stood under at-id (the source does not force it to a string). -/
structure PGNode where
  id : JValue
  labels : List String
  properties : List (String × JValue)
deriving DecidableEq

structure PGEdge where
  id : String
  type : String
  source : JValue
  target : JValue
  properties : List (String × JValue)
deriving DecidableEq

structure PGGraph where
  nodes : List PGNode
  edges : List PGEdge
deriving DecidableEq

structure PGMetadata where
  source_format : String
  node_count : Nat
  edge_count : Nat
  root_node : Option JValue
  context : Option JValue
deriving DecidableEq

structure PGDocument where
  graph : PGGraph
  metadata : PGMetadata
deriving DecidableEq

/-- Accumulated converter state: nodes and edges in emission order, and the
set of already-emitted node ids (kept as a list in insertion order; the
source keeps a Python set used only for membership). -/
structure ConvState where
  nodes : List PGNode
  edges : List PGEdge
  node_ids : List JValue
deriving DecidableEq

/-- Edge record builder, _JsonLDToPGJSONConverter._create_edge. -/
def _create_edge (from_id : JValue) (to_id : JValue) (relationship : String) : PGEdge :=
  { id := pyStr from_id ++ "_" ++ relationship ++ "_" ++ pyStr to_id
    type := _clean_type relationship
    source := from_id
    target := to_id
    properties := [] }

/-- Edge appended when a parent and a relationship are present and truthy,
the guard both branches of _process_object share. -/
def maybeEdge (parent : Option (JValue × String)) (target : JValue) (s : ConvState) :
    ConvState :=
  match parent with
  | some (p, r) =>
      if pyTruthy p && !r.data.isEmpty then
        { s with edges := s.edges ++ [_create_edge p target r] }
      else s
  | none => s

/-- Property extraction of _process_object: at-keys skipped, nested objects
and the object part of mixed arrays withheld, scalar arrays kept (an array
whose every element is a nested object contributes no property at all). -/
def extractProps : List (String × JValue) → List (String × JValue)
  | [] => []
  | (k, v) :: rest =>
      if startsWithAt k then extractProps rest
      else
        match v with
        | .obj inner =>
            if hasAtKey inner then extractProps rest else (k, .obj inner) :: extractProps rest
        | .arr xs =>
            let simple := xs.filter (fun x => !isDictWithAt x)
            if simple.isEmpty then extractProps rest else (k, .arr simple) :: extractProps rest
        | _ => (k, v) :: extractProps rest

/-- Primary type of a node: at-type, first element for a list, the default
Node when absent or an empty list. -/
def nodeTypeOf (entries : List (String × JValue)) : JValue :=
  match getKey entries "@type" with
  | some (.arr l) => l.headD (.str "Node")
  | some v => v
  | none => .str "Node"

/-- Node id resolution at the head of _process_object: the at-id value when
truthy, a generated deterministic id when ids may be generated, an error
otherwise. -/
def computeNodeId (uuid5hash : String → String) (generate_ids : Bool)
    (entries : List (String × JValue)) : Except String JValue :=
  match getKey entries "@id" with
  | some v =>
      if pyTruthy v then .ok v
      else if generate_ids then .ok (.str (_generate_id uuid5hash entries))
      else .error ("Object missing @id: " ++ pyRepr (.obj entries))
  | none =>
      if generate_ids then .ok (.str (_generate_id uuid5hash entries))
      else .error ("Object missing @id: " ++ pyRepr (.obj entries))

/-- Straight-line head of _process_object: resolve the node id, then either
only record the edge for an already-seen id (the dedup guard, third
component false: do not descend) or emit the node, the edge to the parent,
and ask for descent (third component true). -/
def visitNode (uuid5hash : String → String) (generate_ids : Bool)
    (entries : List (String × JValue)) (parent : Option (JValue × String))
    (s : ConvState) : Except String (JValue × ConvState × Bool) := do
  let nodeId : JValue ← computeNodeId uuid5hash generate_ids entries
  if nodeId ∈ s.node_ids then
    .ok (nodeId, maybeEdge parent nodeId s, false)
  else
    let s1 : ConvState := { s with node_ids := s.node_ids ++ [nodeId] }
    let node : PGNode :=
      { id := nodeId
        labels := [_clean_type (pyStr (nodeTypeOf entries))]
        properties := extractProps entries }
    let s2 : ConvState := { s1 with nodes := s1.nodes ++ [node] }
    .ok (nodeId, maybeEdge parent node.id s2, true)

/- Recursive descent of _process_object over nested objects and arrays of
nested objects, in key order then array order, each child processed with the
current node as parent and the key as the relationship label. -/
mutual
def processValue (uuid5hash : String → String) (generate_ids : Bool) :
    JValue → JValue → String → ConvState → Except String ConvState
  | .obj inner, nid, k, s =>
      if hasAtKey inner then do
        let (cid, s1, descend) ← visitNode uuid5hash generate_ids inner (some (nid, k)) s
        if descend then processEntries uuid5hash generate_ids cid inner s1 else .ok s1
      else .ok s
  | .arr xs, nid, k, s => processArr uuid5hash generate_ids nid k xs s
  | _, _, _, s => .ok s
termination_by structural v => v
def processArrItem (uuid5hash : String → String) (generate_ids : Bool) :
    JValue → JValue → String → ConvState → Except String ConvState
  | .obj inner, nid, k, s =>
      if hasAtKey inner then do
        let (cid, s1, descend) ← visitNode uuid5hash generate_ids inner (some (nid, k)) s
        if descend then processEntries uuid5hash generate_ids cid inner s1 else .ok s1
      else .ok s
  | _, _, _, s => .ok s
termination_by structural v => v
def processEntries (uuid5hash : String → String) (generate_ids : Bool) :
    JValue → List (String × JValue) → ConvState → Except String ConvState
  | _, [], s => .ok s
  | nid, (k, v) :: rest, s =>
      if startsWithAt k then processEntries uuid5hash generate_ids nid rest s
      else do
        let s1 ← processValue uuid5hash generate_ids v nid k s
        processEntries uuid5hash generate_ids nid rest s1
termination_by structural _ l _ => l
def processArr (uuid5hash : String → String) (generate_ids : Bool) :
    JValue → String → List JValue → ConvState → Except String ConvState
  | _, _, [], s => .ok s
  | nid, k, x :: rest, s => do
      let s1 ← processArrItem uuid5hash generate_ids x nid k s
      processArr uuid5hash generate_ids nid k rest s1
termination_by structural _ _ l _ => l
end

/-- Whole of _process_object for the document root (no parent, no
relationship): emit the root node, then descend. Returns the root id with
the final state. -/
def _process_object (uuid5hash : String → String) (generate_ids : Bool)
    (entries : List (String × JValue)) (s : ConvState) :
    Except String (JValue × ConvState) := do
  let (nid, s1, descend) ← visitNode uuid5hash generate_ids entries none s
  let s2 ← if descend then processEntries uuid5hash generate_ids nid entries s1 else .ok s1
  .ok (nid, s2)

/-- Conversion entry point, json_tools.convert_jsonld_to_pgjson followed by
_JsonLDToPGJSONConverter.convert: reject non-dict input, flatten from the
root, then assemble the PG-JSON document with counts taken from the emitted
lists and the context copied into metadata when requested and truthy. -/
def convert_jsonld_to_pgjson (uuid5hash : String → String)
    (include_context : Bool) (generate_ids : Bool) (data : JValue) :
    Except String PGDocument := do
  let .obj entries := data
    | .error ("Input must be a dictionary, got " ++ pyTypeName data)
  let context : JValue := (getKey entries "@context").getD (.obj [])
  let (root_id, s) ← _process_object uuid5hash generate_ids entries ⟨[], [], []⟩
  .ok
    { graph := { nodes := s.nodes, edges := s.edges }
      metadata :=
        { source_format := "JSON-LD"
          node_count := s.nodes.length
          edge_count := s.edges.length
          root_node := some root_id
          context := if include_context && pyTruthy context then some context else none } }

/-- First-occurrence deduplication of a string list (used for the order of
relationship labels in reconstruction). -/
def dedupKeep (seen : List String) : List String → List String
  | [] => []
  | x :: rest =>
      if seen.contains x then dedupKeep seen rest
      else x :: dedupKeep (x :: seen) rest

/- Modelled from the spec: PG-JSON to JSON-LD reconstruction (section 4.4).
The function convert_pgjson_to_jsonld is re-exported by
dmm_api/utilities/__init__.py and exercised by tests/test_utilities.py, but
its body is not among the staged sources, so the recursion below follows the
specification text: emit at-id and at-type (the primary label) and the
properties, group the outgoing edges by relationship label in first-
occurrence order, nest a single target as an object and several as an array,
and reconstruct shared targets independently at each reference (no dedup on
the reverse path). The recursion is driven by explicit fuel so that it is
total; reconstruction of any graph a JSON-LD document flattens to needs less
fuel than pgFuel supplies, and a cyclic graph exhausts it and fails, which
the specification leaves unspecified. -/
mutual
def reconstructNode (g : PGGraph) : Nat → JValue → Except String JValue
  | 0, _ => .error "Recursion limit exceeded during PG-JSON reconstruction"
  | fuel + 1, nid => do
      let some node := (g.nodes.find? (fun n => n.id == nid))
        | .error "Root or edge target references a missing node"
      let outs := g.edges.filter (fun e => e.source == nid)
      let labels := dedupKeep [] (outs.map (fun e => e.type))
      let groups ← reconstructGroups g fuel outs labels
      .ok (.obj (("@id", node.id) :: ("@type", .str (node.labels.headD "Node")) ::
        node.properties ++ groups))
def reconstructGroups (g : PGGraph) :
    Nat → List PGEdge → List String → Except String (List (String × JValue))
  | 0, _, _ => .error "Recursion limit exceeded during PG-JSON reconstruction"
  | _ + 1, _, [] => .ok []
  | fuel + 1, outs, lbl :: rest => do
      let vs ← reconstructTargets g fuel
        ((outs.filter (fun e => e.type == lbl)).map (fun e => e.target))
      let v : JValue :=
        match vs with
        | [x] => x
        | xs => .arr xs
      let tail ← reconstructGroups g fuel outs rest
      .ok ((lbl, v) :: tail)
def reconstructTargets (g : PGGraph) : Nat → List JValue → Except String (List JValue)
  | 0, _ => .error "Recursion limit exceeded during PG-JSON reconstruction"
  | _ + 1, [] => .ok []
  | fuel + 1, t :: rest => do
      let v ← reconstructNode g fuel t
      let vs ← reconstructTargets g fuel rest
      .ok (v :: vs)
end

/-- Fuel ample for any acyclic reconstruction: every step along a path
consumes at most three units per node visited, and an acyclic path visits
each node at most once. -/
def pgFuel (g : PGGraph) : Nat := 3 * (g.nodes.length + g.edges.length) + 3

/-- Node ids with no incoming edge, in node order: the root candidates of
the spec's root inference. -/
def rootsOf (g : PGGraph) : List JValue :=
  (g.nodes.map (fun n => n.id)).filter (fun nid => !(g.edges.any (fun e => e.target == nid)))

/-- Modelled from the spec: convert_pgjson_to_jsonld (section 4.4). Context
from the explicit argument, else from metadata, else an error; root from
metadata, else the unique in-degree-zero node, else an error (zero or
several candidates alike); then recursive reconstruction, with the context
attached to the produced root object. -/
def convert_pgjson_to_jsonld (pg : PGDocument) (context : Option JValue) :
    Except String JValue := do
  let some ctx := (match context with | some c => some c | none => pg.metadata.context)
    | .error "No context provided"
  let root : JValue ←
    match pg.metadata.root_node with
    | some r => .ok r
    | none =>
        match rootsOf pg.graph with
        | [r] => .ok r
        | _ => .error "Ambiguous root node"
  let body ← reconstructNode pg.graph (pgFuel pg.graph) root
  match body with
  | .obj es => .ok (.obj (("@context", ctx) :: es))
  | v => .ok v

/-- Round trip of the two converters with include_context true and default
id generation, the composition named by the round-trip property. -/
def roundTripJsonLD (uuid5hash : String → String) (d : JValue) : Except String JValue :=
  (convert_jsonld_to_pgjson uuid5hash true true d).bind
    (fun pg => convert_pgjson_to_jsonld pg none)

/-- Keys that structural equivalence compares: at-id, at-type, and every
non-keyword property key. Other JSON-LD keywords (at-context among them) are
outside the comparison. -/
def keepKey (k : String) : Bool :=
  k == "@id" || k == "@type" || !startsWithAt k

/- Canonical form for structural comparison of JSON-LD documents: at every
object keep at-id, at-type and the non-keyword entries, canonicalize the
values, and sort the kept entries by key, so that two documents are equal in
canonical form exactly when they have the same at-id, the same at-type, the
same properties and the same nested relationship shape, regardless of key
order. -/
mutual
def canonValue : JValue → JValue
  | .null => .null
  | .bool b => .bool b
  | .num n => .num n
  | .str s => .str s
  | .arr xs => .arr (canonList xs)
  | .obj es => .obj (sortPairs ((canonEntries es).filter (fun kv => keepKey kv.1)))
def canonList : List JValue → List JValue
  | [] => []
  | x :: rest => canonValue x :: canonList rest
def canonEntries : List (String × JValue) → List (String × JValue)
  | [] => []
  | (k, v) :: rest => (k, canonValue v) :: canonEntries rest
end

/-- Structural equivalence of two JSON-LD documents in the sense of the
round-trip property: same at-id, at-type, scalar properties and nested
relationship shape, up to key ordering. -/
def structEquiv (a b : JValue) : Prop := canonValue a = canonValue b

instance : DecidablePred fun p : JValue × JValue => structEquiv p.1 p.2 :=
  fun p => inferInstanceAs (Decidable (canonValue p.1 = canonValue p.2))

instance (a b : JValue) : Decidable (structEquiv a b) :=
  inferInstanceAs (Decidable (canonValue a = canonValue b))

theorem strDataInj {a b : String} (h : a.data = b.data) : a = b := by
  cases a; cases b; exact congrArg String.mk h

theorem sorted_nodupkeys_perm_eq : ∀ {l1 l2 : List (String × JValue)},
    l1.Perm l2 → l1.Sorted entryLe → l2.Sorted entryLe → (l1.map Prod.fst).Nodup → l1 = l2 := by
  intro l1
  induction l1 with
  | nil =>
    intro l2 hp _ _ _
    exact hp.nil_eq
  | cons a t1 ih =>
    intro l2 hp hs1 hs2 hnd
    cases l2 with
    | nil => exact absurd hp (by simp)
    | cons b t2 =>
      rcases eq_or_ne a b with heq | hne
      · subst heq
        have hp2 := hp.cons_inv
        have := ih hp2 hs1.of_cons hs2.of_cons (by simpa using hnd.of_cons)
        rw [this]
      · have ha2 : a ∈ t2 := by
          have : a ∈ b :: t2 := hp.mem_iff.mp (by simp)
          rcases List.mem_cons.mp this with h | h
          · exact absurd h hne
          · exact h
        have hb1 : b ∈ t1 := by
          have : b ∈ a :: t1 := hp.mem_iff.mpr (by simp)
          rcases List.mem_cons.mp this with h | h
          · exact absurd h.symm hne
          · exact h
        have hle1 : entryLe a b := List.rel_of_sorted_cons hs1 b hb1
        have hle2 : entryLe b a := List.rel_of_sorted_cons hs2 a ha2
        have hkey : a.1 = b.1 := strDataInj (charListLe_antisymm hle1 hle2)
        exfalso
        have : a.1 ∈ t1.map Prod.fst := by
          rw [hkey]
          exact List.mem_map_of_mem Prod.fst hb1
        simp only [List.map_cons, List.nodup_cons] at hnd
        exact hnd.1 this

theorem sortPairs_perm (l : List (String × JValue)) : (sortPairs l).Perm l :=
  List.perm_insertionSort entryLe l

theorem sortPairs_sorted (l : List (String × JValue)) : (sortPairs l).Sorted entryLe :=
  List.sorted_insertionSort entryLe l

theorem sortPairs_eq_of_perm {l1 l2 : List (String × JValue)} (h : l1.Perm l2)
    (hnd : (l1.map Prod.fst).Nodup) : sortPairs l1 = sortPairs l2 := by
  refine sorted_nodupkeys_perm_eq ?_ (sortPairs_sorted l1) (sortPairs_sorted l2) ?_
  · exact (sortPairs_perm l1).trans (h.trans (sortPairs_perm l2).symm)
  · exact (((sortPairs_perm l1).map Prod.fst).nodup_iff).mpr hnd

theorem sortKeysEntries_eq_map (l : List (String × JValue)) :
    sortKeysEntries l = l.map (fun kv => (kv.1, sortKeysRec kv.2)) := by
  induction l with
  | nil => rfl
  | cons a rest ih =>
    obtain ⟨k, v⟩ := a
    simp [sortKeysEntries, ih]

theorem dumps_obj_eq_of_perm {o1 o2 : List (String × JValue)}
    (hnd : (o1.map Prod.fst).Nodup) (hp : o1.Perm o2) :
    dumps (.obj o1) = dumps (.obj o2) := by
  have hmp : (sortKeysEntries o1).Perm (sortKeysEntries o2) := by
    rw [sortKeysEntries_eq_map, sortKeysEntries_eq_map]
    exact hp.map _
  have hnd2 : ((sortKeysEntries o1).map Prod.fst).Nodup := by
    rw [sortKeysEntries_eq_map]
    simpa [List.map_map, Function.comp] using hnd
  unfold dumps
  simp only [sortKeysRec]
  rw [sortPairs_eq_of_perm hmp hnd2]

/-- Claim C4: the synthesized identifier of an anonymous object is a pure
function of the object's key-sorted JSON serialization, so two runs of the
converter on the same object (its entries in any insertion order) produce
the same identifier: equal key-sorted serializations give equal ids, and a
permutation of the entries of a duplicate-free dict gives the same id. -/
theorem claim_C4_generate_id_deterministic (uuid5hash : String → String)
    (o1 o2 : List (String × JValue)) :
    (dumps (.obj o1) = dumps (.obj o2) →
      _generate_id uuid5hash o1 = _generate_id uuid5hash o2) ∧
    ((o1.map Prod.fst).Nodup → o1.Perm o2 →
      _generate_id uuid5hash o1 = _generate_id uuid5hash o2) := by
  constructor
  · intro h
    unfold _generate_id
    exact congrArg uuid5hash h
  · intro hnd hp
    unfold _generate_id
    exact congrArg uuid5hash (dumps_obj_eq_of_perm hnd hp)

/-- Witness for claim C4 at a concrete hash and a concrete two-entry object
given in its two insertion orders. -/
theorem claim_C4_witness :
    ([("b", JValue.num 2), ("a", JValue.num 1)].map Prod.fst).Nodup ∧
    List.Perm [("b", JValue.num 2), ("a", JValue.num 1)]
      [("a", JValue.num 1), ("b", JValue.num 2)] ∧
    _generate_id (fun s => s) [("b", JValue.num 2), ("a", JValue.num 1)] =
      _generate_id (fun s => s) [("a", JValue.num 1), ("b", JValue.num 2)] :=
  ⟨by decide, by decide,
    (claim_C4_generate_id_deterministic (fun s => s)
      [("b", JValue.num 2), ("a", JValue.num 1)]
      [("a", JValue.num 1), ("b", JValue.num 2)]).2 (by decide) (by decide)⟩


def StInv (s : ConvState) : Prop := s.node_ids = s.nodes.map (fun n => n.id)

def StepOk (s s2 : ConvState) : Prop :=
  (∃ dn de di, s2.nodes = s.nodes ++ dn ∧ s2.edges = s.edges ++ de ∧
    s2.node_ids = s.node_ids ++ di) ∧
  (StInv s → StInv s2) ∧
  (StInv s → s.node_ids.Nodup → s2.node_ids.Nodup)

theorem StepOk.refl (s : ConvState) : StepOk s s :=
  ⟨⟨[], [], [], by simp, by simp, by simp⟩, id, fun _ h => h⟩

theorem StepOk.trans {s1 s2 s3 : ConvState} (h1 : StepOk s1 s2) (h2 : StepOk s2 s3) :
    StepOk s1 s3 := by
  obtain ⟨⟨dn1, de1, di1, e1, e2, e3⟩, hi1, hn1⟩ := h1
  obtain ⟨⟨dn2, de2, di2, f1, f2, f3⟩, hi2, hn2⟩ := h2
  refine ⟨⟨dn1 ++ dn2, de1 ++ de2, di1 ++ di2, ?_, ?_, ?_⟩, fun h => hi2 (hi1 h),
    fun h hn => hn2 (hi1 h) (hn1 h hn)⟩
  · rw [f1, e1, List.append_assoc]
  · rw [f2, e2, List.append_assoc]
  · rw [f3, e3, List.append_assoc]

theorem maybeEdge_nodes (p : Option (JValue × String)) (t : JValue) (s : ConvState) :
    (maybeEdge p t s).nodes = s.nodes := by
  unfold maybeEdge
  rcases p with _ | ⟨pid, r⟩ <;> simp
  split <;> simp

theorem maybeEdge_node_ids (p : Option (JValue × String)) (t : JValue) (s : ConvState) :
    (maybeEdge p t s).node_ids = s.node_ids := by
  unfold maybeEdge
  rcases p with _ | ⟨pid, r⟩ <;> simp
  split <;> simp

theorem maybeEdge_edges (p : Option (JValue × String)) (t : JValue) (s : ConvState) :
    ∃ de, (maybeEdge p t s).edges = s.edges ++ de := by
  unfold maybeEdge
  rcases p with _ | ⟨pid, r⟩
  · exact ⟨[], by simp⟩
  · simp only
    split
    · exact ⟨[_create_edge pid t r], rfl⟩
    · exact ⟨[], by simp⟩

theorem maybeEdge_stepOk (p : Option (JValue × String)) (t : JValue) (s : ConvState) :
    StepOk s (maybeEdge p t s) := by
  obtain ⟨de, hde⟩ := maybeEdge_edges p t s
  refine ⟨⟨[], de, [], by simp [maybeEdge_nodes], hde, by simp [maybeEdge_node_ids]⟩, ?_, ?_⟩
  · intro h
    unfold StInv at h ⊢
    rw [maybeEdge_node_ids, maybeEdge_nodes, h]
  · intro _ hn
    rw [maybeEdge_node_ids]
    exact hn

theorem freshStepOk (v : JValue) (node : PGNode) (hv : node.id = v) (s : ConvState)
    (hmem : v ∉ s.node_ids) :
    StepOk s { nodes := s.nodes ++ [node], edges := s.edges, node_ids := s.node_ids ++ [v] } := by
  refine ⟨⟨[node], [], [v], rfl, by simp, rfl⟩, ?_, ?_⟩
  · intro hinv
    unfold StInv at hinv ⊢
    simp [hinv, hv]
  · intro _ hn
    refine List.Nodup.append hn (List.nodup_singleton v) ?_
    intro a ha hb
    simp only [List.mem_singleton] at hb
    subst hb
    exact hmem ha

theorem visitNode_ok (h : String → String) (g : Bool) (es : List (String × JValue))
    (parent : Option (JValue × String)) (s : ConvState) (nid : JValue) (s2 : ConvState)
    (d : Bool) (heq : visitNode h g es parent s = .ok (nid, s2, d)) :
    StepOk s s2 ∧ nid ∈ s2.node_ids := by
  unfold visitNode at heq
  cases hid : computeNodeId h g es with
  | error e => rw [hid] at heq; exact absurd heq (by simp [Bind.bind, Except.bind])
  | ok v =>
    rw [hid] at heq
    simp only [Bind.bind, Except.bind] at heq
    by_cases hmem : v ∈ s.node_ids
    · rw [if_pos hmem] at heq
      injection heq with heq
      injection heq with h1 heq
      injection heq with h2 h3
      subst h1; subst h2
      refine ⟨maybeEdge_stepOk parent v s, ?_⟩
      rw [maybeEdge_node_ids]
      exact hmem
    · rw [if_neg hmem] at heq
      injection heq with heq
      injection heq with h1 heq
      injection heq with h2 h3
      subst h1; subst h2
      constructor
      · exact StepOk.trans (freshStepOk v _ rfl s hmem) (maybeEdge_stepOk parent _ _)
      · rw [maybeEdge_node_ids]
        simp


mutual
theorem processValue_stepOk (h : String → String) (g : Bool) :
    ∀ (v nid : JValue) (k : String) (s s2 : ConvState),
      processValue h g v nid k s = .ok s2 → StepOk s s2
  | .obj inner, nid, k, s, s2 => fun heq => by
      simp only [processValue] at heq
      by_cases hat : hasAtKey inner
      · rw [if_pos hat] at heq
        cases hv : visitNode h g inner (some (nid, k)) s with
        | error e =>
            rw [hv] at heq
            exact absurd heq (by simp [Bind.bind, Except.bind])
        | ok t =>
            obtain ⟨cid, s1, desc⟩ := t
            rw [hv] at heq
            simp only [Bind.bind, Except.bind] at heq
            have hvv := visitNode_ok h g inner (some (nid, k)) s cid s1 desc hv
            cases desc
            · simp only [Bool.false_eq_true, if_false] at heq
              injection heq with heq
              subst heq
              exact hvv.1
            · simp only [if_true] at heq
              exact hvv.1.trans (processEntries_stepOk h g cid inner s1 s2 heq)
      · rw [if_neg hat] at heq
        injection heq with heq
        subst heq
        exact StepOk.refl s
  | .arr xs, nid, k, s, s2 => fun heq => by
      simp only [processValue] at heq
      exact processArr_stepOk h g nid k xs s s2 heq
  | .null, nid, k, s, s2 => fun heq => by
      simp only [processValue] at heq
      injection heq with heq
      subst heq
      exact StepOk.refl s
  | .bool b, nid, k, s, s2 => fun heq => by
      simp only [processValue] at heq
      injection heq with heq
      subst heq
      exact StepOk.refl s
  | .num n, nid, k, s, s2 => fun heq => by
      simp only [processValue] at heq
      injection heq with heq
      subst heq
      exact StepOk.refl s
  | .str t, nid, k, s, s2 => fun heq => by
      simp only [processValue] at heq
      injection heq with heq
      subst heq
      exact StepOk.refl s
termination_by structural v => v
theorem processArrItem_stepOk (h : String → String) (g : Bool) :
    ∀ (v nid : JValue) (k : String) (s s2 : ConvState),
      processArrItem h g v nid k s = .ok s2 → StepOk s s2
  | .obj inner, nid, k, s, s2 => fun heq => by
      simp only [processArrItem] at heq
      by_cases hat : hasAtKey inner
      · rw [if_pos hat] at heq
        cases hv : visitNode h g inner (some (nid, k)) s with
        | error e =>
            rw [hv] at heq
            exact absurd heq (by simp [Bind.bind, Except.bind])
        | ok t =>
            obtain ⟨cid, s1, desc⟩ := t
            rw [hv] at heq
            simp only [Bind.bind, Except.bind] at heq
            have hvv := visitNode_ok h g inner (some (nid, k)) s cid s1 desc hv
            cases desc
            · simp only [Bool.false_eq_true, if_false] at heq
              injection heq with heq
              subst heq
              exact hvv.1
            · simp only [if_true] at heq
              exact hvv.1.trans (processEntries_stepOk h g cid inner s1 s2 heq)
      · rw [if_neg hat] at heq
        injection heq with heq
        subst heq
        exact StepOk.refl s
  | .arr xs, nid, k, s, s2 => fun heq => by
      simp only [processArrItem] at heq
      injection heq with heq
      subst heq
      exact StepOk.refl s
  | .null, nid, k, s, s2 => fun heq => by
      simp only [processArrItem] at heq
      injection heq with heq
      subst heq
      exact StepOk.refl s
  | .bool b, nid, k, s, s2 => fun heq => by
      simp only [processArrItem] at heq
      injection heq with heq
      subst heq
      exact StepOk.refl s
  | .num n, nid, k, s, s2 => fun heq => by
      simp only [processArrItem] at heq
      injection heq with heq
      subst heq
      exact StepOk.refl s
  | .str t, nid, k, s, s2 => fun heq => by
      simp only [processArrItem] at heq
      injection heq with heq
      subst heq
      exact StepOk.refl s
termination_by structural v => v
theorem processEntries_stepOk (h : String → String) (g : Bool) :
    ∀ (nid : JValue) (l : List (String × JValue)) (s s2 : ConvState),
      processEntries h g nid l s = .ok s2 → StepOk s s2
  | nid, [], s, s2 => fun heq => by
      simp only [processEntries] at heq
      injection heq with heq
      subst heq
      exact StepOk.refl s
  | nid, (k, v) :: rest, s, s2 => fun heq => by
      simp only [processEntries] at heq
      by_cases hsk : startsWithAt k
      · rw [if_pos hsk] at heq
        exact processEntries_stepOk h g nid rest s s2 heq
      · rw [if_neg hsk] at heq
        cases hv : processValue h g v nid k s with
        | error e =>
            rw [hv] at heq
            exact absurd heq (by simp [Bind.bind, Except.bind])
        | ok s1 =>
            rw [hv] at heq
            simp only [Bind.bind, Except.bind] at heq
            exact (processValue_stepOk h g v nid k s s1 hv).trans
              (processEntries_stepOk h g nid rest s1 s2 heq)
termination_by structural _ l _ _ => l
theorem processArr_stepOk (h : String → String) (g : Bool) :
    ∀ (nid : JValue) (k : String) (l : List JValue) (s s2 : ConvState),
      processArr h g nid k l s = .ok s2 → StepOk s s2
  | nid, k, [], s, s2 => fun heq => by
      simp only [processArr] at heq
      injection heq with heq
      subst heq
      exact StepOk.refl s
  | nid, k, x :: rest, s, s2 => fun heq => by
      simp only [processArr] at heq
      cases hv : processArrItem h g x nid k s with
      | error e =>
          rw [hv] at heq
          exact absurd heq (by simp [Bind.bind, Except.bind])
      | ok s1 =>
          rw [hv] at heq
          simp only [Bind.bind, Except.bind] at heq
          exact (processArrItem_stepOk h g x nid k s s1 hv).trans
            (processArr_stepOk h g nid k rest s1 s2 heq)
termination_by structural _ _ l _ _ => l
end


theorem StepOk.mem_node_ids {s1 s2 : ConvState} (h : StepOk s1 s2) {x : JValue}
    (hx : x ∈ s1.node_ids) : x ∈ s2.node_ids := by
  obtain ⟨⟨dn, de, di, _, _, e3⟩, _, _⟩ := h
  rw [e3]
  exact List.mem_append_left di hx

theorem _process_object_ok (h : String → String) (g : Bool)
    (es : List (String × JValue)) (s : ConvState) (nid : JValue) (s2 : ConvState)
    (heq : _process_object h g es s = .ok (nid, s2)) :
    StepOk s s2 ∧ nid ∈ s2.node_ids := by
  unfold _process_object at heq
  cases hv : visitNode h g es none s with
  | error e =>
      rw [hv] at heq
      exact absurd heq (by simp [Bind.bind, Except.bind])
  | ok t =>
      obtain ⟨v, s1, desc⟩ := t
      rw [hv] at heq
      simp only [Bind.bind, Except.bind] at heq
      have hvv := visitNode_ok h g es none s v s1 desc hv
      cases desc
      · simp only [Bool.false_eq_true, if_false] at heq
        injection heq with heq
        injection heq with h1 h2
        subst h1
        subst h2
        exact hvv
      · simp only [if_true] at heq
        cases hp : processEntries h g v es s1 with
        | error e =>
            rw [hp] at heq
            exact absurd heq (by simp [Bind.bind, Except.bind])
        | ok s3 =>
            rw [hp] at heq
            simp only [Bind.bind, Except.bind] at heq
            injection heq with heq
            injection heq with h1 h2
            subst h1
            subst h2
            have hstep := processEntries_stepOk h g v es s1 _ hp
            exact ⟨hvv.1.trans hstep, hstep.mem_node_ids hvv.2⟩

theorem convert_ok (h : String → String) (ic g : Bool) (d : JValue) (res : PGDocument)
    (heq : convert_jsonld_to_pgjson h ic g d = .ok res) :
    res.metadata.node_count = res.graph.nodes.length ∧
    res.metadata.edge_count = res.graph.edges.length ∧
    (∃ rid, res.metadata.root_node = some rid ∧
      rid ∈ res.graph.nodes.map (fun n => n.id)) ∧
    (res.graph.nodes.map (fun n => n.id)).Nodup := by
  unfold convert_jsonld_to_pgjson at heq
  cases d with
  | obj entries =>
    simp only at heq
    cases hp : _process_object h g entries ⟨[], [], []⟩ with
    | error e =>
        rw [hp] at heq
        exact absurd heq (by simp [Bind.bind, Except.bind])
    | ok t =>
        obtain ⟨rid, s⟩ := t
        rw [hp] at heq
        simp only [Bind.bind, Except.bind] at heq
        injection heq with heq
        subst heq
        obtain ⟨hstep, hmem⟩ := _process_object_ok h g entries ⟨[], [], []⟩ rid s hp
        have hinv0 : StInv ⟨[], [], []⟩ := rfl
        have hinv : StInv s := hstep.2.1 hinv0
        have hnd : s.node_ids.Nodup := hstep.2.2 hinv0 (List.nodup_nil)
        refine ⟨rfl, rfl, ⟨rid, rfl, ?_⟩, ?_⟩
        · unfold StInv at hinv
          rw [← hinv]
          exact hmem
        · unfold StInv at hinv
          rw [← hinv]
          exact hnd
  | null => exact absurd heq (by simp)
  | bool b => exact absurd heq (by simp)
  | num n => exact absurd heq (by simp)
  | str t => exact absurd heq (by simp)
  | arr xs => exact absurd heq (by simp)


/-- Claim C9: for every input dict the converter accepts, the returned
PG-JSON document has node_count equal to the length of the node list,
edge_count equal to the length of the edge list, and a root_node that is
the id of a node present in the node list. -/
theorem claim_C9_metadata_invariants (uuid5hash : String → String)
    (include_context generate_ids : Bool) (d : JValue) (res : PGDocument)
    (heq : convert_jsonld_to_pgjson uuid5hash include_context generate_ids d = .ok res) :
    res.metadata.node_count = res.graph.nodes.length ∧
    res.metadata.edge_count = res.graph.edges.length ∧
    ∃ rid, res.metadata.root_node = some rid ∧
      rid ∈ res.graph.nodes.map (fun n => n.id) := by
  obtain ⟨h1, h2, h3, _⟩ :=
    convert_ok uuid5hash include_context generate_ids d res heq
  exact ⟨h1, h2, h3⟩

def hashW : String → String := fun _ => "9a8b7c6d-1111-5222-8333-444455556666"

def docDupW : JValue := .obj [
  ("@context", .str "https://schema.org/"),
  ("@type", .str "Dataset"),
  ("@id", .str "dataset-1"),
  ("distribution", .arr [
     .obj [("@type", .str "FileObject"), ("@id", .str "file-1"), ("name", .str "data.csv")],
     .obj [("@type", .str "FileObject"), ("@id", .str "file-1"), ("name", .str "data.csv")]])]

/-- Witness for claim C9 on a concrete document. -/
theorem claim_C9_witness :
    ∃ res, convert_jsonld_to_pgjson hashW true true docDupW = .ok res ∧
      res.metadata.node_count = res.graph.nodes.length ∧
      res.metadata.edge_count = res.graph.edges.length ∧
      ∃ rid, res.metadata.root_node = some rid ∧
        rid ∈ res.graph.nodes.map (fun n => n.id) := by
  have hok : (convert_jsonld_to_pgjson hashW true true docDupW).isOk = true := by decide
  cases hc : convert_jsonld_to_pgjson hashW true true docDupW with
  | error e => rw [hc] at hok; exact absurd hok (by simp [Except.isOk, Except.toBool])
  | ok res =>
      exact ⟨res, rfl, claim_C9_metadata_invariants hashW true true docDupW res hc⟩

/-- Claim C3: deduplication of repeated references. First, every PG-JSON
document the converter produces carries pairwise distinct node ids (exactly
one node per id, however often an object is referenced). Second, a nested
reference to an object whose id is already in the emitted set only appends
the one edge from the current parent under the current relationship label:
no node is added and the repeated object is not descended into (the
returned state is exactly the input state with that single edge appended). -/
theorem claim_C3_dedup (uuid5hash : String → String) (generate_ids : Bool) :
    (∀ (include_context : Bool) (d : JValue) (res : PGDocument),
       convert_jsonld_to_pgjson uuid5hash include_context generate_ids d = .ok res →
       (res.graph.nodes.map (fun n => n.id)).Nodup) ∧
    (∀ (entries : List (String × JValue)) (nid : JValue) (k : String) (s : ConvState)
       (cid : JValue),
       hasAtKey entries = true →
       computeNodeId uuid5hash generate_ids entries = .ok cid →
       cid ∈ s.node_ids →
       pyTruthy nid = true →
       k.data.isEmpty = false →
       processValue uuid5hash generate_ids (.obj entries) nid k s =
         .ok { s with edges := s.edges ++ [_create_edge nid cid k] }) := by
  constructor
  · intro ic d res heq
    exact (convert_ok uuid5hash ic generate_ids d res heq).2.2.2
  · intro entries nid k s cid hat hid hmem htr hk
    simp only [processValue, if_pos hat]
    unfold visitNode
    rw [hid]
    simp only [Bind.bind, Except.bind, if_pos hmem]
    unfold maybeEdge
    simp only [htr, hk, Bool.not_false, Bool.and_self, if_true]
    simp



/-- Witness for claim C3: a document referencing the same file object twice
yields one file node (two nodes in all, with distinct ids) and two edges,
and the dedup step at an already-seen id appends exactly one edge. -/
theorem claim_C3_witness :
    (∃ res, convert_jsonld_to_pgjson hashW false true docDupW = .ok res ∧
       (res.graph.nodes.map (fun n => n.id)).Nodup) ∧
    (convert_jsonld_to_pgjson hashW false true docDupW).map
        (fun r => (r.graph.nodes.length, r.graph.edges.length)) = .ok (2, 2) ∧
    processValue hashW true
        (.obj [("@type", .str "FileObject"), ("@id", .str "file-1"), ("name", .str "data.csv")])
        (.str "dataset-1") "distribution" ⟨[], [], [.str "file-1"]⟩ =
      .ok ⟨[], [_create_edge (.str "dataset-1") (.str "file-1") "distribution"],
        [.str "file-1"]⟩ := by
  refine ⟨?_, by decide, ?_⟩
  · have hok : (convert_jsonld_to_pgjson hashW false true docDupW).isOk = true := by decide
    cases hc : convert_jsonld_to_pgjson hashW false true docDupW with
    | error e => rw [hc] at hok; exact absurd hok (by simp [Except.isOk, Except.toBool])
    | ok res => exact ⟨res, rfl, (claim_C3_dedup hashW true).1 false docDupW res hc⟩
  · exact (claim_C3_dedup hashW true).2 _ _ _ _ _ (by decide) (by decide) (by decide)
      (by decide) (by decide)


theorem checkIdShape_ok_shape {entries : List (String × JValue)} {idv : JValue}
    (hid : getKey entries "@id" = some idv) (h : checkIdShape entries = .ok ()) :
    ∃ s, idv = .str s ∧ pyUuidParseOk s = true := by
  unfold checkIdShape at h
  rw [hid] at h
  cases idv with
  | str s =>
      refine ⟨s, rfl, ?_⟩
      by_contra hpu
      simp only [Bool.not_eq_true] at hpu
      have h2 : _validate_uuid (.str s) "@id" = .ok () := by
        simpa [Bind.bind, Except.bind] using h
      unfold _validate_uuid at h2
      simp only [hpu] at h2
      simp at h2
  | null => simp [Bind.bind, Except.bind] at h
  | bool b => simp [Bind.bind, Except.bind] at h
  | num n => simp [Bind.bind, Except.bind] at h
  | arr xs => simp [Bind.bind, Except.bind] at h
  | obj es => simp [Bind.bind, Except.bind] at h

theorem checkIdShape_err_parse {entries : List (String × JValue)} {s : String}
    (hid : getKey entries "@id" = some (.str s)) (hpu : pyUuidParseOk s = false) :
    checkIdShape entries = .error ("'@id' must be a valid UUID, got '" ++ s ++ "'") := by
  unfold checkIdShape
  rw [hid]
  show _validate_uuid (JValue.str s) "@id" =
    .error ("'@id' must be a valid UUID, got '" ++ s ++ "'")
  unfold _validate_uuid
  simp only [hpu]
  simp [pyStr]

/-- Claim C2 (corrected): with an at-id present, validation succeeds only if
the at-id is a string that uuid.UUID parses, of any version (the code never
inspects the version, so a version-1 UUID passes, refuting the version-4
reading); and a string at-id that fails the UUID parse makes validation fail
with the bad-identifier message naming the field and the offending value,
provided the checks that run earlier (context presence and shape, the
strict-mode and shape checks of at-type) pass. -/
theorem claim_C2_id_uuid_corrected (entries : List (String × JValue)) (strict : Bool)
    (idv : JValue) (hid : getKey entries "@id" = some idv) :
    (∀ r, validate_jsonld (.obj entries) strict = .ok r →
       ∃ s, idv = .str s ∧ pyUuidParseOk s = true) ∧
    (∀ s ctx, idv = .str s → pyUuidParseOk s = false →
       getKey entries "@context" = some ctx →
       checkContextType ctx = .ok () →
       checkStrictType entries strict = .ok () →
       checkTypeShape entries = .ok () →
       validate_jsonld (.obj entries) strict =
         .error ("'@id' must be a valid UUID, got '" ++ s ++ "'")) := by
  constructor
  · intro r heq
    unfold validate_jsonld at heq
    simp only at heq
    cases hco : getKey entries "@context" with
    | none => rw [hco] at heq; simp at heq
    | some ctx =>
        rw [hco] at heq
        simp only at heq
        obtain ⟨h1, heq⟩ := exceptSeq_ok heq
        obtain ⟨h2, heq⟩ := exceptSeq_ok heq
        obtain ⟨h3, heq⟩ := exceptSeq_ok heq
        obtain ⟨h4, heq⟩ := exceptSeq_ok heq
        exact checkIdShape_ok_shape hid h4
  · intro s ctx hie hpu hco hcty hst hty
    subst hie
    unfold validate_jsonld
    simp only [hco]
    rw [exceptSeq_pass hcty, exceptSeq_pass hst, exceptSeq_pass hty]
    exact exceptSeq_err (checkIdShape_err_parse hid hpu)

/-- Witness for claim C2: a document with a malformed at-id is rejected with
the message naming the field and the value; the earlier checks of the same
document pass. -/
theorem claim_C2_witness :
    getKey [("@context", JValue.str "https://schema.org/"),
        ("@id", JValue.str "not-a-uuid")] "@id" = some (.str "not-a-uuid") ∧
    pyUuidParseOk "not-a-uuid" = false ∧
    (∀ r, validate_jsonld (.obj [("@context", JValue.str "https://schema.org/"),
        ("@id", JValue.str "not-a-uuid")]) false = .ok r →
       ∃ s, (JValue.str "not-a-uuid") = .str s ∧ pyUuidParseOk s = true) ∧
    validate_jsonld (.obj [("@context", JValue.str "https://schema.org/"),
        ("@id", JValue.str "not-a-uuid")]) false =
      .error "'@id' must be a valid UUID, got 'not-a-uuid'" := by
  refine ⟨by decide, by decide, ?_, ?_⟩
  · exact (claim_C2_id_uuid_corrected
      [("@context", JValue.str "https://schema.org/"), ("@id", JValue.str "not-a-uuid")]
      false (JValue.str "not-a-uuid") (by decide)).1
  · exact (claim_C2_id_uuid_corrected
      [("@context", JValue.str "https://schema.org/"), ("@id", JValue.str "not-a-uuid")]
      false (JValue.str "not-a-uuid") (by decide)).2 "not-a-uuid"
      (.str "https://schema.org/") rfl (by decide) (by decide) (by decide) (by decide)
      (by decide)


/-- Counterexample to claim C2 as stated: a version-1 UUID (version nibble
1, not 4) under at-id passes validation, although it is not a version-4
UUID, so validation does not require version 4. -/
theorem claim_C2_counterexample :
    validate_jsonld (.obj [("@context", JValue.str "https://schema.org/"),
        ("@id", JValue.str "00000000-0000-1000-8000-000000000000")]) false =
      .ok (.obj [("@context", JValue.str "https://schema.org/"),
        ("@id", JValue.str "00000000-0000-1000-8000-000000000000")]) ∧
    isUuidV4 "00000000-0000-1000-8000-000000000000" = false :=
  ⟨by decide, by decide⟩


/-- Flat property value: an object with no JSON-LD keyword inside, a
nonempty array with no keyword-carrying object among its elements, or a
scalar. Such a value survives flattening as a verbatim property. -/
def flatValB : JValue → Bool
  | .obj es => !hasAtKey es
  | .arr xs => !xs.isEmpty && xs.all (fun x => !isDictWithAt x)
  | _ => true

/-- Flat document: every non-keyword entry has a flat value. -/
def flatDoc (kvs : List (String × JValue)) : Bool :=
  kvs.all (fun kv => startsWithAt kv.1 || flatValB kv.2)

theorem processArr_flat (h : String → String) (g : Bool) (nid : JValue) (k : String)
    (xs : List JValue) (s : ConvState)
    (hx : xs.all (fun x => !isDictWithAt x) = true) :
    processArr h g nid k xs s = .ok s := by
  induction xs with
  | nil => rfl
  | cons x rest ih =>
    simp only [List.all_cons, Bool.and_eq_true] at hx
    have hitem : processArrItem h g x nid k s = .ok s := by
      cases x with
      | obj es =>
          have : hasAtKey es = false := by
            have := hx.1
            simpa [isDictWithAt] using this
          simp [processArrItem, this]
      | null => rfl
      | bool b => rfl
      | num n => rfl
      | str t => rfl
      | arr ys => rfl
    simp only [processArr, Bind.bind, Except.bind, hitem]
    exact ih hx.2

theorem processEntries_flat (h : String → String) (g : Bool) (nid : JValue)
    (kvs : List (String × JValue)) (s : ConvState) (hf : flatDoc kvs = true) :
    processEntries h g nid kvs s = .ok s := by
  induction kvs with
  | nil => rfl
  | cons kv rest ih =>
    obtain ⟨k, v⟩ := kv
    simp only [flatDoc, List.all_cons, Bool.and_eq_true] at hf
    have hrest := ih (by simp [flatDoc, hf.2])
    by_cases hsk : startsWithAt k
    · simp only [processEntries, if_pos hsk]
      exact hrest
    · have hfv : flatValB v = true := by
        rcases Bool.or_eq_true_iff.mp hf.1 with h1 | h1
        · exact absurd h1 hsk
        · exact h1
      simp only [processEntries, if_neg hsk]
      have hv : processValue h g v nid k s = .ok s := by
        cases v with
        | obj es =>
            have : hasAtKey es = false := by simpa [flatValB] using hfv
            simp [processValue, this]
        | arr xs =>
            simp only [flatValB, Bool.and_eq_true] at hfv
            simp only [processValue]
            exact processArr_flat h g nid k xs s hfv.2
        | null => rfl
        | bool b => rfl
        | num n => rfl
        | str t => rfl
      simp only [Bind.bind, Except.bind, hv]
      exact hrest

theorem extractProps_flat (kvs : List (String × JValue)) (hf : flatDoc kvs = true) :
    extractProps kvs = kvs.filter (fun kv => !startsWithAt kv.1) := by
  induction kvs with
  | nil => rfl
  | cons kv rest ih =>
    obtain ⟨k, v⟩ := kv
    simp only [flatDoc, List.all_cons, Bool.and_eq_true] at hf
    have hrest := ih (by simp [flatDoc, hf.2])
    by_cases hsk : startsWithAt k
    · simp only [extractProps, if_pos hsk, List.filter_cons, hsk]
      simpa using hrest
    · have hfv : flatValB v = true := by
        rcases Bool.or_eq_true_iff.mp hf.1 with h1 | h1
        · exact absurd h1 hsk
        · exact h1
      simp only [extractProps, if_neg hsk, List.filter_cons]
      have hknb : (!startsWithAt k) = true := by simp [hsk]
      rw [hknb]
      simp only [if_true]
      cases v with
      | obj es =>
          have : hasAtKey es = false := by simpa [flatValB] using hfv
          simp [this, hrest]
      | arr xs =>
          simp only [flatValB, Bool.and_eq_true] at hfv
          have hfilter : xs.filter (fun x => !isDictWithAt x) = xs :=
            List.filter_eq_self.mpr (by
              intro x hx
              exact (List.all_eq_true.mp hfv.2) x hx)
          have hne : xs.isEmpty = false := by simpa using hfv.1
          simp [hfilter, hne, hrest]
      | null => simp [hrest]
      | bool b => simp [hrest]
      | num n => simp [hrest]
      | str t => simp [hrest]

theorem _clean_type_id {t : String} (h1 : t.data.contains ':' = false)
    (h2 : t.data.contains '/' = false) : _clean_type t = t := by
  unfold _clean_type
  rw [if_neg (by simpa using h1), if_neg (by simpa using h2)]



/-- Flattened node of a flat document: the truthy at-id, the cleaned at-type
as only label, and the non-keyword entries as properties. -/
def flatNode (idv tv : String) (kvs : List (String × JValue)) : PGNode :=
  { id := .str idv, labels := [tv],
    properties := kvs.filter (fun kv => !startsWithAt kv.1) }

/-- PG-JSON document holding one node, no edges, that node as root, and a
context. -/
def singleNodeDoc (node : PGNode) (ctx : JValue) : PGDocument :=
  { graph := { nodes := [node], edges := [] }
    metadata := { source_format := "JSON-LD", node_count := 1, edge_count := 0,
                  root_node := some node.id, context := some ctx } }

theorem convert_flat (h : String → String) (kvs : List (String × JValue))
    (ctx : JValue) (idv tv : String)
    (hco : getKey kvs "@context" = some ctx) (hctr : pyTruthy ctx = true)
    (hidk : getKey kvs "@id" = some (.str idv)) (hidt : pyTruthy (.str idv) = true)
    (hty : getKey kvs "@type" = some (.str tv))
    (hta : tv.data.contains ':' = false) (htb : tv.data.contains '/' = false)
    (hflat : flatDoc kvs = true) :
    convert_jsonld_to_pgjson h true true (.obj kvs) =
      .ok (singleNodeDoc (flatNode idv tv kvs) ctx) := by
  have hcni : computeNodeId h true kvs = .ok (.str idv) := by
    unfold computeNodeId
    rw [hidk]
    simp [hidt]
  have hntype : nodeTypeOf kvs = .str tv := by
    unfold nodeTypeOf
    rw [hty]
  have hvisit : visitNode h true kvs none ⟨[], [], []⟩ =
      .ok (.str idv, ⟨[flatNode idv tv kvs], [], [.str idv]⟩, true) := by
    unfold visitNode
    rw [hcni]
    simp only [Bind.bind, Except.bind]
    rw [if_neg (by simp)]
    simp only [maybeEdge, hntype, extractProps_flat kvs hflat]
    rw [show pyStr (JValue.str tv) = tv from rfl, _clean_type_id hta htb]
    rfl
  have hproc : _process_object h true kvs ⟨[], [], []⟩ =
      .ok (.str idv, ⟨[flatNode idv tv kvs], [], [.str idv]⟩) := by
    unfold _process_object
    rw [hvisit]
    simp only [Bind.bind, Except.bind, if_true]
    rw [processEntries_flat h true (.str idv) kvs _ hflat]
  unfold convert_jsonld_to_pgjson
  simp only
  rw [hproc]
  simp only [Bind.bind, Except.bind, hco, Option.getD_some]
  rw [if_pos (by simp [hctr])]
  rfl


theorem reverse_single (node : PGNode) (ctx : JValue) :
    convert_pgjson_to_jsonld (singleNodeDoc node ctx) none =
    .ok (.obj (("@context", ctx) :: ("@id", node.id) ::
      ("@type", .str (node.labels.headD "Node")) :: node.properties)) := by
  have hfind : List.find? (fun n => n.id == node.id) [node] = some node := by
    simp [List.find?]
  have hrec : ∀ fz : Nat,
      reconstructNode (singleNodeDoc node ctx).graph (Nat.succ (Nat.succ fz)) node.id =
      .ok (.obj (("@id", node.id) :: ("@type", .str (node.labels.headD "Node")) ::
        node.properties)) := by
    intro fz
    simp only [reconstructNode, hfind, singleNodeDoc, List.filter_nil, List.map_nil,
      dedupKeep, reconstructGroups, Bind.bind, Except.bind, List.append_nil]
  unfold convert_pgjson_to_jsonld
  simp only [singleNodeDoc, Bind.bind, Except.bind]
  have h6 : pgFuel { nodes := [node], edges := [] } = Nat.succ (Nat.succ 4) := rfl
  rw [h6]
  have := hrec 4
  simp only [singleNodeDoc] at this
  rw [this]


theorem canonEntries_eq_map (l : List (String × JValue)) :
    canonEntries l = l.map (fun kv => (kv.1, canonValue kv.2)) := by
  induction l with
  | nil => rfl
  | cons a rest ih =>
    obtain ⟨k, v⟩ := a
    simp [canonEntries, ih]

theorem getKey_mapVal (l : List (String × JValue)) (f : JValue → JValue) (k : String) :
    getKey (l.map (fun kv => (kv.1, f kv.2))) k = (getKey l k).map f := by
  induction l with
  | nil => rfl
  | cons a rest ih =>
    obtain ⟨k1, v⟩ := a
    by_cases hk : k1 = k
    · simp [getKey, hk]
    · simp [getKey, hk, ih]

theorem keys_mapVal (l : List (String × JValue)) (f : JValue → JValue) :
    (l.map (fun kv => (kv.1, f kv.2))).map Prod.fst = l.map Prod.fst := by
  induction l with
  | nil => rfl
  | cons a rest ih =>
    simp [ih]

theorem filter_key_mapVal (l : List (String × JValue)) (f : JValue → JValue)
    (p : String → Bool) :
    (l.map (fun kv => (kv.1, f kv.2))).filter (fun kv => p kv.1) =
      (l.filter (fun kv => p kv.1)).map (fun kv => (kv.1, f kv.2)) := by
  induction l with
  | nil => rfl
  | cons a rest ih =>
    obtain ⟨k, v⟩ := a
    by_cases hp : p k
    · simp [List.filter_cons, hp, ih]
    · simp [List.filter_cons, hp, ih]

theorem getKey_mem_keys {l : List (String × JValue)} {k : String} {v : JValue}
    (h : getKey l k = some v) : k ∈ l.map Prod.fst := by
  induction l with
  | nil => simp [getKey] at h
  | cons a rest ih =>
    obtain ⟨k1, v1⟩ := a
    by_cases hk : k1 = k
    · simp [hk]
    · simp only [getKey, if_neg hk] at h
      simp [ih h]

theorem getKey_none_of_not_mem {l : List (String × JValue)} {k : String}
    (h : k ∉ l.map Prod.fst) : getKey l k = none := by
  induction l with
  | nil => rfl
  | cons a rest ih =>
    obtain ⟨k1, v1⟩ := a
    simp only [List.map_cons, List.mem_cons] at h
    push_neg at h
    unfold getKey
    rw [if_neg (fun hh => h.1 hh.symm)]
    exact ih h.2

theorem keepKey_eq_nonAt {k : String} (h1 : k ≠ "@id") (h2 : k ≠ "@type") :
    keepKey k = !startsWithAt k := by
  unfold keepKey
  simp [h1, h2]

theorem filter_keep_eq_nonAt {l : List (String × JValue)}
    (h1 : "@id" ∉ l.map Prod.fst) (h2 : "@type" ∉ l.map Prod.fst) :
    l.filter (fun kv => keepKey kv.1) = l.filter (fun kv => !startsWithAt kv.1) := by
  induction l with
  | nil => rfl
  | cons a rest ih =>
    obtain ⟨k, v⟩ := a
    simp only [List.map_cons, List.mem_cons] at h1 h2
    push_neg at h1 h2
    have hk := keepKey_eq_nonAt (fun h => h1.1 h.symm) (fun h => h2.1 h.symm)
    simp only [List.filter_cons, hk]
    rw [ih h1.2 h2.2]


theorem filter_keep_perm_ty {l : List (String × JValue)} {tv : JValue}
    (hnd : (l.map Prod.fst).Nodup) (hnoid : "@id" ∉ l.map Prod.fst)
    (hty : getKey l "@type" = some tv) :
    (l.filter (fun kv => keepKey kv.1)).Perm
      (("@type", tv) :: l.filter (fun kv => !startsWithAt kv.1)) := by
  induction l with
  | nil => simp [getKey] at hty
  | cons a rest ih =>
    obtain ⟨k, v⟩ := a
    simp only [List.map_cons, List.nodup_cons] at hnd
    simp only [List.map_cons, List.mem_cons] at hnoid
    push_neg at hnoid
    by_cases hk : k = "@type"
    · subst hk
      have hv : v = tv := by
        unfold getKey at hty
        rw [if_pos rfl] at hty
        exact Option.some.inj hty
      subst hv
      have heq := filter_keep_eq_nonAt hnoid.2 hnd.1
      simp only [List.filter_cons]
      have h1 : keepKey "@type" = true := by decide
      have h2 : (!startsWithAt "@type") = false := by decide
      rw [h1, h2]
      simp only [if_true, if_false]
      rw [heq]
      simp
    · have hty_rest : getKey rest "@type" = some tv := by
        unfold getKey at hty
        rw [if_neg hk] at hty
        exact hty
      have hkid : (k == "@id") = false := by
        simp only [beq_eq_false_iff_ne, ne_eq]
        exact fun hh => hnoid.1 hh.symm
      have hkty : (k == "@type") = false := by
        simp only [beq_eq_false_iff_ne, ne_eq]
        exact hk
      have ihp := ih hnd.2 hnoid.2 hty_rest
      by_cases hsk : startsWithAt k
      · have hkeep : keepKey k = false := by
          unfold keepKey
          rw [hkid, hkty, hsk]
          rfl
        simp only [List.filter_cons, hkeep, hsk]
        simpa using ihp
      · have hkeep : keepKey k = true := by
          unfold keepKey
          rw [hkid, hkty]
          simp [hsk]
        have hna : (!startsWithAt k) = true := by simp [hsk]
        simp only [List.filter_cons, hkeep, hna, if_true]
        exact (ihp.cons (k, v)).trans (List.Perm.swap ("@type", tv) (k, v) _)

theorem filter_keep_perm_id {l : List (String × JValue)} {iv : JValue}
    (hnd : (l.map Prod.fst).Nodup) (hnoty : "@type" ∉ l.map Prod.fst)
    (hid : getKey l "@id" = some iv) :
    (l.filter (fun kv => keepKey kv.1)).Perm
      (("@id", iv) :: l.filter (fun kv => !startsWithAt kv.1)) := by
  induction l with
  | nil => simp [getKey] at hid
  | cons a rest ih =>
    obtain ⟨k, v⟩ := a
    simp only [List.map_cons, List.nodup_cons] at hnd
    simp only [List.map_cons, List.mem_cons] at hnoty
    push_neg at hnoty
    by_cases hk : k = "@id"
    · subst hk
      have hv : v = iv := by
        unfold getKey at hid
        rw [if_pos rfl] at hid
        exact Option.some.inj hid
      subst hv
      have heq := filter_keep_eq_nonAt hnd.1 hnoty.2
      simp only [List.filter_cons]
      have h1 : keepKey "@id" = true := by decide
      have h2 : (!startsWithAt "@id") = false := by decide
      rw [h1, h2]
      simp only [if_true, if_false]
      rw [heq]
      simp
    · have hid_rest : getKey rest "@id" = some iv := by
        unfold getKey at hid
        rw [if_neg hk] at hid
        exact hid
      have hkid : (k == "@id") = false := by
        simp only [beq_eq_false_iff_ne, ne_eq]
        exact hk
      have hkty : (k == "@type") = false := by
        simp only [beq_eq_false_iff_ne, ne_eq]
        exact fun hh => hnoty.1 hh.symm
      have ihp := ih hnd.2 hnoty.2 hid_rest
      by_cases hsk : startsWithAt k
      · have hkeep : keepKey k = false := by
          unfold keepKey
          rw [hkid, hkty, hsk]
          rfl
        simp only [List.filter_cons, hkeep, hsk]
        simpa using ihp
      · have hkeep : keepKey k = true := by
          unfold keepKey
          rw [hkid, hkty]
          simp [hsk]
        have hna : (!startsWithAt k) = true := by simp [hsk]
        simp only [List.filter_cons, hkeep, hna, if_true]
        exact (ihp.cons (k, v)).trans (List.Perm.swap ("@id", iv) (k, v) _)

theorem filter_keep_perm {l : List (String × JValue)} {iv tv : JValue}
    (hnd : (l.map Prod.fst).Nodup)
    (hid : getKey l "@id" = some iv) (hty : getKey l "@type" = some tv) :
    (l.filter (fun kv => keepKey kv.1)).Perm
      (("@id", iv) :: ("@type", tv) :: l.filter (fun kv => !startsWithAt kv.1)) := by
  induction l with
  | nil => simp [getKey] at hid
  | cons a rest ih =>
    obtain ⟨k, v⟩ := a
    simp only [List.map_cons, List.nodup_cons] at hnd
    by_cases hk : k = "@id"
    · subst hk
      have hv : v = iv := by
        unfold getKey at hid
        rw [if_pos rfl] at hid
        exact Option.some.inj hid
      subst hv
      have hty_rest : getKey rest "@type" = some tv := by
        unfold getKey at hty
        rw [if_neg (by decide)] at hty
        exact hty
      have hperm := filter_keep_perm_ty hnd.2 hnd.1 hty_rest
      simp only [List.filter_cons]
      have h1 : keepKey "@id" = true := by decide
      have h2 : (!startsWithAt "@id") = false := by decide
      rw [h1, h2]
      simp only [if_true, if_false]
      exact hperm.cons _
    · have hid_rest : getKey rest "@id" = some iv := by
        unfold getKey at hid
        rw [if_neg hk] at hid
        exact hid
      by_cases hk2 : k = "@type"
      · subst hk2
        have hv : v = tv := by
          unfold getKey at hty
          rw [if_pos rfl] at hty
          exact Option.some.inj hty
        subst hv
        have hperm := filter_keep_perm_id hnd.2 hnd.1 hid_rest
        simp only [List.filter_cons]
        have h1 : keepKey "@type" = true := by decide
        have h2 : (!startsWithAt "@type") = false := by decide
        rw [h1, h2]
        simp only [if_true, if_false]
        exact (hperm.cons ("@type", v)).trans (List.Perm.swap ("@id", iv) ("@type", v) _)
      · have hty_rest : getKey rest "@type" = some tv := by
          unfold getKey at hty
          rw [if_neg hk2] at hty
          exact hty
        have hkid : (k == "@id") = false := by
          simp only [beq_eq_false_iff_ne, ne_eq]
          exact hk
        have hkty : (k == "@type") = false := by
          simp only [beq_eq_false_iff_ne, ne_eq]
          exact hk2
        have ihp := ih hnd.2 hid_rest hty_rest
        by_cases hsk : startsWithAt k
        · have hkeep : keepKey k = false := by
            unfold keepKey
            rw [hkid, hkty, hsk]
            rfl
          simp only [List.filter_cons, hkeep, hsk]
          simpa using ihp
        · have hkeep : keepKey k = true := by
            unfold keepKey
            rw [hkid, hkty]
            simp [hsk]
          have hna : (!startsWithAt k) = true := by simp [hsk]
          simp only [List.filter_cons, hkeep, hna, if_true]
          refine (ihp.cons (k, v)).trans ?_
          refine (List.Perm.swap ("@id", iv) (k, v) _).trans ?_
          exact (List.Perm.swap ("@type", tv) (k, v) _).cons ("@id", iv)


theorem filter_keep_of_nonAt {l : List (String × JValue)}
    (h : ∀ kv ∈ l, startsWithAt kv.1 = false) :
    l.filter (fun kv => keepKey kv.1) = l := by
  refine List.filter_eq_self.mpr ?_
  intro kv hkv
  unfold keepKey
  rw [h kv hkv]
  simp

theorem canon_flat_eq (kvs : List (String × JValue)) (ctx : JValue) (idv tv : String)
    (hnd : (kvs.map Prod.fst).Nodup)
    (hidk : getKey kvs "@id" = some (.str idv))
    (hty : getKey kvs "@type" = some (.str tv)) :
    canonValue (.obj kvs) =
      canonValue (.obj (("@context", ctx) :: ("@id", .str idv) :: ("@type", .str tv) ::
        kvs.filter (fun kv => !startsWithAt kv.1))) := by
  have hL : canonEntries kvs = kvs.map (fun kv => (kv.1, canonValue kv.2)) :=
    canonEntries_eq_map kvs
  have hidL : getKey (canonEntries kvs) "@id" = some (.str idv) := by
    rw [hL, getKey_mapVal, hidk]
    rfl
  have htyL : getKey (canonEntries kvs) "@type" = some (.str tv) := by
    rw [hL, getKey_mapVal, hty]
    rfl
  have hndL : ((canonEntries kvs).map Prod.fst).Nodup := by
    rw [hL, keys_mapVal]
    exact hnd
  have hperm := filter_keep_perm hndL hidL htyL
  have hfcomm : (canonEntries kvs).filter (fun kv => !startsWithAt kv.1) =
      canonEntries (kvs.filter (fun kv => !startsWithAt kv.1)) := by
    rw [hL, filter_key_mapVal kvs canonValue (fun k => !startsWithAt k),
      canonEntries_eq_map]
  have hRkeep : (canonEntries (kvs.filter (fun kv => !startsWithAt kv.1))).filter
      (fun kv => keepKey kv.1) =
      canonEntries (kvs.filter (fun kv => !startsWithAt kv.1)) := by
    refine filter_keep_of_nonAt ?_
    intro kv hkv
    rw [canonEntries_eq_map] at hkv
    obtain ⟨kv0, hkv0, hmap⟩ := List.mem_map.mp hkv
    have := List.of_mem_filter hkv0
    rw [← hmap]
    simpa using this
  show JValue.obj (sortPairs ((canonEntries kvs).filter (fun kv => keepKey kv.1))) =
    JValue.obj (sortPairs ((canonEntries (("@context", ctx) :: ("@id", .str idv) ::
      ("@type", .str tv) :: kvs.filter (fun kv => !startsWithAt kv.1))).filter
        (fun kv => keepKey kv.1)))
  have hRHS : (canonEntries (("@context", ctx) :: ("@id", .str idv) ::
      ("@type", .str tv) :: kvs.filter (fun kv => !startsWithAt kv.1))).filter
        (fun kv => keepKey kv.1) =
      ("@id", .str idv) :: ("@type", .str tv) ::
        canonEntries (kvs.filter (fun kv => !startsWithAt kv.1)) := by
    simp only [canonEntries, List.filter_cons]
    have hc1 : keepKey "@context" = false := by decide
    have hc2 : keepKey "@id" = true := by decide
    have hc3 : keepKey "@type" = true := by decide
    rw [hc1, hc2, hc3]
    simp only [if_false, if_true]
    rw [hRkeep]
    rfl
  rw [hRHS]
  congr 1
  refine sortPairs_eq_of_perm ?_ ?_
  · refine hperm.trans ?_
    rw [hfcomm]
  · have hsub : (((canonEntries kvs).filter (fun kv => keepKey kv.1)).map Prod.fst).Sublist
        ((canonEntries kvs).map Prod.fst) :=
      (List.filter_sublist _).map Prod.fst
    exact hndL.sublist hsub


/-- Duplicate-free keys of an entry list, as a Boolean. -/
def nodupKeysB : List (String × JValue) → Bool
  | [] => true
  | (k, _) :: rest => !(rest.any (fun kv => kv.1 == k)) && nodupKeysB rest

/-- Relationship key usable as an edge label that survives _clean_type:
non-keyword, nonempty, free of the namespace separators. -/
def cleanKeyB (k : String) : Bool :=
  !startsWithAt k && !k.data.isEmpty && !k.data.contains ':' && !k.data.contains '/'

/-- Head shape of a node object: a truthy string at-id, a string at-type
free of namespace separators, and duplicate-free keys. -/
def headChecksB (es : List (String × JValue)) : Bool :=
  (match getKey es "@id" with
   | some (.str i) => !i.data.isEmpty
   | _ => false) &&
  (match getKey es "@type" with
   | some (.str t) => !t.data.contains ':' && !t.data.contains '/'
   | _ => false) &&
  nodupKeysB es

/-- Relationship-shaped value: a nested object carrying JSON-LD keywords, or
an array containing such objects. -/
def relValB : JValue → Bool
  | .obj es => hasAtKey es
  | .arr xs => xs.any (fun x => isDictWithAt x)
  | _ => false

/- Clean fragment of JSON-LD documents: every node object has the head
shape, every relationship entry has a clean key and nests either a single
clean node object or an array of at least two clean node objects, every
flat array is nonempty and free of keyword-carrying objects. -/
mutual
def cleanEntries : List (String × JValue) → Bool
  | [] => true
  | (k, v) :: rest => cleanEntryVal k v && cleanEntries rest
def cleanEntryVal (k : String) : JValue → Bool
  | .obj es =>
      if startsWithAt k then true
      else if hasAtKey es then cleanKeyB k && headChecksB es && cleanEntries es
      else true
  | .arr xs =>
      if startsWithAt k then true
      else if xs.any (fun x => isDictWithAt x) then
        cleanKeyB k && decide (2 ≤ xs.length) && cleanArr xs
      else !xs.isEmpty
  | _ => true
def cleanArr : List JValue → Bool
  | [] => true
  | x :: rest => cleanArrItem x && cleanArr rest
def cleanArrItem : JValue → Bool
  | .obj es => hasAtKey es && headChecksB es && cleanEntries es
  | _ => false
end

/-- Clean node object: head shape plus clean entries. -/
def cleanNode (es : List (String × JValue)) : Bool :=
  headChecksB es && cleanEntries es

/-- The at-id value of a node object. -/
def idValOf (es : List (String × JValue)) : JValue :=
  (getKey es "@id").getD .null

/-- The label the converter derives for a node object. -/
def labelOf (es : List (String × JValue)) : String :=
  _clean_type (pyStr (nodeTypeOf es))

/-- The node record the converter emits for a node object. -/
def nodeOf (es : List (String × JValue)) : PGNode :=
  { id := idValOf es, labels := [labelOf es], properties := extractProps es }

/- All node objects strictly nested inside an object, in traversal order. -/
mutual
def subObjsE : List (String × JValue) → List (List (String × JValue))
  | [] => []
  | (k, v) :: rest => subObjsKV k v ++ subObjsE rest
def subObjsKV (k : String) : JValue → List (List (String × JValue))
  | .obj inner =>
      if startsWithAt k then []
      else if hasAtKey inner then inner :: subObjsE inner
      else []
  | .arr xs => if startsWithAt k then [] else subObjsArr xs
  | _ => []
def subObjsArr : List JValue → List (List (String × JValue))
  | [] => []
  | x :: rest => subObjsItem x ++ subObjsArr rest
def subObjsItem : JValue → List (List (String × JValue))
  | .obj inner => if hasAtKey inner then inner :: subObjsE inner else []
  | _ => []
end

/- Nodes and edges the recursive descent of _process_object emits below a
node object, in emission order: per relationship entry, the child edge, the
child node, then the child's own subtree. -/
mutual
def flatEntries (nid : JValue) : List (String × JValue) → List PGNode × List PGEdge
  | [] => ([], [])
  | (k, v) :: rest =>
      ((flatKV nid k v).1 ++ (flatEntries nid rest).1,
        (flatKV nid k v).2 ++ (flatEntries nid rest).2)
termination_by structural l => l
def flatKV (nid : JValue) (k : String) : JValue → List PGNode × List PGEdge
  | .obj inner =>
      if startsWithAt k then ([], [])
      else if hasAtKey inner then
        (nodeOf inner :: (flatEntries (idValOf inner) inner).1,
          _create_edge nid (idValOf inner) k :: (flatEntries (idValOf inner) inner).2)
      else ([], [])
  | .arr xs => if startsWithAt k then ([], []) else flatArr nid k xs
  | _ => ([], [])
termination_by structural v => v
def flatArr (nid : JValue) (k : String) : List JValue → List PGNode × List PGEdge
  | [] => ([], [])
  | x :: rest =>
      ((flatItem nid k x).1 ++ (flatArr nid k rest).1,
        (flatItem nid k x).2 ++ (flatArr nid k rest).2)
termination_by structural l => l
def flatItem (nid : JValue) (k : String) : JValue → List PGNode × List PGEdge
  | .obj inner =>
      if hasAtKey inner then
        (nodeOf inner :: (flatEntries (idValOf inner) inner).1,
          _create_edge nid (idValOf inner) k :: (flatEntries (idValOf inner) inner).2)
      else ([], [])
  | _ => ([], [])
termination_by structural v => v
end

/-- Direct edges a node object owns: one per nested child, without the
edges of deeper descendants. -/
def ownEdgesVal (nid : JValue) (k : String) : JValue → List PGEdge
  | .obj inner => if hasAtKey inner then [_create_edge nid (idValOf inner) k] else []
  | .arr xs =>
      xs.filterMap (fun x =>
        match x with
        | .obj inner =>
            if hasAtKey inner then some (_create_edge nid (idValOf inner) k) else none
        | _ => none)
  | _ => []

def ownEdgesE (nid : JValue) : List (String × JValue) → List PGEdge
  | [] => []
  | (k, v) :: rest =>
      (if startsWithAt k then [] else ownEdgesVal nid k v) ++ ownEdgesE nid rest

/-- Relationship keys of a node object in entry order. -/
def relKeys (es : List (String × JValue)) : List String :=
  (es.filter (fun kv => !startsWithAt kv.1 && relValB kv.2)).map Prod.fst

/- The document the reverse converter reconstructs for a clean node object:
at-id, at-type from the label, the extracted properties, then one group per
relationship key in entry order, a single child nested as an object and an
array of children as an array. -/
mutual
def reconGroupsE : List (String × JValue) → List (String × JValue)
  | [] => []
  | (k, v) :: rest => reconGroupsKV k v ++ reconGroupsE rest
termination_by structural l => l
def reconGroupsKV (k : String) : JValue → List (String × JValue)
  | .obj inner =>
      if startsWithAt k then []
      else if hasAtKey inner then
        [(k, .obj (("@id", idValOf inner) :: ("@type", .str (labelOf inner)) ::
          extractProps inner ++ reconGroupsE inner))]
      else []
  | .arr xs =>
      if startsWithAt k then []
      else if xs.any (fun x => isDictWithAt x) then [(k, .arr (reconArrVals xs))]
      else []
  | _ => []
termination_by structural v => v
def reconArrVals : List JValue → List JValue
  | [] => []
  | x :: rest => reconItemVals x ++ reconArrVals rest
termination_by structural l => l
def reconItemVals : JValue → List JValue
  | .obj inner =>
      if hasAtKey inner then
        [.obj (("@id", idValOf inner) :: ("@type", .str (labelOf inner)) ::
          extractProps inner ++ reconGroupsE inner)]
      else []
  | _ => []
termination_by structural v => v
end

/-- Reconstruction result for a clean node object. -/
def reconN (es : List (String × JValue)) : JValue :=
  .obj (("@id", idValOf es) :: ("@type", .str (labelOf es)) ::
    extractProps es ++ reconGroupsE es)

/- Fuel sufficient to reconstruct a clean node object's groups. -/
mutual
def fuelE : List (String × JValue) → Nat
  | [] => 1
  | (k, v) :: rest => fuelKV k v + fuelE rest
termination_by structural l => l
def fuelKV (k : String) : JValue → Nat
  | .obj inner =>
      if startsWithAt k then 0
      else if hasAtKey inner then 4 + fuelE inner
      else 0
  | .arr xs =>
      if startsWithAt k then 0
      else if xs.any (fun x => isDictWithAt x) then 2 + fuelArr xs
      else 0
  | _ => 0
termination_by structural v => v
def fuelArr : List JValue → Nat
  | [] => 1
  | x :: rest => fuelItem x + fuelArr rest
termination_by structural l => l
def fuelItem : JValue → Nat
  | .obj inner => if hasAtKey inner then 3 + fuelE inner else 0
  | _ => 0
termination_by structural v => v
end

/-- Fuel sufficient to reconstruct a clean node object. -/
def fuelN (es : List (String × JValue)) : Nat := 1 + fuelE es

theorem headChecks_id {es : List (String × JValue)} (h : headChecksB es = true) :
    ∃ i, getKey es "@id" = some (.str i) ∧ pyTruthy (.str i) = true ∧
      idValOf es = .str i := by
  unfold headChecksB at h
  simp only [Bool.and_eq_true] at h
  obtain ⟨⟨h1, _⟩, _⟩ := h
  cases hgi : getKey es "@id" with
  | none => rw [hgi] at h1; exact absurd h1 (by simp)
  | some v =>
      rw [hgi] at h1
      cases v with
      | str i =>
          refine ⟨i, rfl, ?_, by simp [idValOf, hgi]⟩
          simpa [pyTruthy] using h1
      | null => exact absurd h1 (by simp)
      | bool b => exact absurd h1 (by simp)
      | num n => exact absurd h1 (by simp)
      | arr xs => exact absurd h1 (by simp)
      | obj o => exact absurd h1 (by simp)

theorem headChecks_type {es : List (String × JValue)} (h : headChecksB es = true) :
    ∃ t, getKey es "@type" = some (.str t) ∧ labelOf es = t := by
  unfold headChecksB at h
  simp only [Bool.and_eq_true] at h
  obtain ⟨⟨_, h2⟩, _⟩ := h
  cases hgt : getKey es "@type" with
  | none => rw [hgt] at h2; exact absurd h2 (by simp)
  | some v =>
      rw [hgt] at h2
      cases v with
      | str t =>
          refine ⟨t, rfl, ?_⟩
          simp only [Bool.and_eq_true] at h2
          unfold labelOf nodeTypeOf
          rw [hgt]
          exact _clean_type_id (by simpa using h2.1) (by simpa using h2.2)
      | null => exact absurd h2 (by simp)
      | bool b => exact absurd h2 (by simp)
      | num n => exact absurd h2 (by simp)
      | arr xs => exact absurd h2 (by simp)
      | obj o => exact absurd h2 (by simp)

theorem headChecks_nodupB {es : List (String × JValue)} (h : headChecksB es = true) :
    nodupKeysB es = true := by
  unfold headChecksB at h
  simp only [Bool.and_eq_true] at h
  exact h.2

theorem nodupKeysB_nodup : ∀ {l : List (String × JValue)},
    nodupKeysB l = true → (l.map Prod.fst).Nodup := by
  intro l
  induction l with
  | nil => intro _; simp
  | cons kv rest ih =>
      obtain ⟨k, v⟩ := kv
      intro h
      simp only [nodupKeysB, Bool.and_eq_true] at h
      refine List.nodup_cons.mpr ⟨?_, ih h.2⟩
      intro hc
      have hany : rest.any (fun kv => kv.1 == k) = true := by
        obtain ⟨p, hp, hpk⟩ := List.mem_map.mp hc
        apply List.any_eq_true.mpr
        refine ⟨p, hp, ?_⟩
        show (p.1 == k) = true
        rw [hpk]
        simp
      rw [hany] at h
      exact absurd h.1 (by simp)

theorem cleanKey_parts {k : String} (h : cleanKeyB k = true) :
    startsWithAt k = false ∧ k.data.isEmpty = false ∧ _clean_type k = k := by
  unfold cleanKeyB at h
  simp only [Bool.and_eq_true, Bool.not_eq_true'] at h
  exact ⟨h.1.1.1, h.1.1.2, _clean_type_id h.1.2 h.2⟩

theorem pyTruthy_idValOf {es : List (String × JValue)} (h : headChecksB es = true) :
    pyTruthy (idValOf es) = true := by
  obtain ⟨i, _, ht, hv⟩ := headChecks_id h
  rw [hv]
  exact ht

theorem computeNodeId_clean (h : String → String) (g : Bool)
    {es : List (String × JValue)} (hhc : headChecksB es = true) :
    computeNodeId h g es = .ok (idValOf es) := by
  obtain ⟨i, hgi, ht, hv⟩ := headChecks_id hhc
  unfold computeNodeId
  rw [hgi, hv]
  simp [ht]

theorem visitNode_clean (h : String → String) (g : Bool)
    (inner : List (String × JValue)) (nid : JValue) (k : String) (s : ConvState)
    (hhc : headChecksB inner = true)
    (hfresh : ¬ idValOf inner ∈ s.node_ids)
    (hnid : pyTruthy nid = true) (hk : k.data.isEmpty = false) :
    visitNode h g inner (some (nid, k)) s =
      .ok (idValOf inner,
        ⟨s.nodes ++ [nodeOf inner],
          s.edges ++ [_create_edge nid (idValOf inner) k],
          s.node_ids ++ [idValOf inner]⟩, true) := by
  unfold visitNode
  rw [computeNodeId_clean h g hhc]
  simp only [Bind.bind, Except.bind]
  rw [if_neg hfresh]
  unfold maybeEdge
  simp only
  rw [if_pos (by simp [hnid, hk])]
  rfl

theorem flatKV_at {k : String} (hsk : startsWithAt k = true) (nid : JValue) :
    ∀ v, flatKV nid k v = ([], []) := by
  intro v
  cases v <;> simp [flatKV, hsk]

theorem flatArr_scalar (nid : JValue) (k : String) :
    ∀ xs : List JValue, xs.all (fun x => !isDictWithAt x) = true →
      flatArr nid k xs = ([], []) := by
  intro xs
  induction xs with
  | nil => intro _; rfl
  | cons x rest ih =>
      intro hx
      simp only [List.all_cons, Bool.and_eq_true] at hx
      have hitem : flatItem nid k x = ([], []) := by
        cases x with
        | obj es =>
            have : hasAtKey es = false := by simpa [isDictWithAt] using hx.1
            simp [flatItem, this]
        | null => rfl
        | bool b => rfl
        | num n => rfl
        | str t => rfl
        | arr ys => rfl
      simp [flatArr, hitem, ih hx.2]

mutual
theorem pv_flat (h : String → String) (g : Bool) :
    ∀ (v nid : JValue) (k : String) (s : ConvState),
      cleanEntryVal k v = true → startsWithAt k = false → pyTruthy nid = true →
      (s.node_ids ++ (flatKV nid k v).1.map (fun n => n.id)).Nodup →
      processValue h g v nid k s =
        .ok ⟨s.nodes ++ (flatKV nid k v).1, s.edges ++ (flatKV nid k v).2,
          s.node_ids ++ (flatKV nid k v).1.map (fun n => n.id)⟩
  | .obj inner, nid, k, s => fun hcl hsk hnid hnd => by
      simp only [cleanEntryVal, if_neg (by simp [hsk] : ¬ startsWithAt k = true)] at hcl
      by_cases hat : hasAtKey inner
      · rw [if_pos hat] at hcl
        simp only [Bool.and_eq_true] at hcl
        obtain ⟨⟨hck, hhc⟩, hce⟩ := hcl
        have hkfacts := cleanKey_parts hck
        simp only [flatKV, if_neg (by simp [hsk] : ¬ startsWithAt k = true),
          if_pos hat] at hnd ⊢
        simp only [List.map_cons] at hnd
        have hfresh : ¬ idValOf inner ∈ s.node_ids := by
          rw [List.append_cons] at hnd
          have := (List.nodup_append.mp ((List.nodup_append.mp hnd).1)).2.2
          intro hc
          exact this hc (by
            show (nodeOf inner).id ∈ [(nodeOf inner).id]
            simp)
        simp only [processValue, if_pos hat]
        rw [visitNode_clean h g inner nid k s hhc hfresh hnid hkfacts.2.1]
        simp only [Bind.bind, Except.bind, if_true]
        rw [pe_flat h g (idValOf inner) inner
          ⟨s.nodes ++ [nodeOf inner], s.edges ++ [_create_edge nid (idValOf inner) k],
            s.node_ids ++ [idValOf inner]⟩ hce (pyTruthy_idValOf hhc)
          (by simpa only [List.append_assoc, List.singleton_append] using hnd)]
        simp only [List.append_assoc, List.singleton_append, List.map_cons]
        rfl
      · rw [if_neg hat] at hcl
        simp only [flatKV, if_neg (by simp [hsk] : ¬ startsWithAt k = true),
          if_neg hat]
        simp only [processValue, if_neg hat, List.append_nil, List.map_nil]
  | .arr xs, nid, k, s => fun hcl hsk hnid hnd => by
      simp only [cleanEntryVal, if_neg (by simp [hsk] : ¬ startsWithAt k = true)] at hcl
      by_cases hany : xs.any (fun x => isDictWithAt x)
      · rw [if_pos hany] at hcl
        simp only [Bool.and_eq_true] at hcl
        simp only [flatKV, if_neg (by simp [hsk] : ¬ startsWithAt k = true)] at hnd ⊢
        simp only [processValue]
        exact pa_flat h g nid k xs s ⟨hcl.2, hcl.1.1⟩ hsk hnid hnd
      · rw [if_neg hany] at hcl
        have hall : xs.all (fun x => !isDictWithAt x) = true := by
          rw [List.all_eq_true]
          intro x hx
          simp only [Bool.not_eq_true']
          by_contra hcc
          exact hany (List.any_eq_true.mpr ⟨x, hx, by simpa using hcc⟩)
        simp only [flatKV, if_neg (by simp [hsk] : ¬ startsWithAt k = true),
          flatArr_scalar nid k xs hall]
        simp only [processValue, List.append_nil, List.map_nil]
        exact processArr_flat h g nid k xs s hall
  | .null, nid, k, s => fun _ _ _ _ => by
      simp only [flatKV, processValue, List.append_nil, List.map_nil]
  | .bool b, nid, k, s => fun _ _ _ _ => by
      simp only [flatKV, processValue, List.append_nil, List.map_nil]
  | .num n, nid, k, s => fun _ _ _ _ => by
      simp only [flatKV, processValue, List.append_nil, List.map_nil]
  | .str t, nid, k, s => fun _ _ _ _ => by
      simp only [flatKV, processValue, List.append_nil, List.map_nil]
termination_by structural v => v
theorem pi_flat (h : String → String) (g : Bool) :
    ∀ (v nid : JValue) (k : String) (s : ConvState),
      cleanArrItem v = true → k.data.isEmpty = false → pyTruthy nid = true →
      (s.node_ids ++ (flatItem nid k v).1.map (fun n => n.id)).Nodup →
      processArrItem h g v nid k s =
        .ok ⟨s.nodes ++ (flatItem nid k v).1, s.edges ++ (flatItem nid k v).2,
          s.node_ids ++ (flatItem nid k v).1.map (fun n => n.id)⟩
  | .obj inner, nid, k, s => fun hcl hk hnid hnd => by
      simp only [cleanArrItem, Bool.and_eq_true] at hcl
      obtain ⟨⟨hat, hhc⟩, hce⟩ := hcl
      simp only [flatItem, if_pos hat] at hnd ⊢
      simp only [List.map_cons] at hnd
      have hfresh : ¬ idValOf inner ∈ s.node_ids := by
        rw [List.append_cons] at hnd
        have := (List.nodup_append.mp ((List.nodup_append.mp hnd).1)).2.2
        intro hc
        exact this hc (by
          show (nodeOf inner).id ∈ [(nodeOf inner).id]
          simp)
      simp only [processArrItem, if_pos hat]
      rw [visitNode_clean h g inner nid k s hhc hfresh hnid hk]
      simp only [Bind.bind, Except.bind, if_true]
      rw [pe_flat h g (idValOf inner) inner
        ⟨s.nodes ++ [nodeOf inner], s.edges ++ [_create_edge nid (idValOf inner) k],
          s.node_ids ++ [idValOf inner]⟩ hce (pyTruthy_idValOf hhc)
        (by simpa only [List.append_assoc, List.singleton_append] using hnd)]
      simp only [List.append_assoc, List.singleton_append, List.map_cons]
      rfl
  | .null, nid, k, s => fun hcl _ _ _ => by exact absurd hcl (by simp [cleanArrItem])
  | .bool b, nid, k, s => fun hcl _ _ _ => by exact absurd hcl (by simp [cleanArrItem])
  | .num n, nid, k, s => fun hcl _ _ _ => by exact absurd hcl (by simp [cleanArrItem])
  | .str t, nid, k, s => fun hcl _ _ _ => by exact absurd hcl (by simp [cleanArrItem])
  | .arr ys, nid, k, s => fun hcl _ _ _ => by exact absurd hcl (by simp [cleanArrItem])
termination_by structural v => v
theorem pe_flat (h : String → String) (g : Bool) :
    ∀ (nid : JValue) (l : List (String × JValue)) (s : ConvState),
      cleanEntries l = true → pyTruthy nid = true →
      (s.node_ids ++ (flatEntries nid l).1.map (fun n => n.id)).Nodup →
      processEntries h g nid l s =
        .ok ⟨s.nodes ++ (flatEntries nid l).1, s.edges ++ (flatEntries nid l).2,
          s.node_ids ++ (flatEntries nid l).1.map (fun n => n.id)⟩
  | nid, [], s => fun _ _ _ => by
      simp only [flatEntries, processEntries, List.append_nil, List.map_nil]
  | nid, (k, v) :: rest, s => fun hcl hnid hnd => by
      simp only [cleanEntries, Bool.and_eq_true] at hcl
      by_cases hsk : startsWithAt k
      · simp only [flatEntries, flatKV_at hsk nid v, List.nil_append] at hnd ⊢
        simp only [processEntries, if_pos hsk]
        exact pe_flat h g nid rest s hcl.2 hnid hnd
      · simp only [flatEntries, List.map_append] at hnd ⊢
        rw [← List.append_assoc] at hnd
        have hnd1 : (s.node_ids ++ (flatKV nid k v).1.map (fun n => n.id)).Nodup :=
          (List.nodup_append.mp hnd).1
        simp only [processEntries, if_neg hsk]
        rw [pv_flat h g v nid k s hcl.1 (by simpa using hsk) hnid hnd1]
        simp only [Bind.bind, Except.bind]
        rw [pe_flat h g nid rest
          ⟨s.nodes ++ (flatKV nid k v).1, s.edges ++ (flatKV nid k v).2,
            s.node_ids ++ (flatKV nid k v).1.map (fun n => n.id)⟩ hcl.2 hnid
          (by simpa only [List.append_assoc] using hnd)]
        simp only [List.append_assoc]
termination_by structural _ l _ => l
theorem pa_flat (h : String → String) (g : Bool) :
    ∀ (nid : JValue) (k : String) (l : List JValue) (s : ConvState),
      cleanArr l = true ∧ cleanKeyB k = true → startsWithAt k = false →
      pyTruthy nid = true →
      (s.node_ids ++ (flatArr nid k l).1.map (fun n => n.id)).Nodup →
      processArr h g nid k l s =
        .ok ⟨s.nodes ++ (flatArr nid k l).1, s.edges ++ (flatArr nid k l).2,
          s.node_ids ++ (flatArr nid k l).1.map (fun n => n.id)⟩
  | nid, k, [], s => fun _ _ _ _ => by
      simp only [flatArr, processArr, List.append_nil, List.map_nil]
  | nid, k, x :: rest, s => fun hcl hsk hnid hnd => by
      obtain ⟨hca, hck⟩ := hcl
      simp only [cleanArr, Bool.and_eq_true] at hca
      simp only [flatArr, List.map_append] at hnd ⊢
      rw [← List.append_assoc] at hnd
      have hnd1 : (s.node_ids ++ (flatItem nid k x).1.map (fun n => n.id)).Nodup :=
        (List.nodup_append.mp hnd).1
      simp only [processArr]
      rw [pi_flat h g x nid k s hca.1 (cleanKey_parts hck).2.1 hnid hnd1]
      simp only [Bind.bind, Except.bind]
      rw [pa_flat h g nid k rest
        ⟨s.nodes ++ (flatItem nid k x).1, s.edges ++ (flatItem nid k x).2,
          s.node_ids ++ (flatItem nid k x).1.map (fun n => n.id)⟩ ⟨hca.2, hck⟩ hsk hnid
        (by simpa only [List.append_assoc] using hnd)]
      simp only [List.append_assoc]
termination_by structural _ _ l _ => l
end

/-- The PG-JSON document the converter produces for a clean document. -/
def cleanPGGraph (kvs : List (String × JValue)) : PGGraph :=
  { nodes := nodeOf kvs :: (flatEntries (idValOf kvs) kvs).1
    edges := (flatEntries (idValOf kvs) kvs).2 }

def cleanPGDoc (kvs : List (String × JValue)) (ctx : JValue) : PGDocument :=
  { graph := cleanPGGraph kvs
    metadata :=
      { source_format := "JSON-LD"
        node_count := (nodeOf kvs :: (flatEntries (idValOf kvs) kvs).1).length
        edge_count := (flatEntries (idValOf kvs) kvs).2.length
        root_node := some (idValOf kvs)
        context := some ctx } }

theorem convert_clean (h : String → String) (kvs : List (String × JValue)) (ctx : JValue)
    (hhc : headChecksB kvs = true) (hce : cleanEntries kvs = true)
    (hco : getKey kvs "@context" = some ctx) (hctr : pyTruthy ctx = true)
    (hnd : (idValOf kvs :: (flatEntries (idValOf kvs) kvs).1.map (fun n => n.id)).Nodup) :
    convert_jsonld_to_pgjson h true true (.obj kvs) = .ok (cleanPGDoc kvs ctx) := by
  have hvisit : visitNode h true kvs none ⟨[], [], []⟩ =
      .ok (idValOf kvs, ⟨[nodeOf kvs], [], [idValOf kvs]⟩, true) := by
    unfold visitNode
    rw [computeNodeId_clean h true hhc]
    simp only [Bind.bind, Except.bind]
    rw [if_neg (by simp)]
    simp only [maybeEdge]
    rfl
  have hpe := pe_flat h true (idValOf kvs) kvs ⟨[nodeOf kvs], [], [idValOf kvs]⟩
    hce (pyTruthy_idValOf hhc) (by simpa only [List.singleton_append] using hnd)
  have hproc : _process_object h true kvs ⟨[], [], []⟩ =
      .ok (idValOf kvs,
        ⟨nodeOf kvs :: (flatEntries (idValOf kvs) kvs).1,
          (flatEntries (idValOf kvs) kvs).2,
          idValOf kvs :: (flatEntries (idValOf kvs) kvs).1.map (fun n => n.id)⟩) := by
    unfold _process_object
    rw [hvisit]
    simp only [Bind.bind, Except.bind, if_true]
    rw [hpe]
    rfl
  unfold convert_jsonld_to_pgjson
  simp only
  rw [hproc]
  simp only [Bind.bind, Except.bind, hco, Option.getD_some]
  rw [if_pos (by simp [hctr])]
  rfl

mutual
theorem fe_nodes_subObjs : ∀ (l : List (String × JValue)) (nid : JValue),
    (flatEntries nid l).1 = (subObjsE l).map nodeOf
  | [], nid => by simp [flatEntries, subObjsE]
  | (k, v) :: rest, nid => by
      simp only [flatEntries, subObjsE, List.map_append]
      rw [fkv_nodes_subObjs v nid k, fe_nodes_subObjs rest nid]
termination_by structural l => l
theorem fkv_nodes_subObjs : ∀ (v : JValue) (nid : JValue) (k : String),
    (flatKV nid k v).1 = (subObjsKV k v).map nodeOf
  | .obj inner, nid, k => by
      by_cases hsk : startsWithAt k
      · simp [flatKV, subObjsKV, hsk]
      · by_cases hat : hasAtKey inner
        · simp only [flatKV, subObjsKV, if_neg hsk, if_pos hat, List.map_cons]
          rw [fe_nodes_subObjs inner (idValOf inner)]
        · simp [flatKV, subObjsKV, hsk, hat]
  | .arr xs, nid, k => by
      by_cases hsk : startsWithAt k
      · simp [flatKV, subObjsKV, hsk]
      · simp only [flatKV, subObjsKV, if_neg hsk]
        exact fa_nodes_subObjs xs nid k
  | .null, nid, k => rfl
  | .bool b, nid, k => rfl
  | .num n, nid, k => rfl
  | .str t, nid, k => rfl
termination_by structural v => v
theorem fa_nodes_subObjs : ∀ (l : List JValue) (nid : JValue) (k : String),
    (flatArr nid k l).1 = (subObjsArr l).map nodeOf
  | [], nid, k => rfl
  | x :: rest, nid, k => by
      simp only [flatArr, subObjsArr, List.map_append]
      rw [fi_nodes_subObjs x nid k, fa_nodes_subObjs rest nid k]
termination_by structural l => l
theorem fi_nodes_subObjs : ∀ (v : JValue) (nid : JValue) (k : String),
    (flatItem nid k v).1 = (subObjsItem v).map nodeOf
  | .obj inner, nid, k => by
      by_cases hat : hasAtKey inner
      · simp only [flatItem, subObjsItem, if_pos hat, List.map_cons]
        rw [fe_nodes_subObjs inner (idValOf inner)]
      · simp [flatItem, subObjsItem, hat]
  | .arr xs, nid, k => rfl
  | .null, nid, k => rfl
  | .bool b, nid, k => rfl
  | .num n, nid, k => rfl
  | .str t, nid, k => rfl
termination_by structural v => v
end

theorem find_map_unique {α : Type} (F : α → PGNode) :
    ∀ (objs : List α) (d : α), (objs.map (fun o => (F o).id)).Nodup → d ∈ objs →
      (objs.map F).find? (fun n => n.id == (F d).id) = some (F d) := by
  intro objs
  induction objs with
  | nil => intro d _ hd; simp at hd
  | cons o rest ih =>
      intro d hnd hd
      simp only [List.map_cons, List.nodup_cons] at hnd
      rcases List.mem_cons.mp hd with rfl | hd2
      · simp [List.find?]
      · have hne : ((F o).id == (F d).id) = false := by
          rw [beq_eq_false_iff_ne]
          intro hc
          exact hnd.1 (by
            rw [hc]
            exact List.mem_map.mpr ⟨d, hd2, rfl⟩)
        simp only [List.map_cons, List.find?, hne]
        exact ih d hnd.2 hd2

theorem nodup_parts {α β : Type} {x : β} {A B : List α} {f : α → β}
    (H : (x :: (A ++ B).map f).Nodup) :
    (x :: A.map f).Nodup ∧ (x :: B.map f).Nodup ∧
      (∀ a ∈ A, ∀ b ∈ B, f a ≠ f b) ∧ (∀ a ∈ A, x ≠ f a) ∧ (∀ b ∈ B, x ≠ f b) := by
  rw [List.nodup_cons, List.map_append] at H
  obtain ⟨hx, hAB⟩ := H
  rw [List.nodup_append] at hAB
  obtain ⟨hA, hB, hdisj⟩ := hAB
  refine ⟨?_, ?_, ?_, ?_, ?_⟩
  · exact List.nodup_cons.mpr ⟨fun hc => hx (List.mem_append_left _ hc), hA⟩
  · exact List.nodup_cons.mpr ⟨fun hc => hx (List.mem_append_right _ hc), hB⟩
  · intro a ha b hb hfe
    exact hdisj (List.mem_map.mpr ⟨a, ha, rfl⟩) (by rw [hfe]; exact List.mem_map.mpr ⟨b, hb, rfl⟩)
  · intro a ha hfe
    exact hx (List.mem_append_left _ (by rw [hfe]; exact List.mem_map.mpr ⟨a, ha, rfl⟩))
  · intro b hb hfe
    exact hx (List.mem_append_right _ (by rw [hfe]; exact List.mem_map.mpr ⟨b, hb, rfl⟩))

mutual
theorem fe_filter_none : ∀ (l : List (String × JValue)) (nid x : JValue),
    ¬ x = nid → (∀ d ∈ subObjsE l, ¬ x = idValOf d) →
    (flatEntries nid l).2.filter (fun e => e.source == x) = []
  | [], nid, x => fun _ _ => rfl
  | (k, v) :: rest, nid, x => fun hx hds => by
      simp only [flatEntries, subObjsE, List.filter_append]
      rw [fkv_filter_none v nid x k hx (fun d hd => hds d (List.mem_append_left _ hd)),
        fe_filter_none rest nid x hx (fun d hd => hds d (List.mem_append_right _ hd))]
      rfl
termination_by structural l => l
theorem fkv_filter_none : ∀ (v : JValue) (nid x : JValue) (k : String),
    ¬ x = nid → (∀ d ∈ subObjsKV k v, ¬ x = idValOf d) →
    (flatKV nid k v).2.filter (fun e => e.source == x) = []
  | .obj inner, nid, x, k => fun hx hds => by
      by_cases hsk : startsWithAt k
      · simp [flatKV, hsk]
      · by_cases hat : hasAtKey inner
        · simp only [flatKV, if_neg hsk, if_pos hat, List.filter_cons]
          have hs : ((_create_edge nid (idValOf inner) k).source == x) = false := by
            rw [beq_eq_false_iff_ne]
            exact fun hc => hx (by rw [← hc]; rfl)
          rw [hs]
          show (flatEntries (idValOf inner) inner).2.filter (fun e => e.source == x) = []
          have hd0 : ¬ x = idValOf inner :=
            hds inner (by simp [subObjsKV, hsk, hat])
          refine fe_filter_none inner (idValOf inner) x hd0 ?_
          intro d hd
          exact hds d (by simp [subObjsKV, hsk, hat, hd])
        · simp [flatKV, hsk, hat]
  | .arr xs, nid, x, k => fun hx hds => by
      by_cases hsk : startsWithAt k
      · simp [flatKV, hsk]
      · simp only [flatKV, if_neg hsk]
        refine fa_filter_none xs nid x k hx ?_
        intro d hd
        exact hds d (by simp [subObjsKV, hsk, hd])
  | .null, nid, x, k => fun _ _ => rfl
  | .bool b, nid, x, k => fun _ _ => rfl
  | .num n, nid, x, k => fun _ _ => rfl
  | .str t, nid, x, k => fun _ _ => rfl
termination_by structural v => v
theorem fa_filter_none : ∀ (l : List JValue) (nid x : JValue) (k : String),
    ¬ x = nid → (∀ d ∈ subObjsArr l, ¬ x = idValOf d) →
    (flatArr nid k l).2.filter (fun e => e.source == x) = []
  | [], nid, x, k => fun _ _ => rfl
  | y :: rest, nid, x, k => fun hx hds => by
      simp only [flatArr, subObjsArr, List.filter_append]
      rw [fi_filter_none y nid x k hx (fun d hd => hds d (List.mem_append_left _ hd)),
        fa_filter_none rest nid x k hx (fun d hd => hds d (List.mem_append_right _ hd))]
      rfl
termination_by structural l => l
theorem fi_filter_none : ∀ (v : JValue) (nid x : JValue) (k : String),
    ¬ x = nid → (∀ d ∈ subObjsItem v, ¬ x = idValOf d) →
    (flatItem nid k v).2.filter (fun e => e.source == x) = []
  | .obj inner, nid, x, k => fun hx hds => by
      by_cases hat : hasAtKey inner
      · simp only [flatItem, if_pos hat, List.filter_cons]
        have hs : ((_create_edge nid (idValOf inner) k).source == x) = false := by
          rw [beq_eq_false_iff_ne]
          exact fun hc => hx (by rw [← hc]; rfl)
        rw [hs]
        show (flatEntries (idValOf inner) inner).2.filter (fun e => e.source == x) = []
        have hd0 : ¬ x = idValOf inner := hds inner (by simp [subObjsItem, hat])
        refine fe_filter_none inner (idValOf inner) x hd0 ?_
        intro d hd
        exact hds d (by simp [subObjsItem, hat, hd])
      · simp [flatItem, hat]
  | .arr ys, nid, x, k => fun _ _ => rfl
  | .null, nid, x, k => fun _ _ => rfl
  | .bool b, nid, x, k => fun _ _ => rfl
  | .num n, nid, x, k => fun _ _ => rfl
  | .str t, nid, x, k => fun _ _ => rfl
termination_by structural v => v
end

mutual
theorem fe_filter_own : ∀ (l : List (String × JValue)) (nid : JValue),
    (∀ d ∈ subObjsE l, ¬ nid = idValOf d) →
    (flatEntries nid l).2.filter (fun e => e.source == nid) = ownEdgesE nid l
  | [], nid => fun _ => rfl
  | (k, v) :: rest, nid => fun hds => by
      simp only [flatEntries, subObjsE, ownEdgesE, List.filter_append]
      rw [fkv_filter_own v nid k (fun d hd => hds d (List.mem_append_left _ hd)),
        fe_filter_own rest nid (fun d hd => hds d (List.mem_append_right _ hd))]
termination_by structural l => l
theorem fkv_filter_own : ∀ (v : JValue) (nid : JValue) (k : String),
    (∀ d ∈ subObjsKV k v, ¬ nid = idValOf d) →
    (flatKV nid k v).2.filter (fun e => e.source == nid) =
      (if startsWithAt k then [] else ownEdgesVal nid k v)
  | .obj inner, nid, k => fun hds => by
      by_cases hsk : startsWithAt k
      · simp [flatKV, hsk]
      · by_cases hat : hasAtKey inner
        · simp only [flatKV, if_neg hsk, if_pos hat, List.filter_cons]
          have hs : ((_create_edge nid (idValOf inner) k).source == nid) = true := by
            simp [_create_edge]
          rw [hs]
          simp only [if_true]
          have hd0 : ¬ nid = idValOf inner := hds inner (by simp [subObjsKV, hsk, hat])
          rw [fe_filter_none inner (idValOf inner) nid hd0
            (fun d hd => hds d (by simp [subObjsKV, hsk, hat, hd]))]
          simp [ownEdgesVal, hsk, hat]
        · simp [flatKV, ownEdgesVal, hsk, hat]
  | .arr xs, nid, k => fun hds => by
      by_cases hsk : startsWithAt k
      · simp [flatKV, hsk]
      · simp only [flatKV, if_neg hsk, if_neg hsk]
        rw [fa_filter_own xs nid k (fun d hd => hds d (by simp [subObjsKV, hsk, hd]))]
        simp [ownEdgesVal]
  | .null, nid, k => fun _ => by simp [flatKV, ownEdgesVal]
  | .bool b, nid, k => fun _ => by simp [flatKV, ownEdgesVal]
  | .num n, nid, k => fun _ => by simp [flatKV, ownEdgesVal]
  | .str t, nid, k => fun _ => by simp [flatKV, ownEdgesVal]
termination_by structural v => v
theorem fa_filter_own : ∀ (l : List JValue) (nid : JValue) (k : String),
    (∀ d ∈ subObjsArr l, ¬ nid = idValOf d) →
    (flatArr nid k l).2.filter (fun e => e.source == nid) =
      l.filterMap (fun x =>
        match x with
        | .obj inner =>
            if hasAtKey inner then some (_create_edge nid (idValOf inner) k) else none
        | _ => none)
  | [], nid, k => fun _ => rfl
  | y :: rest, nid, k => fun hds => by
      simp only [flatArr, subObjsArr, List.filter_append, List.filterMap_cons]
      rw [fi_filter_own y nid k (fun d hd => hds d (List.mem_append_left _ hd)),
        fa_filter_own rest nid k (fun d hd => hds d (List.mem_append_right _ hd))]
      cases y with
      | obj inner =>
          by_cases hat : hasAtKey inner
          · simp [hat]
          · simp [hat]
      | null => rfl
      | bool b => rfl
      | num n => rfl
      | str t => rfl
      | arr ys => rfl
termination_by structural l => l
theorem fi_filter_own : ∀ (v : JValue) (nid : JValue) (k : String),
    (∀ d ∈ subObjsItem v, ¬ nid = idValOf d) →
    (flatItem nid k v).2.filter (fun e => e.source == nid) =
      (match v with
       | .obj inner =>
           if hasAtKey inner then [_create_edge nid (idValOf inner) k] else []
       | _ => [])
  | .obj inner, nid, k => fun hds => by
      by_cases hat : hasAtKey inner
      · simp only [flatItem, if_pos hat, List.filter_cons]
        have hs : ((_create_edge nid (idValOf inner) k).source == nid) = true := by
          simp [_create_edge]
        rw [hs]
        simp only [if_true]
        have hd0 : ¬ nid = idValOf inner := hds inner (by simp [subObjsItem, hat])
        rw [fe_filter_none inner (idValOf inner) nid hd0
          (fun d hd => hds d (by simp [subObjsItem, hat, hd]))]
      · simp [flatItem, hat]
  | .arr ys, nid, k => fun _ => rfl
  | .null, nid, k => fun _ => rfl
  | .bool b, nid, k => fun _ => rfl
  | .num n, nid, k => fun _ => rfl
  | .str t, nid, k => fun _ => rfl
termination_by structural v => v
end

mutual
theorem fe_filter_desc : ∀ (l : List (String × JValue)) (nid : JValue)
    (dd : List (String × JValue)), dd ∈ subObjsE l →
    (nid :: (subObjsE l).map idValOf).Nodup →
    (flatEntries nid l).2.filter (fun e => e.source == idValOf dd) =
      ownEdgesE (idValOf dd) dd
  | [], nid, dd => fun hdd _ => by simp [subObjsE] at hdd
  | (k, v) :: rest, nid, dd => fun hdd hnd => by
      simp only [subObjsE] at hdd hnd
      obtain ⟨hA, hB, hABne, hxA, hxB⟩ := nodup_parts hnd
      simp only [flatEntries, List.filter_append]
      rcases List.mem_append.mp hdd with hddA | hddB
      · rw [fkv_filter_desc v nid k dd hddA hA,
          fe_filter_none rest nid (idValOf dd)
            (fun hc => hxA dd hddA hc.symm)
            (fun d hd => hABne dd hddA d hd),
          List.append_nil]
      · rw [fkv_filter_none v nid (idValOf dd) k
            (fun hc => hxB dd hddB hc.symm)
            (fun d hd hc => hABne d hd dd hddB hc.symm),
          fe_filter_desc rest nid dd hddB hB,
          List.nil_append]
termination_by structural l => l
theorem fkv_filter_desc : ∀ (v : JValue) (nid : JValue) (k : String)
    (dd : List (String × JValue)), dd ∈ subObjsKV k v →
    (nid :: (subObjsKV k v).map idValOf).Nodup →
    (flatKV nid k v).2.filter (fun e => e.source == idValOf dd) =
      ownEdgesE (idValOf dd) dd
  | .obj inner, nid, k, dd => fun hdd hnd => by
      by_cases hsk : startsWithAt k
      · simp [subObjsKV, hsk] at hdd
      · by_cases hat : hasAtKey inner
        · simp only [subObjsKV, if_neg hsk, if_pos hat] at hdd hnd
          simp only [flatKV, if_neg hsk, if_pos hat, List.filter_cons]
          have hxne : ¬ nid = idValOf dd := by
            have := List.nodup_cons.mp hnd
            intro hc
            exact this.1 (by
              rw [hc]
              rcases List.mem_cons.mp hdd with rfl | hdd2
              · exact List.mem_cons_self _ _
              · exact List.mem_cons_of_mem _ (List.mem_map.mpr ⟨dd, hdd2, rfl⟩))
          have hs : ((_create_edge nid (idValOf inner) k).source == idValOf dd) = false := by
            rw [beq_eq_false_iff_ne]
            exact fun hc => hxne hc
          rw [hs]
          show (flatEntries (idValOf inner) inner).2.filter
            (fun e => e.source == idValOf dd) = ownEdgesE (idValOf dd) dd
          have hnd2 : (idValOf inner :: (subObjsE inner).map idValOf).Nodup := by
            simpa using (List.nodup_cons.mp hnd).2
          rcases List.mem_cons.mp hdd with rfl | hdd2
          · exact fe_filter_own dd (idValOf dd) (by
              intro d hd hc
              exact (List.nodup_cons.mp hnd2).1 (by
                rw [hc]
                exact List.mem_map.mpr ⟨d, hd, rfl⟩))
          · exact fe_filter_desc inner (idValOf inner) dd hdd2 hnd2
        · simp [subObjsKV, hsk, hat] at hdd
  | .arr xs, nid, k, dd => fun hdd hnd => by
      by_cases hsk : startsWithAt k
      · simp [subObjsKV, hsk] at hdd
      · simp only [subObjsKV, if_neg hsk] at hdd hnd
        simp only [flatKV, if_neg hsk]
        exact fa_filter_desc xs nid k dd hdd hnd
  | .null, nid, k, dd => fun hdd _ => by simp [subObjsKV] at hdd
  | .bool b, nid, k, dd => fun hdd _ => by simp [subObjsKV] at hdd
  | .num n, nid, k, dd => fun hdd _ => by simp [subObjsKV] at hdd
  | .str t, nid, k, dd => fun hdd _ => by simp [subObjsKV] at hdd
termination_by structural v => v
theorem fa_filter_desc : ∀ (l : List JValue) (nid : JValue) (k : String)
    (dd : List (String × JValue)), dd ∈ subObjsArr l →
    (nid :: (subObjsArr l).map idValOf).Nodup →
    (flatArr nid k l).2.filter (fun e => e.source == idValOf dd) =
      ownEdgesE (idValOf dd) dd
  | [], nid, k, dd => fun hdd _ => by simp [subObjsArr] at hdd
  | y :: rest, nid, k, dd => fun hdd hnd => by
      simp only [subObjsArr] at hdd hnd
      obtain ⟨hA, hB, hABne, hxA, hxB⟩ := nodup_parts hnd
      simp only [flatArr, List.filter_append]
      rcases List.mem_append.mp hdd with hddA | hddB
      · rw [fi_filter_desc y nid k dd hddA hA,
          fa_filter_none rest nid (idValOf dd) k
            (fun hc => hxA dd hddA hc.symm)
            (fun d hd => hABne dd hddA d hd),
          List.append_nil]
      · rw [fi_filter_none y nid (idValOf dd) k
            (fun hc => hxB dd hddB hc.symm)
            (fun d hd hc => hABne d hd dd hddB hc.symm),
          fa_filter_desc rest nid k dd hddB hB,
          List.nil_append]
termination_by structural l => l
theorem fi_filter_desc : ∀ (v : JValue) (nid : JValue) (k : String)
    (dd : List (String × JValue)), dd ∈ subObjsItem v →
    (nid :: (subObjsItem v).map idValOf).Nodup →
    (flatItem nid k v).2.filter (fun e => e.source == idValOf dd) =
      ownEdgesE (idValOf dd) dd
  | .obj inner, nid, k, dd => fun hdd hnd => by
      by_cases hat : hasAtKey inner
      · simp only [subObjsItem, if_pos hat] at hdd hnd
        simp only [flatItem, if_pos hat, List.filter_cons]
        have hxne : ¬ nid = idValOf dd := by
          have := List.nodup_cons.mp hnd
          intro hc
          exact this.1 (by
            rw [hc]
            rcases List.mem_cons.mp hdd with rfl | hdd2
            · exact List.mem_cons_self _ _
            · exact List.mem_cons_of_mem _ (List.mem_map.mpr ⟨dd, hdd2, rfl⟩))
        have hs : ((_create_edge nid (idValOf inner) k).source == idValOf dd) = false := by
          rw [beq_eq_false_iff_ne]
          exact fun hc => hxne hc
        rw [hs]
        show (flatEntries (idValOf inner) inner).2.filter
          (fun e => e.source == idValOf dd) = ownEdgesE (idValOf dd) dd
        have hnd2 : (idValOf inner :: (subObjsE inner).map idValOf).Nodup := by
          simpa using (List.nodup_cons.mp hnd).2
        rcases List.mem_cons.mp hdd with rfl | hdd2
        · exact fe_filter_own dd (idValOf dd) (by
            intro d hd hc
            exact (List.nodup_cons.mp hnd2).1 (by
              rw [hc]
              exact List.mem_map.mpr ⟨d, hd, rfl⟩))
        · exact fe_filter_desc inner (idValOf inner) dd hdd2 hnd2
      · simp [subObjsItem, hat] at hdd
  | .arr ys, nid, k, dd => fun hdd _ => by simp [subObjsItem] at hdd
  | .null, nid, k, dd => fun hdd _ => by simp [subObjsItem] at hdd
  | .bool b, nid, k, dd => fun hdd _ => by simp [subObjsItem] at hdd
  | .num n, nid, k, dd => fun hdd _ => by simp [subObjsItem] at hdd
  | .str t, nid, k, dd => fun hdd _ => by simp [subObjsItem] at hdd
termination_by structural v => v
end

theorem dedupKeep_seen_prefix : ∀ (xs : List String) (seen ys : List String),
    (∀ x ∈ xs, seen.contains x = true) →
    dedupKeep seen (xs ++ ys) = dedupKeep seen ys := by
  intro xs
  induction xs with
  | nil => intro seen ys _; rfl
  | cons x rest ih =>
      intro seen ys hall
      simp only [List.cons_append, dedupKeep, hall x (List.mem_cons_self _ _), if_true]
      exact ih seen ys (fun y hy => hall y (List.mem_cons_of_mem _ hy))

theorem dedupKeep_replicate : ∀ (n : Nat) (k : String) (seen ys : List String),
    seen.contains k = false → 1 ≤ n →
    dedupKeep seen (List.replicate n k ++ ys) = k :: dedupKeep (k :: seen) ys := by
  intro n
  cases n with
  | zero => intro k seen ys _ h1; exact absurd h1 (by omega)
  | succ m =>
      intro k seen ys hk _
      simp only [List.replicate_succ, List.cons_append, dedupKeep, hk]
      rw [if_neg (by simp [hk])]
      congr 1
      refine dedupKeep_seen_prefix (List.replicate m k) (k :: seen) ys ?_
      intro x hx
      rw [List.eq_of_mem_replicate hx]
      simp

theorem ownEdgesVal_arr_types (nid : JValue) (k : String) :
    ∀ xs : List JValue,
      (ownEdgesVal nid k (.arr xs)).map (fun e => e.type) =
        List.replicate (xs.countP (fun x => isDictWithAt x)) (_clean_type k) := by
  intro xs
  induction xs with
  | nil => rfl
  | cons x rest ih =>
      cases x with
      | obj inner =>
          by_cases hat : hasAtKey inner
          · simp only [ownEdgesVal, List.filterMap_cons, hat, if_true] at ih ⊢
            simp only [List.map_cons, ih]
            rw [List.countP_cons_of_pos _ _ (by simp [isDictWithAt, hat])]
            rfl
          · simp only [ownEdgesVal, List.filterMap_cons, hat, if_false] at ih ⊢
            rw [List.countP_cons_of_neg _ _ (by simp [isDictWithAt, hat])]
            simpa [hat] using ih
      | null =>
          simp only [ownEdgesVal, List.filterMap_cons] at ih ⊢
          rw [List.countP_cons_of_neg _ _ (by simp [isDictWithAt])]
          exact ih
      | bool b =>
          simp only [ownEdgesVal, List.filterMap_cons] at ih ⊢
          rw [List.countP_cons_of_neg _ _ (by simp [isDictWithAt])]
          exact ih
      | num n2 =>
          simp only [ownEdgesVal, List.filterMap_cons] at ih ⊢
          rw [List.countP_cons_of_neg _ _ (by simp [isDictWithAt])]
          exact ih
      | str t =>
          simp only [ownEdgesVal, List.filterMap_cons] at ih ⊢
          rw [List.countP_cons_of_neg _ _ (by simp [isDictWithAt])]
          exact ih
      | arr ys =>
          simp only [ownEdgesVal, List.filterMap_cons] at ih ⊢
          rw [List.countP_cons_of_neg _ _ (by simp [isDictWithAt])]
          exact ih

theorem ownEdgesVal_type {nid : JValue} {k : String} :
    ∀ {v : JValue} {e : PGEdge}, e ∈ ownEdgesVal nid k v → e.type = _clean_type k := by
  intro v
  cases v with
  | obj inner =>
      intro e he
      by_cases hat : hasAtKey inner
      · simp only [ownEdgesVal, hat, if_true, List.mem_singleton] at he
        rw [he]
        rfl
      · simp [ownEdgesVal, hat] at he
  | arr xs =>
      intro e he
      simp only [ownEdgesVal, List.mem_filterMap] at he
      obtain ⟨x, _, hx⟩ := he
      cases x with
      | obj inner =>
          have hx2 : (if hasAtKey inner then
              some (_create_edge nid (idValOf inner) k) else none) = some e := hx
          by_cases hat : hasAtKey inner
          · rw [if_pos hat] at hx2
            injection hx2 with hx2
            rw [← hx2]
            rfl
          · rw [if_neg hat] at hx2
            exact absurd hx2 (by simp)
      | null => exact absurd (show (none : Option PGEdge) = some e from hx) (by simp)
      | bool b => exact absurd (show (none : Option PGEdge) = some e from hx) (by simp)
      | num n => exact absurd (show (none : Option PGEdge) = some e from hx) (by simp)
      | str t => exact absurd (show (none : Option PGEdge) = some e from hx) (by simp)
      | arr ys => exact absurd (show (none : Option PGEdge) = some e from hx) (by simp)
  | null => intro e he; simp [ownEdgesVal] at he
  | bool b => intro e he; simp [ownEdgesVal] at he
  | num n => intro e he; simp [ownEdgesVal] at he
  | str t => intro e he; simp [ownEdgesVal] at he

theorem nodupKeysB_head {k : String} {v : JValue} {rest : List (String × JValue)}
    (h : nodupKeysB ((k, v) :: rest) = true) :
    nodupKeysB rest = true ∧ ∀ p ∈ rest, ¬ p.1 = k := by
  simp only [nodupKeysB, Bool.and_eq_true, Bool.not_eq_true'] at h
  refine ⟨h.2, ?_⟩
  intro p hp hpk
  have := List.any_eq_false.mp h.1 p hp
  exact this (by simp [hpk])

theorem cleanEntries_rel_key : ∀ {l : List (String × JValue)},
    cleanEntries l = true → ∀ k v, (k, v) ∈ l → startsWithAt k = false →
      relValB v = true → cleanKeyB k = true := by
  intro l
  induction l with
  | nil => intro _ k v hm; simp at hm
  | cons p rest ih =>
      obtain ⟨k1, v1⟩ := p
      intro hce k v hm hsk hrel
      simp only [cleanEntries, Bool.and_eq_true] at hce
      rcases List.mem_cons.mp hm with heq | hm2
      · injection heq with h1 h2
        subst h1
        subst h2
        cases v with
        | obj es =>
            simp only [relValB] at hrel
            simp only [cleanEntryVal, if_neg (by simp [hsk] : ¬ startsWithAt k = true),
              if_pos hrel, Bool.and_eq_true] at hce
            exact hce.1.1.1
        | arr xs =>
            simp only [relValB] at hrel
            simp only [cleanEntryVal, if_neg (by simp [hsk] : ¬ startsWithAt k = true),
              if_pos hrel, Bool.and_eq_true] at hce
            exact hce.1.1.1
        | null => simp [relValB] at hrel
        | bool b => simp [relValB] at hrel
        | num n => simp [relValB] at hrel
        | str t => simp [relValB] at hrel
      · exact ih hce.2 k v hm2 hsk hrel

theorem ownEdgesVal_nonrel {nid : JValue} {k : String} {v : JValue}
    (h : relValB v = false) : ownEdgesVal nid k v = [] := by
  cases v with
  | obj es =>
      simp only [relValB] at h
      simp [ownEdgesVal, h]
  | arr xs =>
      simp only [relValB] at h
      simp only [ownEdgesVal]
      rw [List.filterMap_eq_nil]
      intro x hx
      cases x with
      | obj inner =>
          have := List.any_eq_false.mp h (.obj inner) hx
          simp only [isDictWithAt] at this
          simp [Bool.not_eq_true] at this
          simp [this]
      | null => rfl
      | bool b => rfl
      | num n => rfl
      | str t => rfl
      | arr ys => rfl
  | null => rfl
  | bool b => rfl
  | num n => rfl
  | str t => rfl

theorem ownEdgesVal_rel {nid : JValue} {k : String} {v : JValue} {e : PGEdge}
    (he : e ∈ ownEdgesVal nid k v) : relValB v = true := by
  by_contra hc
  rw [ownEdgesVal_nonrel (Bool.not_eq_true _ ▸ (by simpa using hc))] at he
  simp at he

theorem ownEdgesE_mem : ∀ {l : List (String × JValue)} {nid : JValue} {e : PGEdge},
    e ∈ ownEdgesE nid l →
    ∃ k2 v2, (k2, v2) ∈ l ∧ startsWithAt k2 = false ∧ e ∈ ownEdgesVal nid k2 v2 := by
  intro l
  induction l with
  | nil => intro nid e he; simp [ownEdgesE] at he
  | cons p rest ih =>
      obtain ⟨k1, v1⟩ := p
      intro nid e he
      simp only [ownEdgesE] at he
      rcases List.mem_append.mp he with hl | hr
      · by_cases hsk : startsWithAt k1
        · rw [if_pos hsk] at hl
          simp at hl
        · rw [if_neg hsk] at hl
          exact ⟨k1, v1, List.mem_cons_self _ _, by simpa using hsk, hl⟩
      · obtain ⟨k2, v2, hm, hs, hv⟩ := ih hr
        exact ⟨k2, v2, List.mem_cons_of_mem _ hm, hs, hv⟩

theorem ownE_filter_other : ∀ (l : List (String × JValue)) (nid : JValue) (k : String),
    cleanEntries l = true →
    (∀ p ∈ l, ¬ p.1 = k) →
    (ownEdgesE nid l).filter (fun e => e.type == k) = [] := by
  intro l nid k hce hne
  rw [List.filter_eq_nil]
  intro e he
  obtain ⟨k2, v2, hm, hs, hv⟩ := ownEdgesE_mem he
  have hrel := ownEdgesVal_rel hv
  have hck := cleanEntries_rel_key hce k2 v2 hm hs hrel
  have hty : e.type = k2 := by
    rw [ownEdgesVal_type hv, (cleanKey_parts hck).2.2]
  rw [hty]
  simp only [beq_iff_eq]
  exact hne (k2, v2) hm

theorem ownE_filter_key : ∀ (l : List (String × JValue)) (nid : JValue)
    (k : String) (v : JValue),
    cleanEntries l = true → nodupKeysB l = true →
    (k, v) ∈ l → startsWithAt k = false → relValB v = true →
    (ownEdgesE nid l).filter (fun e => e.type == k) = ownEdgesVal nid k v := by
  intro l
  induction l with
  | nil => intro nid k v _ _ hm; simp at hm
  | cons p rest ih =>
      obtain ⟨k1, v1⟩ := p
      intro nid k v hce hnk hm hsk hrel
      have hce2 : cleanEntries ((k1, v1) :: rest) = true := hce
      simp only [cleanEntries, Bool.and_eq_true] at hce
      obtain ⟨hnk2, hkey1⟩ := nodupKeysB_head hnk
      simp only [ownEdgesE, List.filter_append]
      rcases List.mem_cons.mp hm with heq | hm2
      · injection heq with h1 h2
        subst h1
        subst h2
        have hck := cleanEntries_rel_key hce2 k v (List.mem_cons_self _ _) hsk hrel
        rw [if_neg (by simp [hsk] : ¬ startsWithAt k = true)]
        have h1 : (ownEdgesVal nid k v).filter (fun e => e.type == k) =
            ownEdgesVal nid k v := by
          rw [List.filter_eq_self]
          intro e he
          rw [ownEdgesVal_type he, (cleanKey_parts hck).2.2]
          simp
        have h2 : (ownEdgesE nid rest).filter (fun e => e.type == k) = [] := by
          refine ownE_filter_other rest nid k hce.2 ?_
          intro p hp
          exact hkey1 p hp
        rw [h1, h2, List.append_nil]
      · have hkne : ¬ k1 = k := by
          intro hc
          exact hkey1 (k, v) hm2 hc.symm
        have h1 : (if startsWithAt k1 then [] else ownEdgesVal nid k1 v1).filter
            (fun e => e.type == k) = [] := by
          by_cases hsk1 : startsWithAt k1
          · simp [hsk1]
          · rw [if_neg hsk1]
            by_cases hrel1 : relValB v1
            · have hck1 := cleanEntries_rel_key hce2 k1 v1 (List.mem_cons_self _ _)
                (by simpa using hsk1) hrel1
              rw [List.filter_eq_nil]
              intro e he
              rw [ownEdgesVal_type he, (cleanKey_parts hck1).2.2]
              simp only [beq_iff_eq]
              exact hkne
            · rw [ownEdgesVal_nonrel (by simpa using hrel1)]
              rfl
        rw [h1, List.nil_append]
        exact ih nid k v hce.2 hnk2 hm2 hsk hrel

theorem relKeys_subset_keys {l : List (String × JValue)} {k2 : String}
    (h : k2 ∈ relKeys l) : ∃ v2, (k2, v2) ∈ l := by
  unfold relKeys at h
  obtain ⟨p, hp, hpk⟩ := List.mem_map.mp h
  exact ⟨p.2, by rw [← hpk]; simpa using List.mem_of_mem_filter hp⟩

theorem dedup_ownE : ∀ (l : List (String × JValue)) (nid : JValue) (seen : List String),
    cleanEntries l = true → nodupKeysB l = true →
    (∀ k2 ∈ relKeys l, seen.contains k2 = false) →
    dedupKeep seen ((ownEdgesE nid l).map (fun e => e.type)) = relKeys l := by
  intro l
  induction l with
  | nil => intro nid seen _ _ _; rfl
  | cons p rest ih =>
      obtain ⟨k, v⟩ := p
      intro nid seen hce hnk hseen
      have hce2 : cleanEntries ((k, v) :: rest) = true := hce
      simp only [cleanEntries, Bool.and_eq_true] at hce
      obtain ⟨hnk2, hkey1⟩ := nodupKeysB_head hnk
      have hrk : relKeys ((k, v) :: rest) =
          (if (!startsWithAt k && relValB v) = true then k :: relKeys rest
            else relKeys rest) := by
        unfold relKeys
        rw [List.filter_cons]
        by_cases hc : (!startsWithAt k && relValB v) = true
        · simp [hc]
        · simp only [Bool.not_eq_true] at hc
          rw [hc]
          simp
      simp only [ownEdgesE, List.map_append]
      by_cases hsk : startsWithAt k
      · rw [if_pos hsk]
        simp only [List.map_nil, List.nil_append]
        rw [hrk, if_neg (by simp [hsk])]
        refine ih nid seen hce.2 hnk2 ?_
        intro k2 hk2
        exact hseen k2 (by
          rw [hrk, if_neg (by simp [hsk])]
          exact hk2)
      · rw [if_neg hsk]
        by_cases hrel : relValB v
        · have hck := cleanEntries_rel_key hce2 k v (List.mem_cons_self _ _)
            (by simpa using hsk) hrel
          have hclean := (cleanKey_parts hck).2.2
          have hkin : k ∈ relKeys ((k, v) :: rest) := by
            rw [hrk, if_pos (by simp [hsk, hrel])]
            exact List.mem_cons_self _ _
          have hkseen := hseen k hkin
          have hshape : ∃ n, 1 ≤ n ∧ (ownEdgesVal nid k v).map (fun e => e.type) =
              List.replicate n k := by
            cases v with
            | obj es =>
                have hat : hasAtKey es = true := by simpa [relValB] using hrel
                refine ⟨1, le_refl 1, ?_⟩
                simp only [ownEdgesVal, hat, if_true, List.map_cons, List.map_nil]
                show [_clean_type k] = List.replicate 1 k
                rw [hclean]
                rfl
            | arr xs =>
                have hany : xs.any (fun x => isDictWithAt x) = true := by
                  simpa [relValB] using hrel
                refine ⟨xs.countP (fun x => isDictWithAt x), ?_, ?_⟩
                · obtain ⟨x, hx, hpx⟩ := List.any_eq_true.mp hany
                  exact List.countP_pos.mpr ⟨x, hx, hpx⟩
                · rw [ownEdgesVal_arr_types, hclean]
            | null => simp [relValB] at hrel
            | bool b => simp [relValB] at hrel
            | num n => simp [relValB] at hrel
            | str t => simp [relValB] at hrel
          obtain ⟨n, hn1, hns⟩ := hshape
          rw [hns, dedupKeep_replicate n k seen _ hkseen hn1]
          rw [hrk, if_pos (by simp [hsk, hrel])]
          congr 1
          refine ih nid (k :: seen) hce.2 hnk2 ?_
          intro k2 hk2
          obtain ⟨v2, hv2⟩ := relKeys_subset_keys hk2
          have hk2ne : ¬ k2 = k := fun hc => hkey1 (k2, v2) hv2 (by simpa using hc)
          have hk2seen : seen.contains k2 = false := hseen k2 (by
            rw [hrk, if_pos (by simp [hsk, hrel])]
            exact List.mem_cons_of_mem _ hk2)
          have hk2mem : ¬ k2 ∈ seen := by simpa using hk2seen
          simpa using (show ¬ k2 ∈ k :: seen from fun hc =>
            (List.mem_cons.mp hc).elim (fun h1 => hk2ne h1) hk2mem)
        · rw [ownEdgesVal_nonrel (by simpa using hrel)]
          simp only [List.map_nil, List.nil_append]
          rw [hrk, if_neg (by simp [hrel])]
          refine ih nid seen hce.2 hnk2 ?_
          intro k2 hk2
          exact hseen k2 (by
            rw [hrk, if_neg (by simp [hrel])]
            exact hk2)

theorem relKeys_cons (k : String) (v : JValue) (rest : List (String × JValue)) :
    relKeys ((k, v) :: rest) =
      (if (!startsWithAt k && relValB v) = true then k :: relKeys rest
        else relKeys rest) := by
  unfold relKeys
  rw [List.filter_cons]
  by_cases hc : (!startsWithAt k && relValB v) = true
  · simp [hc]
  · simp only [Bool.not_eq_true] at hc
    rw [hc]
    simp

theorem fuelE_pos : ∀ l : List (String × JValue), 1 ≤ fuelE l := by
  intro l
  cases l with
  | nil => simp [fuelE]
  | cons p rest =>
      obtain ⟨k, v⟩ := p
      have := fuelE_pos rest
      simp only [fuelE]
      omega

theorem reconArrVals_len : ∀ {xs : List JValue}, cleanArr xs = true →
    (reconArrVals xs).length = xs.length := by
  intro xs
  induction xs with
  | nil => intro _; rfl
  | cons x rest ih =>
      intro hc
      simp only [cleanArr, Bool.and_eq_true] at hc
      have hitem : (reconItemVals x).length = 1 := by
        cases x with
        | obj inner =>
            have hat : hasAtKey inner = true := by
              simp only [cleanArrItem, Bool.and_eq_true] at hc
              exact hc.1.1.1
            simp [reconItemVals, hat]
        | null => exact absurd hc.1 (by simp [cleanArrItem])
        | bool b => exact absurd hc.1 (by simp [cleanArrItem])
        | num n => exact absurd hc.1 (by simp [cleanArrItem])
        | str t => exact absurd hc.1 (by simp [cleanArrItem])
        | arr ys => exact absurd hc.1 (by simp [cleanArrItem])
      simp only [reconArrVals, List.length_append, List.length_cons, hitem, ih hc.2]
      omega

theorem reconNode_step (g : PGGraph) (es : List (String × JValue)) (f : Nat)
    (hhc : headChecksB es = true) (hce : cleanEntries es = true)
    (hfind : g.nodes.find? (fun n => n.id == idValOf es) = some (nodeOf es))
    (hflt : g.edges.filter (fun e => e.source == idValOf es) =
      ownEdgesE (idValOf es) es)
    (hgroups : reconstructGroups g f (ownEdgesE (idValOf es) es) (relKeys es) =
      .ok (reconGroupsE es)) :
    reconstructNode g (Nat.succ f) (idValOf es) = .ok (reconN es) := by
  have hdedup := dedup_ownE es (idValOf es) [] hce (headChecks_nodupB hhc)
    (fun _ _ => rfl)
  simp only [reconstructNode, hfind, hflt, hdedup, hgroups, Bind.bind, Except.bind]
  rfl

theorem fuelArr_pos : ∀ l : List JValue, 1 ≤ fuelArr l := by
  intro l
  cases l with
  | nil => simp [fuelArr]
  | cons x rest =>
      have := fuelArr_pos rest
      simp only [fuelArr]
      omega

/-- Group values of one relationship entry on the reconstruction side. -/
def kvVals : JValue → List JValue
  | .obj inner => [reconN inner]
  | .arr xs => reconArrVals xs
  | _ => []

mutual
theorem reconGroups_ok : ∀ (l : List (String × JValue)) (g : PGGraph)
    (outs : List PGEdge) (nid : JValue),
    cleanEntries l = true →
    (∀ k v, (k, v) ∈ l → startsWithAt k = false → relValB v = true →
      outs.filter (fun e => e.type == k) = ownEdgesVal nid k v) →
    (∀ d ∈ subObjsE l, g.nodes.find? (fun n => n.id == idValOf d) = some (nodeOf d)) →
    (∀ d ∈ subObjsE l, g.edges.filter (fun e => e.source == idValOf d) =
      ownEdgesE (idValOf d) d) →
    ∀ f, fuelE l ≤ f →
    reconstructGroups g f outs (relKeys l) = .ok (reconGroupsE l)
  | [], g, outs, nid => fun _ _ _ _ f hf => by
      obtain ⟨f1, rfl⟩ : ∃ f1, f = Nat.succ f1 :=
        ⟨f - 1, by simp only [fuelE] at hf; omega⟩
      rfl
  | (k, v) :: rest, g, outs, nid => fun hce hkey hfs hes f hf => by
      simp only [cleanEntries, Bool.and_eq_true] at hce
      have hrestcall : ∀ f2, fuelE rest ≤ f2 →
          reconstructGroups g f2 outs (relKeys rest) = .ok (reconGroupsE rest) := by
        intro f2 hf2
        refine reconGroups_ok rest g outs nid hce.2 ?_ ?_ ?_ f2 hf2
        · intro k2 v2 hm hs hr
          exact hkey k2 v2 (List.mem_cons_of_mem _ hm) hs hr
        · intro d hd
          exact hfs d (by simp only [subObjsE]; exact List.mem_append_right _ hd)
        · intro d hd
          exact hes d (by simp only [subObjsE]; exact List.mem_append_right _ hd)
      by_cases hsk : startsWithAt k
      · rw [relKeys_cons, if_neg (by simp [hsk])]
        have hgr : reconGroupsE ((k, v) :: rest) = reconGroupsE rest := by
          simp only [reconGroupsE]
          have hkv : reconGroupsKV k v = [] := by
            cases v <;> simp [reconGroupsKV, hsk]
          rw [hkv, List.nil_append]
        rw [hgr]
        refine hrestcall f (le_trans ?_ hf)
        simp only [fuelE]
        omega
      · by_cases hrel : relValB v
        · have hsk2 : startsWithAt k = false := by simpa using hsk
          have hsub : ∀ d ∈ subObjsKV k v, d ∈ subObjsE ((k, v) :: rest) := by
            intro d hd
            simp only [subObjsE]
            exact List.mem_append_left _ hd
          have hfkv : 1 ≤ fuelKV k v := by
            cases v with
            | obj inner =>
                have hat : hasAtKey inner = true := by simpa [relValB] using hrel
                simp only [fuelKV, if_neg (by simp [hsk] : ¬ startsWithAt k = true),
                  if_pos hat]
                omega
            | arr xs =>
                have hany : xs.any (fun x => isDictWithAt x) = true := by
                  simpa [relValB] using hrel
                simp only [fuelKV, if_neg (by simp [hsk] : ¬ startsWithAt k = true),
                  if_pos hany]
                omega
            | null => simp [relValB] at hrel
            | bool b => simp [relValB] at hrel
            | num n => simp [relValB] at hrel
            | str t => simp [relValB] at hrel
          obtain ⟨f1, rfl⟩ : ∃ f1, f = Nat.succ f1 := by
            refine ⟨f - 1, ?_⟩
            simp only [fuelE] at hf
            have := fuelE_pos rest
            omega
          have hfE : fuelKV k v + fuelE rest ≤ Nat.succ f1 := by
            simpa only [fuelE] using hf
          rw [relKeys_cons, if_pos (by simp [hsk, hrel])]
          have hflt1 := hkey k v (List.mem_cons_self _ _) hsk2 hrel
          have hts := reconKV_ok v g nid k hce.1 hsk2 hrel
            (fun d hd => hfs d (hsub d hd)) (fun d hd => hes d (hsub d hd)) f1
            (by omega)
          have hrest2 := hrestcall f1 (by omega)
          have hgre : reconGroupsE ((k, v) :: rest) =
              (k, (match kvVals v with | [x] => x | xs => .arr xs)) ::
                reconGroupsE rest := by
            cases v with
            | obj inner =>
                have hat : hasAtKey inner = true := by simpa [relValB] using hrel
                simp only [reconGroupsE, reconGroupsKV,
                  if_neg (by simp [hsk2] : ¬ startsWithAt k = true), if_pos hat, kvVals]
                rfl
            | arr xs =>
                have hany : xs.any (fun x => isDictWithAt x) = true := by
                  simpa [relValB] using hrel
                have hclv : cleanEntryVal k (.arr xs) = true := hce.1
                simp only [cleanEntryVal,
                  if_neg (by simp [hsk2] : ¬ startsWithAt k = true),
                  if_pos hany, Bool.and_eq_true] at hclv
                have hlen2 : 2 ≤ (reconArrVals xs).length := by
                  rw [reconArrVals_len hclv.2]
                  exact of_decide_eq_true hclv.1.2
                simp only [reconGroupsE, reconGroupsKV,
                  if_neg (by simp [hsk2] : ¬ startsWithAt k = true), if_pos hany, kvVals]
                rcases hv : reconArrVals xs with _ | ⟨a, t2⟩
                · rw [hv] at hlen2
                  simp at hlen2
                · rcases t2 with _ | ⟨b, t3⟩
                  · rw [hv] at hlen2
                    simp at hlen2
                  · rfl
            | null => simp [relValB] at hrel
            | bool b => simp [relValB] at hrel
            | num n => simp [relValB] at hrel
            | str t => simp [relValB] at hrel
          rw [hgre]
          simp only [reconstructGroups, hflt1, hts, hrest2, Bind.bind, Except.bind]
        · have hsk2 : startsWithAt k = false := by simpa using hsk
          rw [relKeys_cons, if_neg (by simp [hrel])]
          have hgr : reconGroupsE ((k, v) :: rest) = reconGroupsE rest := by
            simp only [reconGroupsE]
            have hkv : reconGroupsKV k v = [] := by
              cases v with
              | obj inner =>
                  have hat : hasAtKey inner = false := by simpa [relValB] using hrel
                  simp [reconGroupsKV, hsk2, hat]
              | arr xs =>
                  have hany : xs.any (fun x => isDictWithAt x) = false := by
                    simpa [relValB] using hrel
                  simp [reconGroupsKV, hsk2, hany]
              | null => rfl
              | bool b => rfl
              | num n => rfl
              | str t => rfl
            rw [hkv, List.nil_append]
          rw [hgr]
          refine hrestcall f (le_trans ?_ hf)
          simp only [fuelE]
          omega
termination_by structural l => l
theorem reconKV_ok : ∀ (v : JValue) (g : PGGraph) (nid : JValue) (k : String),
    cleanEntryVal k v = true → startsWithAt k = false → relValB v = true →
    (∀ d ∈ subObjsKV k v, g.nodes.find? (fun n => n.id == idValOf d) = some (nodeOf d)) →
    (∀ d ∈ subObjsKV k v, g.edges.filter (fun e => e.source == idValOf d) =
      ownEdgesE (idValOf d) d) →
    ∀ f, fuelKV k v ≤ Nat.succ f →
    reconstructTargets g f ((ownEdgesVal nid k v).map (fun e => e.target)) =
      .ok (kvVals v)
  | .obj inner, g, nid, k => fun hclv hsk hrel hfs hes f hf => by
      have hat : hasAtKey inner = true := by simpa [relValB] using hrel
      simp only [cleanEntryVal, if_neg (by simp [hsk] : ¬ startsWithAt k = true),
        if_pos hat, Bool.and_eq_true] at hclv
      obtain ⟨⟨hck, hhcI⟩, hceI⟩ := hclv
      simp only [fuelKV, if_neg (by simp [hsk] : ¬ startsWithAt k = true),
        if_pos hat] at hf
      obtain ⟨f2, rfl⟩ : ∃ f2, f = Nat.succ (Nat.succ f2) := ⟨f - 2, by omega⟩
      have hinner : inner ∈ subObjsKV k (JValue.obj inner) := by
        simp [subObjsKV, hsk, hat]
      have hnode : reconstructNode g (Nat.succ f2) (idValOf inner) =
          .ok (reconN inner) := by
        refine reconNode_step g inner f2 hhcI hceI (hfs inner hinner)
          (hes inner hinner) ?_
        refine reconGroups_ok inner g (ownEdgesE (idValOf inner) inner)
          (idValOf inner) hceI ?_ ?_ ?_ f2 (by omega)
        · intro k2 v2 hm hs hr
          exact ownE_filter_key inner (idValOf inner) k2 v2 hceI
            (headChecks_nodupB hhcI) hm hs hr
        · intro d hd
          exact hfs d (by simp [subObjsKV, hsk, hat, hd])
        · intro d hd
          exact hes d (by simp [subObjsKV, hsk, hat, hd])
      simp only [ownEdgesVal, hat, if_true, List.map_cons, List.map_nil]
      show reconstructTargets g (Nat.succ (Nat.succ f2)) [idValOf inner] =
        .ok (kvVals (JValue.obj inner))
      simp only [reconstructTargets, hnode, Bind.bind, Except.bind, kvVals]
  | .arr xs, g, nid, k => fun hclv hsk hrel hfs hes f hf => by
      have hany : xs.any (fun x => isDictWithAt x) = true := by
        simpa [relValB] using hrel
      simp only [cleanEntryVal, if_neg (by simp [hsk] : ¬ startsWithAt k = true),
        if_pos hany, Bool.and_eq_true] at hclv
      simp only [fuelKV, if_neg (by simp [hsk] : ¬ startsWithAt k = true),
        if_pos hany] at hf
      have hsub : ∀ d ∈ subObjsArr xs, d ∈ subObjsKV k (JValue.arr xs) := by
        intro d hd
        simp [subObjsKV, hsk, hd]
      show reconstructTargets g f ((ownEdgesVal nid k (JValue.arr xs)).map
        (fun e => e.target)) = .ok (kvVals (JValue.arr xs))
      simp only [kvVals]
      exact reconTargets_ok xs g nid k hclv.2
        (fun d hd => hfs d (hsub d hd)) (fun d hd => hes d (hsub d hd)) f (by omega)
  | .null, g, nid, k => fun _ _ hrel _ _ _ _ => by simp [relValB] at hrel
  | .bool b, g, nid, k => fun _ _ hrel _ _ _ _ => by simp [relValB] at hrel
  | .num n, g, nid, k => fun _ _ hrel _ _ _ _ => by simp [relValB] at hrel
  | .str t, g, nid, k => fun _ _ hrel _ _ _ _ => by simp [relValB] at hrel
termination_by structural v => v
theorem reconTargets_ok : ∀ (xs : List JValue) (g : PGGraph) (nid : JValue)
    (k : String),
    cleanArr xs = true →
    (∀ d ∈ subObjsArr xs, g.nodes.find? (fun n => n.id == idValOf d) = some (nodeOf d)) →
    (∀ d ∈ subObjsArr xs, g.edges.filter (fun e => e.source == idValOf d) =
      ownEdgesE (idValOf d) d) →
    ∀ f, fuelArr xs ≤ f →
    reconstructTargets g f ((ownEdgesVal nid k (.arr xs)).map (fun e => e.target)) =
      .ok (reconArrVals xs)
  | [], g, nid, k => fun _ _ _ f hf => by
      obtain ⟨f1, rfl⟩ : ∃ f1, f = Nat.succ f1 :=
        ⟨f - 1, by simp only [fuelArr] at hf; omega⟩
      rfl
  | x :: rest, g, nid, k => fun hca hfs hes f hf => by
      simp only [cleanArr, Bool.and_eq_true] at hca
      obtain ⟨f1, rfl⟩ : ∃ f1, f = Nat.succ f1 := by
        refine ⟨f - 1, ?_⟩
        simp only [fuelArr] at hf
        have := fuelArr_pos rest
        omega
      have hsubI : ∀ d ∈ subObjsItem x, d ∈ subObjsArr (x :: rest) := by
        intro d hd
        simp only [subObjsArr]
        exact List.mem_append_left _ hd
      obtain ⟨es, rfl, hat, hnode⟩ := reconItem_ok x g hca.1
        (fun d hd => hfs d (hsubI d hd)) (fun d hd => hes d (hsubI d hd)) f1
        (by
          simp only [fuelArr] at hf
          have := fuelArr_pos rest
          omega)
      have hrest : reconstructTargets g f1
          ((ownEdgesVal nid k (JValue.arr rest)).map (fun e => e.target)) =
          .ok (reconArrVals rest) := by
        refine reconTargets_ok rest g nid k hca.2 ?_ ?_ f1 (by
          simp only [fuelArr, fuelItem, hat, if_true] at hf
          omega)
        · intro d hd
          exact hfs d (by
            simp only [subObjsArr]
            exact List.mem_append_right _ hd)
        · intro d hd
          exact hes d (by
            simp only [subObjsArr]
            exact List.mem_append_right _ hd)
      have hlist : (ownEdgesVal nid k (JValue.arr (JValue.obj es :: rest))).map
          (fun e => e.target) =
          idValOf es :: (ownEdgesVal nid k (JValue.arr rest)).map (fun e => e.target) := by
        simp only [ownEdgesVal, List.filterMap_cons, hat, if_true]
        rfl
      rw [hlist]
      simp only [reconstructTargets, hnode, hrest, Bind.bind, Except.bind]
      have hgr : reconArrVals (JValue.obj es :: rest) =
          reconN es :: reconArrVals rest := by
        simp only [reconArrVals, reconItemVals, if_pos hat]
        rfl
      rw [hgr]
termination_by structural l => l
theorem reconItem_ok : ∀ (x : JValue) (g : PGGraph),
    cleanArrItem x = true →
    (∀ d ∈ subObjsItem x, g.nodes.find? (fun n => n.id == idValOf d) = some (nodeOf d)) →
    (∀ d ∈ subObjsItem x, g.edges.filter (fun e => e.source == idValOf d) =
      ownEdgesE (idValOf d) d) →
    ∀ f, fuelItem x ≤ Nat.succ f →
    ∃ es, x = JValue.obj es ∧ hasAtKey es = true ∧
      reconstructNode g f (idValOf es) = .ok (reconN es)
  | .obj inner, g => fun hci hfs hes f hf => by
      simp only [cleanArrItem, Bool.and_eq_true] at hci
      obtain ⟨⟨hat, hhcI⟩, hceI⟩ := hci
      simp only [fuelItem, hat, if_true] at hf
      obtain ⟨f2, rfl⟩ : ∃ f2, f = Nat.succ f2 := ⟨f - 1, by omega⟩
      have hinner : inner ∈ subObjsItem (JValue.obj inner) := by
        simp [subObjsItem, hat]
      refine ⟨inner, rfl, hat, ?_⟩
      refine reconNode_step g inner f2 hhcI hceI (hfs inner hinner)
        (hes inner hinner) ?_
      refine reconGroups_ok inner g (ownEdgesE (idValOf inner) inner)
        (idValOf inner) hceI ?_ ?_ ?_ f2 (by omega)
      · intro k2 v2 hm hs hr
        exact ownE_filter_key inner (idValOf inner) k2 v2 hceI
          (headChecks_nodupB hhcI) hm hs hr
      · intro d hd
        exact hfs d (by simp [subObjsItem, hat, hd])
      · intro d hd
        exact hes d (by simp [subObjsItem, hat, hd])
  | .null, g => fun hci _ _ _ _ => by simp [cleanArrItem] at hci
  | .bool b, g => fun hci _ _ _ _ => by simp [cleanArrItem] at hci
  | .num n, g => fun hci _ _ _ _ => by simp [cleanArrItem] at hci
  | .str t, g => fun hci _ _ _ _ => by simp [cleanArrItem] at hci
  | .arr ys, g => fun hci _ _ _ _ => by simp [cleanArrItem] at hci
termination_by structural v => v
end

theorem reconN_ok (es : List (String × JValue)) (g : PGGraph)
    (hhc : headChecksB es = true) (hce : cleanEntries es = true)
    (hfind : g.nodes.find? (fun n => n.id == idValOf es) = some (nodeOf es))
    (hflt : g.edges.filter (fun e => e.source == idValOf es) =
      ownEdgesE (idValOf es) es)
    (hfs : ∀ d ∈ subObjsE es, g.nodes.find? (fun n => n.id == idValOf d) =
      some (nodeOf d))
    (hes : ∀ d ∈ subObjsE es, g.edges.filter (fun e => e.source == idValOf d) =
      ownEdgesE (idValOf d) d) :
    ∀ f, fuelN es ≤ f → reconstructNode g f (idValOf es) = .ok (reconN es) := by
  intro f hf
  unfold fuelN at hf
  obtain ⟨f1, rfl⟩ : ∃ f1, f = Nat.succ f1 :=
    ⟨f - 1, by have := fuelE_pos es; omega⟩
  refine reconNode_step g es f1 hhc hce hfind hflt ?_
  refine reconGroups_ok es g (ownEdgesE (idValOf es) es) (idValOf es) hce ?_ hfs hes
    f1 (by omega)
  intro k2 v2 hm hs hr
  exact ownE_filter_key es (idValOf es) k2 v2 hce (headChecks_nodupB hhc) hm hs hr

mutual
theorem fuelE_bound : ∀ (l : List (String × JValue)) (nid : JValue),
    cleanEntries l = true →
    fuelE l ≤ 3 * ((subObjsE l).length + (flatEntries nid l).2.length) + 1
  | [], nid => fun _ => by simp [fuelE, subObjsE, flatEntries]
  | (k, v) :: rest, nid => fun hce => by
      simp only [cleanEntries, Bool.and_eq_true] at hce
      have h1 := fuelKV_bound v k nid hce.1
      have h2 := fuelE_bound rest nid hce.2
      simp only [fuelE, subObjsE, flatEntries, List.length_append]
      omega
termination_by structural l => l
theorem fuelKV_bound : ∀ (v : JValue) (k : String) (nid : JValue),
    cleanEntryVal k v = true →
    fuelKV k v ≤ 3 * ((subObjsKV k v).length + (flatKV nid k v).2.length)
  | .obj inner, k, nid => fun hclv => by
      by_cases hsk : startsWithAt k
      · simp [fuelKV, hsk]
      · by_cases hat : hasAtKey inner
        · simp only [cleanEntryVal, if_neg (by simp [hsk] : ¬ startsWithAt k = true),
            if_pos hat, Bool.and_eq_true] at hclv
          have h1 := fuelE_bound inner (idValOf inner) hclv.2
          simp only [fuelKV, subObjsKV, flatKV,
            if_neg (by simp [hsk] : ¬ startsWithAt k = true), if_pos hat,
            List.length_cons]
          omega
        · simp [fuelKV, subObjsKV, flatKV, hsk, hat]
  | .arr xs, k, nid => fun hclv => by
      by_cases hsk : startsWithAt k
      · simp [fuelKV, hsk]
      · by_cases hany : xs.any (fun x => isDictWithAt x)
        · simp only [cleanEntryVal, if_neg (by simp [hsk] : ¬ startsWithAt k = true),
            if_pos hany, Bool.and_eq_true] at hclv
          have h1 := fuelArr_bound xs k nid hclv.2
          have h2 : 2 ≤ xs.length := of_decide_eq_true hclv.1.2
          simp only [fuelKV, subObjsKV, flatKV,
            if_neg (by simp [hsk] : ¬ startsWithAt k = true), if_pos hany]
          omega
        · simp [fuelKV, subObjsKV, flatKV, hsk, hany]
  | .null, k, nid => fun _ => by simp [fuelKV]
  | .bool b, k, nid => fun _ => by simp [fuelKV]
  | .num n, k, nid => fun _ => by simp [fuelKV]
  | .str t, k, nid => fun _ => by simp [fuelKV]
termination_by structural v => v
theorem fuelArr_bound : ∀ (xs : List JValue) (k : String) (nid : JValue),
    cleanArr xs = true →
    fuelArr xs + 2 * xs.length ≤
      3 * ((subObjsArr xs).length + (flatArr nid k xs).2.length) + 1
  | [], k, nid => fun _ => by simp [fuelArr, subObjsArr, flatArr]
  | x :: rest, k, nid => fun hca => by
      simp only [cleanArr, Bool.and_eq_true] at hca
      have h1 := fuelItem_bound x k nid hca.1
      have h2 := fuelArr_bound rest k nid hca.2
      simp only [fuelArr, subObjsArr, flatArr, List.length_append, List.length_cons]
      omega
termination_by structural l => l
theorem fuelItem_bound : ∀ (x : JValue) (k : String) (nid : JValue),
    cleanArrItem x = true →
    fuelItem x + 2 ≤ 3 * ((subObjsItem x).length + (flatItem nid k x).2.length)
  | .obj inner, k, nid => fun hci => by
      simp only [cleanArrItem, Bool.and_eq_true] at hci
      obtain ⟨⟨hat, hhcI⟩, hceI⟩ := hci
      have h1 := fuelE_bound inner (idValOf inner) hceI
      simp only [fuelItem, subObjsItem, flatItem, if_pos hat, List.length_cons]
      omega
  | .null, k, nid => fun hci => by simp [cleanArrItem] at hci
  | .bool b, k, nid => fun hci => by simp [cleanArrItem] at hci
  | .num n, k, nid => fun hci => by simp [cleanArrItem] at hci
  | .str t, k, nid => fun hci => by simp [cleanArrItem] at hci
  | .arr ys, k, nid => fun hci => by simp [cleanArrItem] at hci
termination_by structural v => v
end

theorem cleanArr_allDict : ∀ {xs : List JValue}, cleanArr xs = true →
    xs.all (fun x => isDictWithAt x) = true := by
  intro xs
  induction xs with
  | nil => intro _; rfl
  | cons x rest ih =>
      intro hc
      simp only [cleanArr, Bool.and_eq_true] at hc
      simp only [List.all_cons, Bool.and_eq_true]
      refine ⟨?_, ih hc.2⟩
      cases x with
      | obj inner =>
          simp only [cleanArrItem, Bool.and_eq_true] at hc
          simp [isDictWithAt, hc.1.1.1]
      | null => exact absurd hc.1 (by simp [cleanArrItem])
      | bool b => exact absurd hc.1 (by simp [cleanArrItem])
      | num n => exact absurd hc.1 (by simp [cleanArrItem])
      | str t => exact absurd hc.1 (by simp [cleanArrItem])
      | arr ys => exact absurd hc.1 (by simp [cleanArrItem])

theorem extractProps_clean : ∀ {l : List (String × JValue)}, cleanEntries l = true →
    extractProps l = l.filter (fun kv => !startsWithAt kv.1 && !relValB kv.2) := by
  intro l
  induction l with
  | nil => intro _; rfl
  | cons p rest ih =>
      obtain ⟨k, v⟩ := p
      intro hce
      simp only [cleanEntries, Bool.and_eq_true] at hce
      have hrest := ih hce.2
      by_cases hsk : startsWithAt k
      · simp only [extractProps, if_pos hsk, List.filter_cons, hsk]
        simpa using hrest
      · cases v with
        | obj inner =>
            by_cases hat : hasAtKey inner
            · simp only [extractProps, if_neg hsk, if_pos hat, List.filter_cons]
              have : (!startsWithAt k && !relValB (JValue.obj inner)) = false := by
                simp [relValB, hat]
              rw [this]
              simpa using hrest
            · simp only [extractProps, if_neg hsk, if_neg hat, List.filter_cons]
              have : (!startsWithAt k && !relValB (JValue.obj inner)) = true := by
                simp [relValB, hat, hsk]
              rw [this]
              simp only [if_true]
              rw [hrest]
        | arr xs =>
            by_cases hany : xs.any (fun x => isDictWithAt x)
            · have hclv : cleanEntryVal k (.arr xs) = true := hce.1
              simp only [cleanEntryVal, if_neg (by simp [hsk] : ¬ startsWithAt k = true),
                if_pos hany, Bool.and_eq_true] at hclv
              have hall := cleanArr_allDict hclv.2
              have hsimple : xs.filter (fun x => !isDictWithAt x) = [] := by
                rw [List.filter_eq_nil_iff]
                intro x hx
                have := List.all_eq_true.mp hall x hx
                simp [this]
              simp only [extractProps, if_neg hsk, hsimple, List.isEmpty_nil,
                if_true, List.filter_cons]
              have : (!startsWithAt k && !relValB (JValue.arr xs)) = false := by
                simp [relValB, hany]
              rw [this]
              simpa using hrest
            · have hclv : cleanEntryVal k (.arr xs) = true := hce.1
              simp only [cleanEntryVal, if_neg (by simp [hsk] : ¬ startsWithAt k = true),
                if_neg hany] at hclv
              have hsimple : xs.filter (fun x => !isDictWithAt x) = xs := by
                rw [List.filter_eq_self]
                intro x hx
                by_contra hc
                exact (by simpa using hany :
                  ¬ (xs.any (fun x => isDictWithAt x)) = true)
                  (List.any_eq_true.mpr ⟨x, hx, by simpa using hc⟩)
              have hne : xs.isEmpty = false := by simpa using hclv
              simp only [extractProps, if_neg hsk, hsimple, hne, List.filter_cons]
              have : (!startsWithAt k && !relValB (JValue.arr xs)) = true := by
                simp [relValB, hany, hsk]
              rw [this]
              simp only [if_true]
              rw [hrest]
              rfl
        | null =>
            simp only [extractProps, if_neg hsk, List.filter_cons]
            have : (!startsWithAt k && !relValB JValue.null) = true := by
              simp [relValB, hsk]
            rw [this]
            simp only [if_true]
            rw [hrest]
        | bool b =>
            simp only [extractProps, if_neg hsk, List.filter_cons]
            have : (!startsWithAt k && !relValB (JValue.bool b)) = true := by
              simp [relValB, hsk]
            rw [this]
            simp only [if_true]
            rw [hrest]
        | num n =>
            simp only [extractProps, if_neg hsk, List.filter_cons]
            have : (!startsWithAt k && !relValB (JValue.num n)) = true := by
              simp [relValB, hsk]
            rw [this]
            simp only [if_true]
            rw [hrest]
        | str t =>
            simp only [extractProps, if_neg hsk, List.filter_cons]
            have : (!startsWithAt k && !relValB (JValue.str t)) = true := by
              simp [relValB, hsk]
            rw [this]
            simp only [if_true]
            rw [hrest]

theorem canonList_append : ∀ (a b : List JValue),
    canonList (a ++ b) = canonList a ++ canonList b := by
  intro a b
  induction a with
  | nil => rfl
  | cons x rest ih => simp only [List.cons_append, canonList, List.append_eq, ih]

theorem canonEntries_append (a b : List (String × JValue)) :
    canonEntries (a ++ b) = canonEntries a ++ canonEntries b := by
  rw [canonEntries_eq_map, canonEntries_eq_map, canonEntries_eq_map, List.map_append]

theorem canonNode_step (es : List (String × JValue))
    (hhc : headChecksB es = true) (hce : cleanEntries es = true)
    (hgroups : canonEntries (reconGroupsE es) =
      canonEntries (es.filter (fun kv => !startsWithAt kv.1 && relValB kv.2))) :
    canonValue (.obj es) = canonValue (reconN es) := by
  obtain ⟨i, hid, hidt, hidv⟩ := headChecks_id hhc
  obtain ⟨t, hty, htv⟩ := headChecks_type hhc
  have hnd : (es.map Prod.fst).Nodup := nodupKeysB_nodup (headChecks_nodupB hhc)
  have hndL : ((canonEntries es).map Prod.fst).Nodup := by
    rw [canonEntries_eq_map, keys_mapVal]
    exact hnd
  have hidL : getKey (canonEntries es) "@id" = some (.str i) := by
    rw [canonEntries_eq_map, getKey_mapVal, hid]
    rfl
  have htyL : getKey (canonEntries es) "@type" = some (.str t) := by
    rw [canonEntries_eq_map, getKey_mapVal, hty]
    rfl
  have hperm := filter_keep_perm hndL hidL htyL
  have hkeys : (reconGroupsE es).map Prod.fst =
      (es.filter (fun kv => !startsWithAt kv.1 && relValB kv.2)).map Prod.fst := by
    have h0 := congrArg (List.map Prod.fst) hgroups
    rwa [canonEntries_eq_map, canonEntries_eq_map, keys_mapVal, keys_mapVal] at h0
  have hnat : ∀ kv ∈ extractProps es ++ reconGroupsE es,
      startsWithAt kv.1 = false := by
    intro kv hkv
    rcases List.mem_append.mp hkv with h1 | h1
    · rw [extractProps_clean hce] at h1
      have h2 := List.of_mem_filter h1
      simp only [Bool.and_eq_true, Bool.not_eq_true'] at h2
      exact h2.1
    · have h2 : kv.1 ∈ (es.filter
          (fun kv => !startsWithAt kv.1 && relValB kv.2)).map Prod.fst := by
        rw [← hkeys]
        exact List.mem_map.mpr ⟨kv, h1, rfl⟩
      obtain ⟨p, hp, hpk⟩ := List.mem_map.mp h2
      have h3 := List.of_mem_filter hp
      simp only [Bool.and_eq_true, Bool.not_eq_true'] at h3
      rw [← hpk]
      exact h3.1
  have hnatC : ∀ kv ∈ canonEntries (extractProps es ++ reconGroupsE es),
      startsWithAt kv.1 = false := by
    intro kv hkv
    rw [canonEntries_eq_map] at hkv
    obtain ⟨p, hp, hpk⟩ := List.mem_map.mp hkv
    rw [← hpk]
    exact hnat p hp
  show JValue.obj (sortPairs ((canonEntries es).filter (fun kv => keepKey kv.1))) =
    JValue.obj (sortPairs ((canonEntries (("@id", idValOf es) ::
      ("@type", .str (labelOf es)) :: extractProps es ++ reconGroupsE es)).filter
        (fun kv => keepKey kv.1)))
  have hRHS : (canonEntries (("@id", idValOf es) :: ("@type", .str (labelOf es)) ::
      extractProps es ++ reconGroupsE es)).filter (fun kv => keepKey kv.1) =
      ("@id", .str i) :: ("@type", .str t) ::
        canonEntries (extractProps es ++ reconGroupsE es) := by
    rw [hidv, htv]
    simp only [canonEntries, List.filter_cons, List.append_eq]
    have hc2 : keepKey "@id" = true := by decide
    have hc3 : keepKey "@type" = true := by decide
    rw [hc2, hc3]
    simp only [if_true]
    rw [filter_keep_of_nonAt hnatC]
    rfl
  rw [hRHS]
  congr 1
  have htail : ((canonEntries es).filter (fun kv => !startsWithAt kv.1)).Perm
      (canonEntries (extractProps es ++ reconGroupsE es)) := by
    have h1 : (canonEntries es).filter (fun kv => !startsWithAt kv.1) =
        canonEntries (es.filter (fun kv => !startsWithAt kv.1)) := by
      rw [canonEntries_eq_map, filter_key_mapVal es canonValue
        (fun k => !startsWithAt k), canonEntries_eq_map]
    have h2 : canonEntries (extractProps es ++ reconGroupsE es) =
        canonEntries (es.filter (fun kv => !startsWithAt kv.1 && !relValB kv.2)) ++
          canonEntries (es.filter (fun kv => !startsWithAt kv.1 && relValB kv.2)) := by
      rw [canonEntries_append, extractProps_clean hce, hgroups]
    rw [h1, h2]
    have hsplit : (es.filter (fun kv => !startsWithAt kv.1)).Perm
        (es.filter (fun kv => !startsWithAt kv.1 && !relValB kv.2) ++
          es.filter (fun kv => !startsWithAt kv.1 && relValB kv.2)) := by
      have hp := List.filter_append_perm (fun kv => !relValB kv.2)
        (es.filter (fun kv => !startsWithAt kv.1))
      have e1 : (es.filter (fun kv => !startsWithAt kv.1)).filter
          (fun kv => !relValB kv.2) =
          es.filter (fun kv => !startsWithAt kv.1 && !relValB kv.2) := by
        rw [List.filter_filter]
        refine List.filter_congr ?_
        intro kv _
        rw [Bool.and_comm]
      have e2 : (es.filter (fun kv => !startsWithAt kv.1)).filter
          (fun kv => !(!relValB kv.2)) =
          es.filter (fun kv => !startsWithAt kv.1 && relValB kv.2) := by
        rw [List.filter_filter]
        refine List.filter_congr ?_
        intro kv _
        rw [Bool.not_not, Bool.and_comm]
      rw [e1, e2] at hp
      exact hp.symm
    rw [← canonEntries_append, canonEntries_eq_map, canonEntries_eq_map]
    exact hsplit.map _
  refine sortPairs_eq_of_perm ?_ ?_
  · exact hperm.trans ((htail.cons ("@type", JValue.str t)).cons ("@id", JValue.str i))
  · have hsub : (((canonEntries es).filter
        (fun kv => keepKey kv.1)).map Prod.fst).Sublist
        ((canonEntries es).map Prod.fst) :=
      (List.filter_sublist _).map Prod.fst
    exact hndL.sublist hsub

mutual
theorem canonGroups_eq : ∀ (l : List (String × JValue)), cleanEntries l = true →
    canonEntries (reconGroupsE l) =
      canonEntries (l.filter (fun kv => !startsWithAt kv.1 && relValB kv.2))
  | [] => fun _ => rfl
  | (k, v) :: rest => fun hce => by
      simp only [cleanEntries, Bool.and_eq_true] at hce
      have hrest := canonGroups_eq rest hce.2
      simp only [reconGroupsE, List.filter_cons]
      by_cases hc : (!startsWithAt k && relValB v) = true
      · simp only [Bool.and_eq_true, Bool.not_eq_true'] at hc
        obtain ⟨gv, hgv, hcv⟩ := canonKV_eq v k hc.1 hc.2 hce.1
        rw [hgv]
        rw [if_pos (by simp [hc.1, hc.2])]
        rw [canonEntries_append, hrest]
        simp only [canonEntries]
        rw [hcv]
        rfl
      · have hkv : reconGroupsKV k v = [] := by
          simp only [Bool.and_eq_true, Bool.not_eq_true'] at hc
          rw [not_and_or] at hc
          cases v with
          | obj inner =>
              rcases hc with h | h
              · have : startsWithAt k = true := by
                  by_contra hcc
                  exact h (by simpa using hcc)
                simp [reconGroupsKV, this]
              · have : hasAtKey inner = false := by
                  simpa [relValB] using h
                by_cases hsk : startsWithAt k
                · simp [reconGroupsKV, hsk]
                · simp [reconGroupsKV, hsk, this]
          | arr xs =>
              rcases hc with h | h
              · have : startsWithAt k = true := by
                  by_contra hcc
                  exact h (by simpa using hcc)
                simp [reconGroupsKV, this]
              · have : xs.any (fun x => isDictWithAt x) = false := by
                  simpa [relValB] using h
                by_cases hsk : startsWithAt k
                · simp [reconGroupsKV, hsk]
                · simp [reconGroupsKV, hsk, this]
          | null => rfl
          | bool b => rfl
          | num n => rfl
          | str t => rfl
        rw [hkv]
        rw [if_neg hc]
        simpa using hrest
termination_by structural l => l
theorem canonKV_eq : ∀ (v : JValue) (k : String), startsWithAt k = false →
    relValB v = true → cleanEntryVal k v = true →
    ∃ gv, reconGroupsKV k v = [(k, gv)] ∧ canonValue gv = canonValue v
  | .obj inner, k => fun hsk hrel hclv => by
      have hat : hasAtKey inner = true := by simpa [relValB] using hrel
      simp only [cleanEntryVal, if_neg (by simp [hsk] : ¬ startsWithAt k = true),
        if_pos hat, Bool.and_eq_true] at hclv
      obtain ⟨⟨hck, hhcI⟩, hceI⟩ := hclv
      refine ⟨.obj (("@id", idValOf inner) :: ("@type", .str (labelOf inner)) ::
        extractProps inner ++ reconGroupsE inner), ?_, ?_⟩
      · simp [reconGroupsKV, hsk, hat]
      · exact (canonNode_step inner hhcI hceI (canonGroups_eq inner hceI)).symm
  | .arr xs, k => fun hsk hrel hclv => by
      have hany : xs.any (fun x => isDictWithAt x) = true := by
        simpa [relValB] using hrel
      simp only [cleanEntryVal, if_neg (by simp [hsk] : ¬ startsWithAt k = true),
        if_pos hany, Bool.and_eq_true] at hclv
      refine ⟨.arr (reconArrVals xs), ?_, ?_⟩
      · simp [reconGroupsKV, hsk, hany]
      · show JValue.arr (canonList (reconArrVals xs)) = JValue.arr (canonList xs)
        rw [canonArrVals_eq xs hclv.2]
  | .null, k => fun _ hrel _ => by simp [relValB] at hrel
  | .bool b, k => fun _ hrel _ => by simp [relValB] at hrel
  | .num n, k => fun _ hrel _ => by simp [relValB] at hrel
  | .str t, k => fun _ hrel _ => by simp [relValB] at hrel
termination_by structural v => v
theorem canonArrVals_eq : ∀ (xs : List JValue), cleanArr xs = true →
    canonList (reconArrVals xs) = canonList xs
  | [] => fun _ => rfl
  | x :: rest => fun hca => by
      simp only [cleanArr, Bool.and_eq_true] at hca
      simp only [reconArrVals, canonList_append, canonItem_eq x hca.1,
        canonArrVals_eq rest hca.2]
      rfl
termination_by structural l => l
theorem canonItem_eq : ∀ (x : JValue), cleanArrItem x = true →
    canonList (reconItemVals x) = [canonValue x]
  | .obj inner => fun hci => by
      simp only [cleanArrItem, Bool.and_eq_true] at hci
      obtain ⟨⟨hat, hhcI⟩, hceI⟩ := hci
      simp only [reconItemVals, if_pos hat]
      show [canonValue (reconN inner)] = [canonValue (JValue.obj inner)]
      rw [canonNode_step inner hhcI hceI (canonGroups_eq inner hceI)]
  | .null => fun hci => by simp [cleanArrItem] at hci
  | .bool b => fun hci => by simp [cleanArrItem] at hci
  | .num n => fun hci => by simp [cleanArrItem] at hci
  | .str t => fun hci => by simp [cleanArrItem] at hci
  | .arr ys => fun hci => by simp [cleanArrItem] at hci
termination_by structural v => v
end

theorem canon_drop_context (c : JValue) (es : List (String × JValue)) :
    canonValue (.obj (("@context", c) :: es)) = canonValue (.obj es) := by
  show JValue.obj (sortPairs ((canonEntries (("@context", c) :: es)).filter
      (fun kv => keepKey kv.1))) =
    JValue.obj (sortPairs ((canonEntries es).filter (fun kv => keepKey kv.1)))
  simp only [canonEntries, List.filter_cons]
  rw [show keepKey "@context" = false by decide]
  rfl

theorem reverse_clean (kvs : List (String × JValue)) (ctx : JValue)
    (hhc : headChecksB kvs = true) (hce : cleanEntries kvs = true)
    (hids : (idValOf kvs :: (subObjsE kvs).map idValOf).Nodup) :
    convert_pgjson_to_jsonld (cleanPGDoc kvs ctx) none =
      .ok (.obj (("@context", ctx) :: ("@id", idValOf kvs) ::
        ("@type", .str (labelOf kvs)) :: extractProps kvs ++ reconGroupsE kvs)) := by
  have hGn : (cleanPGGraph kvs).nodes = (kvs :: subObjsE kvs).map nodeOf := by
    show nodeOf kvs :: (flatEntries (idValOf kvs) kvs).1 = _
    rw [fe_nodes_subObjs]
    rfl
  have hfindAll : ∀ d ∈ (kvs :: subObjsE kvs),
      (cleanPGGraph kvs).nodes.find? (fun n => n.id == idValOf d) =
        some (nodeOf d) := by
    intro d hd
    rw [hGn]
    have hnodup : ((kvs :: subObjsE kvs).map (fun o => (nodeOf o).id)).Nodup := hids
    exact find_map_unique nodeOf (kvs :: subObjsE kvs) d hnodup hd
  have hneq : ∀ d ∈ subObjsE kvs, ¬ idValOf kvs = idValOf d := by
    have hh := (List.nodup_cons.mp hids).1
    intro d hd hc
    exact hh (by
      rw [hc]
      exact List.mem_map.mpr ⟨d, hd, rfl⟩)
  have hfltSelf : (cleanPGGraph kvs).edges.filter
      (fun e => e.source == idValOf kvs) = ownEdgesE (idValOf kvs) kvs :=
    fe_filter_own kvs (idValOf kvs) hneq
  have hfltSub : ∀ d ∈ subObjsE kvs, (cleanPGGraph kvs).edges.filter
      (fun e => e.source == idValOf d) = ownEdgesE (idValOf d) d := by
    intro d hd
    exact fe_filter_desc kvs (idValOf kvs) d hd hids
  have hfuel : fuelN kvs ≤ pgFuel (cleanPGGraph kvs) := by
    have h1 := fuelE_bound kvs (idValOf kvs) hce
    have h2 : (cleanPGGraph kvs).nodes.length =
        1 + (subObjsE kvs).length := by
      show (nodeOf kvs :: (flatEntries (idValOf kvs) kvs).1).length = _
      rw [List.length_cons, fe_nodes_subObjs, List.length_map]
      omega
    have h3 : (cleanPGGraph kvs).edges.length =
        (flatEntries (idValOf kvs) kvs).2.length := rfl
    unfold pgFuel fuelN
    rw [h2, h3]
    omega
  have hbody : reconstructNode (cleanPGGraph kvs) (pgFuel (cleanPGGraph kvs))
      (idValOf kvs) = .ok (reconN kvs) :=
    reconN_ok kvs (cleanPGGraph kvs) hhc hce
      (hfindAll kvs (List.mem_cons_self _ _)) hfltSelf
      (fun d hd => hfindAll d (List.mem_cons_of_mem _ hd)) hfltSub
      (pgFuel (cleanPGGraph kvs)) hfuel
  unfold convert_pgjson_to_jsonld
  simp only [cleanPGDoc, Bind.bind, Except.bind]
  rw [hbody]
  simp only [reconN]
  rfl


def dCexC1 : JValue := .obj [
  ("@context", .str "https://schema.org/"),
  ("@id", .str "2f0fab38-fb7c-4fb3-8d37-30b79b691aff"),
  ("@type", .str "sc:Dataset")]

/-- Counterexample to claim C1 as stated: a validated document whose
at-type carries a namespace prefix does not round-trip, because flattening
strips the prefix into the label and reconstruction cannot restore it; the
round trip yields a document with a different at-type, hence not
structurally equivalent. The hash parameter is never consulted here since
the object carries a truthy at-id. -/
theorem claim_C1_counterexample :
    validate_jsonld dCexC1 false = .ok dCexC1 ∧
    roundTripJsonLD hashW dCexC1 =
      .ok (.obj [("@context", .str "https://schema.org/"),
        ("@id", .str "2f0fab38-fb7c-4fb3-8d37-30b79b691aff"),
        ("@type", .str "Dataset")]) ∧
    ¬ structEquiv dCexC1 (.obj [("@context", .str "https://schema.org/"),
        ("@id", .str "2f0fab38-fb7c-4fb3-8d37-30b79b691aff"),
        ("@type", .str "Dataset")]) :=
  ⟨by decide, by decide, by decide⟩

/-- Claim C1 (amended): the round trip through PG-JSON with
include_context=true is structure-preserving on the clean fragment of
validated documents, nesting included: unique keys and globally distinct
truthy string at-ids, string at-types free of namespace separators, a
truthy at-context at the root, relationship entries with clean keys
nesting one clean node object or an array of at least two, flat arrays
nonempty and keyword-object-free. For such documents — of arbitrary
nesting depth — the round trip succeeds and the result has the same
at-id, at-type, properties and nested relationship shape up to key
ordering. Outside this fragment the round trip is not structure
preserving, as the counterexample shows. -/
theorem claim_C1_roundtrip_corrected (uuid5hash : String → String)
    (kvs : List (String × JValue)) (ctx : JValue) (r0 : JValue)
    (_hval : validate_jsonld (.obj kvs) false = .ok r0)
    (hclean : cleanNode kvs = true)
    (hco : getKey kvs "@context" = some ctx) (hctr : pyTruthy ctx = true)
    (hids : (idValOf kvs :: (subObjsE kvs).map idValOf).Nodup) :
    ∃ d2, roundTripJsonLD uuid5hash (.obj kvs) = .ok d2 ∧
      structEquiv (.obj kvs) d2 := by
  have hhc : headChecksB kvs = true := by
    simp only [cleanNode, Bool.and_eq_true] at hclean
    exact hclean.1
  have hce : cleanEntries kvs = true := by
    simp only [cleanNode, Bool.and_eq_true] at hclean
    exact hclean.2
  have hndC : (idValOf kvs ::
      (flatEntries (idValOf kvs) kvs).1.map (fun n => n.id)).Nodup := by
    rw [fe_nodes_subObjs, List.map_map]
    exact hids
  refine ⟨.obj (("@context", ctx) :: ("@id", idValOf kvs) ::
      ("@type", .str (labelOf kvs)) :: extractProps kvs ++ reconGroupsE kvs), ?_, ?_⟩
  · unfold roundTripJsonLD
    rw [convert_clean uuid5hash kvs ctx hhc hce hco hctr hndC]
    simp only [Except.bind]
    exact reverse_clean kvs ctx hhc hce hids
  · show canonValue (.obj kvs) = canonValue _
    simp only [List.cons_append]
    rw [canon_drop_context]
    exact canonNode_step kvs hhc hce (canonGroups_eq kvs hce)

/-- Nested witness document: a root dataset with a flat property, a single
nested creator object, and a two-element array of nested parts, one of which
nests a further leaf object (depth two). -/
def dNestEs : List (String × JValue) := [
  ("@context", .str "https://schema.org/"),
  ("@id", .str "aaaaaaaa-1111-4111-8111-111111111111"),
  ("@type", .str "Dataset"),
  ("name", .str "Root"),
  ("creator", .obj [
    ("@id", .str "bbbbbbbb-1111-4111-8111-111111111111"),
    ("@type", .str "Person"),
    ("name", .str "Alice")]),
  ("parts", .arr [
    .obj [
      ("@id", .str "cccccccc-1111-4111-8111-111111111111"),
      ("@type", .str "Part"),
      ("p", .num 1),
      ("sub", .obj [
        ("@id", .str "dddddddd-1111-4111-8111-111111111111"),
        ("@type", .str "Leaf")])],
    .obj [
      ("@id", .str "eeeeeeee-1111-4111-8111-111111111111"),
      ("@type", .str "Part")]])]

def dNestW : JValue := .obj dNestEs

/-- Witness for the amended claim C1 on a validated nested document with a
scalar property, a single nested object, a two-element array of nested
objects, and a depth-two nested leaf. -/
theorem claim_C1_witness :
    ∃ d2, roundTripJsonLD hashW dNestW = .ok d2 ∧ structEquiv dNestW d2 :=
  claim_C1_roundtrip_corrected hashW dNestEs (.str "https://schema.org/") dNestW
    (by decide) (by decide) (by decide) (by decide) (by decide)

/-- Node identifier of the AP wire format: the pydantic models declare id as
str or int. -/
inductive NId where
  | s (v : String)
  | i (n : Int)
deriving DecidableEq

/-- Attribute record a graph node carries (networkx node attributes: the
labels and properties keyword arguments of add_node). -/
structure NAttrs where
  labels : List String
  properties : List (String × JValue)
deriving DecidableEq

/-- Node record of an AP request (parse_AP.Node after pydantic validation). -/
structure APNode where
  id : NId
  labels : List String
  properties : List (String × JValue)
deriving DecidableEq

/-- Edge record of an AP request: source and target are the from and to
aliases. -/
structure APEdge where
  source : NId
  target : NId
  labels : List String
deriving DecidableEq

/-- AP request envelope (parse_AP.APRequest after pydantic validation). -/
structure APRequest where
  nodes : List APNode
  edges : List APEdge
  directed : Bool := true
  multigraph : Bool := true
deriving DecidableEq

/-- Directed multigraph in insertion order: nodes keyed by identifier with
their attribute record, edges as source, target, labels triples. -/
structure Graph where
  nodes : List (NId × NAttrs)
  edges : List (NId × NId × List String)
deriving DecidableEq

/-- networkx add_node with the labels and properties keywords: an existing
node has both attributes overwritten (dict update with the same keys), a new
node is appended. -/
def addNode (g : Graph) (id : NId) (attrs : NAttrs) : Graph :=
  if (g.nodes.map Prod.fst).contains id then
    { g with nodes := g.nodes.map (fun p => if p.1 = id then (id, attrs) else p) }
  else { g with nodes := g.nodes ++ [(id, attrs)] }

/-- networkx implicit node creation by add_edge: a missing endpoint is
appended with an empty attribute dict. Every read of node attributes in the
source goes through dict.get with defaults [] and an empty mapping, so empty
labels and properties are observationally identical to the missing keys. -/
def ensureNode (g : Graph) (id : NId) : Graph :=
  if (g.nodes.map Prod.fst).contains id then g
  else { g with nodes := g.nodes ++ [(id, ⟨[], []⟩)] }

/-- networkx add_edge: endpoints are created when missing; a MultiDiGraph
appends a parallel edge, a DiGraph overwrites the attributes of an existing
(source, target) edge. -/
def addEdge (g : Graph) (u v : NId) (lbls : List String) (multigraph : Bool) : Graph :=
  let g1 := ensureNode (ensureNode g u) v
  if multigraph then { g1 with edges := g1.edges ++ [(u, v, lbls)] }
  else if g1.edges.any (fun e => e.1 == u && e.2.1 == v) then
    { g1 with edges := g1.edges.map (fun e =>
        if e.1 == u && e.2.1 == v then (u, v, lbls) else e) }
  else { g1 with edges := g1.edges ++ [(u, v, lbls)] }

/-- Graph construction, parse_AP.json_to_graph: add every node record, then
every edge record (also covering resources/AP_parser.json_to_graph, which
differs only in the pydantic alias of the node id field). -/
def json_to_graph (ap : APRequest) : Graph :=
  let g1 := ap.nodes.foldl (fun g n => addNode g n.id ⟨n.labels, n.properties⟩) ⟨[], []⟩
  ap.edges.foldl (fun g e => addEdge g e.source e.target e.labels ap.multigraph) g1

/-- Attribute lookup G.nodes[id] with the defaulting reads the source uses
(labels default [], properties default empty). -/
def getNodeAttrs (g : Graph) (id : NId) : NAttrs :=
  ((g.nodes.find? (fun p => p.1 == id)).map Prod.snd).getD ⟨[], []⟩

/-- First-occurrence deduplication of node ids (adjacency iteration order of
networkx). -/
def dedupNId (seen : List NId) : List NId → List NId
  | [] => []
  | x :: rest =>
      if seen.contains x then dedupNId seen rest
      else x :: dedupNId (x :: seen) rest

/-- G.successors as a list in first-occurrence order. -/
def successors (g : Graph) (u : NId) : List NId :=
  dedupNId [] ((g.edges.filter (fun e => e.1 == u)).map (fun e => e.2.1))

/-- G.predecessors as a list in first-occurrence order. -/
def predecessors (g : Graph) (u : NId) : List NId :=
  dedupNId [] ((g.edges.filter (fun e => e.2.1 == u)).map (fun e => e.1))

/-- parse_AP.is_valid_uuid: uuid.UUID(value, version=4) with the ValueError
catch. The version argument of the constructor overwrites the version bits
instead of validating them, so acceptance coincides with the plain UUID
parse; uuid.UUID on an int id would raise an uncaught AttributeError, which
is modelled at the call sites that can receive one. -/
def is_valid_uuid (value : String) : Bool := pyUuidParseOk value

/-- Python str of a node id inside an f-string. -/
def pyStrNId : NId → String
  | .s v => v
  | .i n => intStr n

/-- Python repr of a node id (list rendering of the error detail). -/
def pyReprNId : NId → String
  | .s v => "'" ++ v ++ "'"
  | .i n => intStr n

def pyReprNIdListInner : List NId → String
  | [] => ""
  | [x] => pyReprNId x
  | x :: rest => pyReprNId x ++ ", " ++ pyReprNIdListInner rest

def pyReprNIdList (l : List NId) : String := "[" ++ pyReprNIdListInner l ++ "]"

/-- Python str of an optional property value inside an f-string (absent
renders as None). -/
def pyStrOpt : Option JValue → String
  | some v => pyStr v
  | none => "None"

/-- Guard mirroring an if cond: raise HTTPException(...) statement. -/
def errIf (b : Bool) (msg : String) : Except String Unit :=
  if b then .error msg else .ok ()

/-- Role classification shared by extract_query_from_AP (operator label
SQL_Operator) and extract_datasets_from_AP (operator label
DataModelManagement_Operator): one pass over the graph nodes in insertion
order, first match of the elif chain wins. -/
def classify_AP_nodes (opLabel : String) :
    List (NId × NAttrs) → List NId × List NId × List NId × List NId
  | [] => ([], [], [], [])
  | (nid, attrs) :: rest =>
      let r := classify_AP_nodes opLabel rest
      if attrs.labels.contains "Analytical_Pattern" then
        (nid :: r.1, r.2.1, r.2.2.1, r.2.2.2)
      else if attrs.labels.contains opLabel then
        (r.1, nid :: r.2.1, r.2.2.1, r.2.2.2)
      else if attrs.labels.contains "sc:Dataset" then
        (r.1, r.2.1, nid :: r.2.2.1, r.2.2.2)
      else if attrs.labels.contains "User" then
        (r.1, r.2.1, r.2.2.1, nid :: r.2.2.2)
      else r

/-- ASCII whitespace of the regex class backslash-s. -/
def isPyWs (c : Char) : Bool :=
  c = ' ' || c = '\t' || c = '\n' || c = '\x0b' || c = '\x0c' || c = '\r'

/-- Length of the leading whitespace run. -/
def wsRun : List Char → Nat
  | c :: cs => if isPyWs c then wsRun cs + 1 else 0
  | [] => 0

/-- Close part of the placeholder pattern: whitespace-star then the closing
braces, greedy with backtracking (largest whitespace consumption first).
Returns the remainder after the match. -/
def tryCloseFrom (close : List Char) (l : List Char) : Nat → Option (List Char)
  | 0 => if close.isPrefixOf l then some (l.drop close.length) else none
  | k + 1 =>
      if close.isPrefixOf (l.drop (k + 1)) then some ((l.drop (k + 1)).drop close.length)
      else tryCloseFrom close l k

/-- Name part of the placeholder pattern after the opening braces:
whitespace-star then the literal name, greedy with backtracking into the
close part. -/
def tryNameFrom (name close : List Char) (l1 : List Char) : Nat → Option (List Char)
  | 0 =>
      if name.isPrefixOf l1 then
        tryCloseFrom close (l1.drop name.length) (wsRun (l1.drop name.length))
      else none
  | k + 1 =>
      if name.isPrefixOf (l1.drop (k + 1)) then
        match tryCloseFrom close ((l1.drop (k + 1)).drop name.length)
            (wsRun ((l1.drop (k + 1)).drop name.length)) with
        | some rest => some rest
        | none => tryNameFrom name close l1 k
      else tryNameFrom name close l1 k

/-- Whole placeholder match at the current position: opening braces,
whitespace-star, the escaped name, whitespace-star, closing braces. -/
def matchPlaceholder (opens name close : List Char) (l : List Char) :
    Option (List Char) :=
  if opens.isPrefixOf l then
    let l1 := l.drop opens.length
    tryNameFrom name close l1 (wsRun l1)
  else none

/-- re.sub of one placeholder pattern: left-to-right scan, non-overlapping
matches replaced, scanning resumes after each replacement. The fuel is the
input length; every match consumes at least the opening braces, so the fuel
never runs out on the initial call. -/
def subScan (opens name close repl : List Char) : Nat → List Char → List Char
  | _, [] => []
  | 0, l => l
  | fuel + 1, c :: cs =>
      match matchPlaceholder opens name close (c :: cs) with
      | some rest => repl ++ subScan opens name close repl fuel rest
      | none => c :: subScan opens name close repl fuel cs

/-- The two substitution passes of the query-template loop: the doubled
braces pattern first, then the single braces pattern over its result. -/
def applyTemplateSubs (name value : String) (q : List Char) : List Char :=
  let q1 := subScan ['\x7b', '\x7b'] name.data ['\x7d', '\x7d'] value.data q.length q
  subScan ['\x7b'] name.data ['\x7d'] value.data q1.length q1

/-- Result record of extract_query_from_AP (the query_info dict). -/
structure QueryInfo where
  query : Option JValue
  software : Option JValue
  args : List (String × JValue)
  query_filled : JValue
deriving DecidableEq

/-- Detail string of the operator-command mismatch error. -/
def expectedCmdMsg (c : String) (found : Option JValue) (oid : NId)
    (props : List (String × JValue)) : String :=
  "Expected Operator 'command'='" ++ c ++ "', but found '" ++ pyStrOpt found ++
    "'. Operator node ID: '" ++ pyStrNId oid ++ "', properties: " ++ pyRepr (.obj props)

/-- Detail string of the AP-process mismatch error. -/
def expectedProcMsg (p : String) (found : Option JValue) (apid : NId)
    (props : List (String × JValue)) : String :=
  "Expected Analytical Pattern 'Process'='" ++ p ++ "', but found '" ++ pyStrOpt found ++
    "'. AP node ID: '" ++ pyStrNId apid ++ "', properties: " ++ pyRepr (.obj props)

/-- The template-filling loop: each resolved argument performs the two re.sub
passes over the current filled query, which must be a string once any
substitution runs (re.sub raises TypeError otherwise). -/
def fillLoop : List (String × JValue) → JValue → Except String JValue
  | [], f => .ok f
  | (name, value) :: rest, f =>
      match f with
      | .str s => fillLoop rest (.str (String.mk (applyTemplateSubs name (pyStr value) s.data)))
      | _ => .error "TypeError: expected string or bytes-like object"

/-- Query extraction, parse_AP.extract_query_from_AP: build the graph,
classify roles (first match of the elif chain wins), enforce the
cardinalities, check the expected command and process when supplied and
truthy, read query and software from the first operator node, resolve the
argN parameters against graph nodes (a string argument naming a node is
replaced by that node's truthy contentUrl), and fill the query template.
The index accesses operator_nodes[0] and AP_nodes[0] stand after the emptiness
checks, so the defaults of headD are never read. -/
def extract_query_from_AP (ap : APRequest)
    (expected_ap_process expected_operator_command : Option String) :
    Except String QueryInfo := do
  let G := json_to_graph ap
  let buckets := classify_AP_nodes "SQL_Operator" G.nodes
  let AP_nodes := buckets.1
  let operator_nodes := buckets.2.1
  let dataset_nodes := buckets.2.2.1
  let user_nodes := buckets.2.2.2
  errIf (AP_nodes.length != 1)
    "The Analytical Pattern must contain exactly one 'Analytical_Pattern' node."
  errIf (decide (operator_nodes.length < 1))
    "The Analytical Pattern must contain at least one 'SQL_Operator' node."
  errIf (decide (dataset_nodes.length < 1))
    "The Analytical Pattern must contain at least one 'Dataset' node."
  errIf (user_nodes.length != 1)
    "The Analytical Pattern must contain exactly one 'User' node."
  let operator_id := operator_nodes.headD (NId.s "")
  let operator_properties := (getNodeAttrs G operator_id).properties
  let operator_process := getKey operator_properties "command"
  (match expected_operator_command with
    | some c =>
        errIf (c != "" && !(operator_process == some (.str c)))
          (expectedCmdMsg c operator_process operator_id operator_properties)
    | none => .ok ())
  let AP_id := AP_nodes.headD (NId.s "")
  let AP_properties := (getNodeAttrs G AP_id).properties
  let AP_process := getKey AP_properties "Process"
  (match expected_ap_process with
    | some p =>
        errIf (p != "" && !(AP_process == some (.str p)))
          (expectedProcMsg p AP_process AP_id AP_properties)
    | none => .ok ())
  let raw_query := getKey operator_properties "Query"
  let software_prop : JValue := (getKey operator_properties "Software").getD (.obj [])
  let software : Option JValue ←
    match software_prop with
    | .obj es => .ok (getKey es "name")
    | _ => .error "AttributeError: 'Software' value has no attribute 'get'"
  errIf (!(software == some (.str "DuckDB") || software == some (.str "Ontop")))
    ("Unsupported software: " ++ pyStrOpt software ++
      ". Supported software are 'DuckDB' and 'Ontop'.")
  let parameters : List (String × JValue) ←
    match getKey operator_properties "Parameters" with
    | none => .ok []
    | some v =>
        if pyTruthy v then
          match v with
          | .obj es => .ok es
          | _ => .error "AttributeError: 'Parameters' value has no attribute 'items'"
        else .ok []
  let args_map := parameters.filter (fun kv => ['a', 'r', 'g'].isPrefixOf kv.1.data)
  let resolved_args := args_map.map (fun kv =>
    (kv.1,
      match kv.2 with
      | .str s =>
          if (G.nodes.map Prod.fst).contains (NId.s s) then
            match getKey (getNodeAttrs G (NId.s s)).properties "contentUrl" with
            | some cu => if pyTruthy cu then cu else kv.2
            | none => kv.2
          else kv.2
      | _ => kv.2))
  let filled0 : JValue :=
    match raw_query with
    | some v => if pyTruthy v then v else .str ""
    | none => .str ""
  let query_filled ← fillLoop resolved_args filled0
  .ok { query := raw_query, software := software, args := args_map,
        query_filled := query_filled }


theorem errIf_true {b : Bool} {msg : String} (h : b = true) :
    errIf b msg = .error msg := by
  rw [errIf, if_pos h]

theorem errIf_false {b : Bool} {msg : String} (h : b = false) :
    errIf b msg = .ok () := by
  rw [errIf, h]
  rfl

/-- Claim C5 (amended): classification is an elif chain, so the two-User
failure fires when the two User-labelled nodes carry none of the earlier
role labels; then, with the earlier cardinalities satisfied on the
classified buckets, query extraction fails with the message naming User and
exactly one, and nothing is returned. As stated over nodes whose labels
merely contain User the claim is false: a node carrying both
Analytical_Pattern and User is counted as the pattern node only, and
extraction can succeed (see the counterexample). -/
theorem claim_C5_user_cardinality_corrected (ap : APRequest)
    (expProc expCmd : Option String) (aps ops dss us : List NId)
    (hcls : classify_AP_nodes "SQL_Operator" (json_to_graph ap).nodes =
      (aps, ops, dss, us))
    (h1 : aps.length = 1) (h2 : 1 ≤ ops.length) (h3 : 1 ≤ dss.length)
    (h4 : us.length = 2) :
    extract_query_from_AP ap expProc expCmd =
      .error "The Analytical Pattern must contain exactly one 'User' node." := by
  unfold extract_query_from_AP
  simp only [hcls]
  rw [exceptSeq_pass (errIf_false (by simp [h1]))]
  rw [exceptSeq_pass (errIf_false (by
    simp only [decide_eq_false_iff_not]
    omega))]
  rw [exceptSeq_pass (errIf_false (by
    simp only [decide_eq_false_iff_not]
    omega))]
  rw [exceptSeq_err (errIf_true (by simp [h4]))]


def apNodeW : APNode := { id := .s "ap1", labels := ["Analytical_Pattern"], properties := [] }

def apNodeUserW : APNode :=
  { id := .s "ap1", labels := ["Analytical_Pattern", "User"], properties := [] }

def opNodeW : APNode :=
  { id := .s "op1", labels := ["SQL_Operator"],
    properties := [("Software", .obj [("name", .str "DuckDB")]),
      ("Query", .str "SELECT 1")] }

def dsNodeW : APNode := { id := .s "ds1", labels := ["sc:Dataset"], properties := [] }

def userNodeW : APNode := { id := .s "us1", labels := ["User"], properties := [] }

def userNodeW2 : APNode := { id := .s "us2", labels := ["User"], properties := [] }

/-- AP payload with two nodes whose labels contain User, one of which is the
(single) Analytical_Pattern node. -/
def apCexC5 : APRequest := { nodes := [apNodeUserW, opNodeW, dsNodeW, userNodeW], edges := [] }

/-- AP payload with two dedicated User nodes. -/
def apTwoUsersW : APRequest :=
  { nodes := [apNodeW, opNodeW, dsNodeW, userNodeW, userNodeW2], edges := [] }

/-- Counterexample to claim C5 as stated: a payload with exactly one
Analytical_Pattern node, an operator, a dataset, and two nodes whose labels
contain User - one of them the pattern node itself - extracts successfully,
because the elif chain counts that node only as Analytical_Pattern. -/
theorem claim_C5_counterexample :
    (apCexC5.nodes.filter (fun n => n.labels.contains "Analytical_Pattern")).length = 1 ∧
    1 ≤ (apCexC5.nodes.filter (fun n => n.labels.contains "SQL_Operator")).length ∧
    1 ≤ (apCexC5.nodes.filter (fun n => n.labels.contains "sc:Dataset")).length ∧
    (apCexC5.nodes.filter (fun n => n.labels.contains "User")).length = 2 ∧
    (extract_query_from_AP apCexC5 none none).isOk = true :=
  ⟨by decide, by decide, by decide, by decide, by decide⟩

/-- Witness for the amended claim C5 on a payload with two dedicated User
nodes. -/
theorem claim_C5_witness :
    extract_query_from_AP apTwoUsersW none none =
      .error "The Analytical Pattern must contain exactly one 'User' node." :=
  claim_C5_user_cardinality_corrected apTwoUsersW none none
    [.s "ap1"] [.s "op1"] [.s "ds1"] [.s "us1", .s "us2"]
    (by decide) (by decide) (by decide) (by decide) (by decide)

/-- Relabel-map construction of extract_datasets_from_AP: one fresh uuid4
(the supply fresh, indexed in consumption order) for every dataset node id
that does not parse as a UUID. An int dataset id makes uuid.UUID raise an
AttributeError that is_valid_uuid does not catch. -/
def buildRelabelMap (dids : List NId) (fresh : Nat → String) (i : Nat) :
    Except String (List (NId × NId) × Nat) :=
  match dids with
  | [] => .ok ([], i)
  | did :: rest =>
      match did with
      | .s v =>
          if is_valid_uuid v then buildRelabelMap rest fresh i
          else do
            let (m, j) ← buildRelabelMap rest fresh (i + 1)
            .ok ((did, NId.s (fresh i)) :: m, j)
      | .i _ => .error "AttributeError: 'int' object has no attribute 'replace'"

/-- relabel_map.get(x, x): the mapped id when present, the id itself
otherwise. -/
def applyMap (m : List (NId × NId)) (x : NId) : NId :=
  match m.find? (fun p => p.1 == x) with
  | some p => p.2
  | none => x

/-- nx.relabel_nodes with copy: a new graph with every node id and every
edge endpoint pushed through the map. networkx would merge attribute dicts
if two ids collided after mapping; the source only maps onto fresh uuid4
strings, which collide with nothing, so the merge case is not modelled. -/
def relabel_nodes (g : Graph) (m : List (NId × NId)) : Graph :=
  { nodes := g.nodes.map (fun p => (applyMap m p.1, p.2))
    edges := g.edges.map (fun e => (applyMap m e.1, applyMap m e.2.1, e.2.2)) }

def nidToJValue : NId → JValue
  | .s v => .str v
  | .i n => .num n

/-- Python dict assignment of one key: replace in place when present, append
otherwise. -/
def dictInsert (base : List (String × JValue)) (k : String) (v : JValue) :
    List (String × JValue) :=
  if base.any (fun p => p.1 == k) then
    base.map (fun p => if p.1 = k then (k, v) else p)
  else base ++ [(k, v)]

/-- Python dict.update: left-to-right assignment of the update entries. -/
def dictUpdate (base upd : List (String × JValue)) : List (String × JValue) :=
  upd.foldl (fun b kv => dictInsert b kv.1 kv.2) base

/-- lbl.lower().endswith of fileobject (ASCII lowering, as in the label
constants the source compares). -/
def lowerEndsFileobject (lbl : String) : Bool :=
  "fileobject".data.reverse.isPrefixOf (lowerChars lbl.data).reverse

/-- File-object dict built for one distribution target: the raw id under the
key id, the at-type from a truthy at-type property, else the first label
ending in fileobject, else the cr:FileObject default; then overwritten by
the node's own properties. -/
def fileObjFor (g : Graph) (to_id : NId) : JValue :=
  let node_attrs := getNodeAttrs g to_id
  let node_props := node_attrs.properties
  let node_labels := node_attrs.labels
  let fallback : JValue :=
    .str ((node_labels.find? (fun l => lowerEndsFileobject l)).getD "cr:FileObject")
  let tyVal : JValue :=
    match getKey node_props "@type" with
    | some v => if pyTruthy v then v else fallback
    | none => fallback
  .obj (dictUpdate [("id", nidToJValue to_id), ("@type", tyVal)] node_props)

/-- Distribution array of a dataset node: its outgoing edges labelled
distribution, in insertion order, each target rendered as a file object.
The try block around this loop in the source has no raising operation, so it
is not modelled. -/
def distributionFor (g : Graph) (dataset_id : NId) : List JValue :=
  (g.edges.filter (fun e => e.1 == dataset_id && e.2.2.contains "distribution")).map
    (fun e => fileObjFor g e.2.1)

/-- One dataset object of the output: the merged context templates, the
at-id, the dataset properties (dict.update, so a property may overwrite
at-context or at-id), and the distribution array when nonempty. -/
def buildDataset (g : Graph) (ctxT refsT : List (String × JValue)) (dataset_id : NId) :
    JValue :=
  let dataset_properties := (getNodeAttrs g dataset_id).properties
  let base := [("@context", JValue.obj (dictUpdate ctxT refsT)),
    ("@id", nidToJValue dataset_id)]
  let dataset := dictUpdate base dataset_properties
  let distribution := distributionFor g dataset_id
  if distribution.isEmpty then .obj dataset
  else .obj (dictInsert dataset "distribution" (.arr distribution))

/-- The dataset loop of extract_datasets_from_AP: one pass that collects the
built datasets of the ids carrying sc:archivedAt and, separately, every id
missing it (the loop continues past an offender instead of raising). -/
def collectLoop (g : Graph) (ctxT refsT : List (String × JValue)) :
    List NId → List JValue × List NId
  | [] => ([], [])
  | i :: rest =>
      let r := collectLoop g ctxT refsT rest
      if hasKey (getNodeAttrs g i).properties "sc:archivedAt" then
        (buildDataset g ctxT refsT i :: r.1, r.2)
      else (r.1, i :: r.2)

def missingArchivedMsg (missing : List NId) : String :=
  "The following Dataset nodes are missing 'sc:archivedAt': " ++ pyReprNIdList missing

/-- The accumulated missing-property check: after the whole loop, one error
listing every offending id, else the collected datasets. -/
def collectDatasets (g : Graph) (ctxT refsT : List (String × JValue)) (ids : List NId) :
    Except String (List JValue) :=
  let r := collectLoop g ctxT refsT ids
  if r.2.isEmpty then .ok r.1 else .error (missingArchivedMsg r.2)

/-- Dataset extraction, parse_AP.extract_datasets_from_AP: build the graph,
classify roles with the DataModelManagement_Operator label, enforce the
cardinalities (with the optional exact dataset count), normalize non-UUID
dataset ids through fresh uuid4 identifiers (the supply fresh) in one
relabel over a new graph, check the expected command and process when
supplied and truthy, and collect the dataset objects with the accumulated
archivedAt check. The context constants CONTEXT_TEMPLATE and
REFERENCES_TEMPLATE live in dmm_api/config/constants.py, which is not among
the staged sources; they enter as the parameters ctxT and refsT, which no
claim inspects. -/
def extract_datasets_from_AP (ap : APRequest)
    (expected_ap_process expected_operator_command : Option String)
    (exact_count : Option Nat) (fresh : Nat → String)
    (ctxT refsT : List (String × JValue)) :
    Except String (List JValue × List NId) := do
  let G := json_to_graph ap
  let buckets := classify_AP_nodes "DataModelManagement_Operator" G.nodes
  let AP_nodes := buckets.1
  let operator_nodes := buckets.2.1
  let dataset_nodes := buckets.2.2.1
  let user_nodes := buckets.2.2.2
  errIf (AP_nodes.length != 1)
    "The Analytical Pattern must contain exactly one 'Analytical_Pattern' node."
  errIf (operator_nodes.length != 1)
    "The Analytical Pattern must contain exactly one 'DataModelManagement_Operator' node."
  errIf (decide (dataset_nodes.length < 1))
    "The Analytical Pattern must contain at least one 'Dataset' node."
  (match exact_count with
    | some n =>
        errIf (dataset_nodes.length != n)
          ("The Analytical Pattern must contain exactly " ++ natStr n ++
            " 'sc:Dataset' node(s), but found " ++ natStr dataset_nodes.length ++ ".")
    | none => .ok ())
  errIf (user_nodes.length != 1)
    "The Analytical Pattern must contain exactly one 'User' node."
  let original_dataset_ids := dataset_nodes
  let rm ← buildRelabelMap dataset_nodes fresh 0
  let relabel_map := rm.1
  let G2 := if relabel_map.isEmpty then G else relabel_nodes G relabel_map
  let final_dataset_ids := dataset_nodes.map (applyMap relabel_map)
  let operator_id := operator_nodes.headD (NId.s "")
  let operator_properties := (getNodeAttrs G2 operator_id).properties
  let operator_process := getKey operator_properties "command"
  (match expected_operator_command with
    | some c =>
        errIf (c != "" && !(operator_process == some (.str c)))
          (expectedCmdMsg c operator_process operator_id operator_properties)
    | none => .ok ())
  let AP_id := AP_nodes.headD (NId.s "")
  let AP_properties := (getNodeAttrs G2 AP_id).properties
  let AP_process := getKey AP_properties "Process"
  (match expected_ap_process with
    | some p =>
        errIf (p != "" && !(AP_process == some (.str p)))
          (expectedProcMsg p AP_process AP_id AP_properties)
    | none => .ok ())
  let datasets ← collectDatasets G2 ctxT refsT final_dataset_ids
  .ok (datasets, original_dataset_ids)


theorem collectLoop_snd (g : Graph) (ctxT refsT : List (String × JValue))
    (ids : List NId) :
    (collectLoop g ctxT refsT ids).2 =
      ids.filter (fun i => !(hasKey (getNodeAttrs g i).properties "sc:archivedAt")) := by
  induction ids with
  | nil => rfl
  | cons i rest ih =>
    by_cases hp : hasKey (getNodeAttrs g i).properties "sc:archivedAt"
    · simp [collectLoop, hp, List.filter_cons, ih]
    · simp only [Bool.not_eq_true] at hp
      simp [collectLoop, hp, List.filter_cons, ih]

/-- Amended claim C6: when every supplied fresh identifier is a uuid4
string (as uuid.uuid4 guarantees), the relabel map built over the dataset
ids pairs exactly the ids that fail the lenient any-version UUID parse
(is_valid_uuid) with fresh uuid4 ids, every such invalid dataset id is in
the map's domain, relabel_nodes produces a new graph in which every node
reappears under its mapped id with its attributes untouched, every edge has
both endpoints pushed through the map in the same single rewrite, and any
id outside the map's domain -- in particular a User node's id -- is left
unchanged. As stated over ids that are not valid version-4 UUIDs the claim
is false: a version-1 UUID id passes is_valid_uuid and is never relabeled
(see the counterexample). -/
theorem claim_C6_id_normalization (g : Graph) (dids : List NId)
    (fresh : Nat → String) (i0 j : Nat) (m : List (NId × NId))
    (hfresh : ∀ n, isUuidV4 (fresh n) = true)
    (hm : buildRelabelMap dids fresh i0 = .ok (m, j)) :
    (∀ x y, (x, y) ∈ m → (∃ v, x = NId.s v ∧ is_valid_uuid v = false) ∧
       ∃ n, y = NId.s (fresh n) ∧ isUuidV4 (fresh n) = true) ∧
    (∀ v, NId.s v ∈ dids → is_valid_uuid v = false → ∃ y, (NId.s v, y) ∈ m) ∧
    (∀ x a, (x, a) ∈ g.nodes → (applyMap m x, a) ∈ (relabel_nodes g m).nodes) ∧
    (∀ x, x ∉ m.map Prod.fst → applyMap m x = x) ∧
    (∀ u v l, (u, v, l) ∈ g.edges →
       (applyMap m u, applyMap m v, l) ∈ (relabel_nodes g m).edges) := by
  refine ⟨?_, ?_, ?_, ?_, ?_⟩
  · intro x y hxy
    induction dids generalizing i0 m j with
    | nil =>
        simp only [buildRelabelMap] at hm
        injection hm with hm
        injection hm with hm1 hm2
        subst hm1
        simp at hxy
    | cons did rest ih =>
        cases did with
        | i n => exact absurd hm (by simp [buildRelabelMap])
        | s v =>
            by_cases hv : is_valid_uuid v
            · simp only [buildRelabelMap, if_pos hv] at hm
              exact ih _ _ _ hm hxy
            · simp only [buildRelabelMap, if_neg hv] at hm
              cases hrec : buildRelabelMap rest fresh (i0 + 1) with
              | error e => rw [hrec] at hm; exact absurd hm (by simp [Bind.bind, Except.bind])
              | ok t =>
                  obtain ⟨m2, j2⟩ := t
                  rw [hrec] at hm
                  simp only [Bind.bind, Except.bind] at hm
                  injection hm with hm
                  injection hm with hm1 hm2
                  subst hm1
                  rcases List.mem_cons.mp hxy with hh | hh
                  · injection hh with hh1 hh2
                    subst hh1
                    subst hh2
                    exact ⟨⟨v, rfl, by simpa using hv⟩, i0, rfl, hfresh i0⟩
                  · exact ih _ _ _ hrec hh
  · intro v hv hinv
    induction dids generalizing i0 m j with
    | nil => simp at hv
    | cons did rest ih =>
        cases did with
        | i n => exact absurd hm (by simp [buildRelabelMap])
        | s w =>
            by_cases hw : is_valid_uuid w
            · simp only [buildRelabelMap, if_pos hw] at hm
              rcases List.mem_cons.mp hv with hh | hh
              · injection hh with hh
                subst hh
                exact absurd hw (by simp [hinv])
              · exact ih _ _ _ hm hh
            · simp only [buildRelabelMap, if_neg hw] at hm
              cases hrec : buildRelabelMap rest fresh (i0 + 1) with
              | error e => rw [hrec] at hm; exact absurd hm (by simp [Bind.bind, Except.bind])
              | ok t =>
                  obtain ⟨m2, j2⟩ := t
                  rw [hrec] at hm
                  simp only [Bind.bind, Except.bind] at hm
                  injection hm with hm
                  injection hm with hm1 hm2
                  subst hm1
                  rcases List.mem_cons.mp hv with hh | hh
                  · injection hh with hh
                    subst hh
                    exact ⟨NId.s (fresh i0), by simp⟩
                  · obtain ⟨y, hy⟩ := ih _ _ _ hrec hh
                    exact ⟨y, List.mem_cons_of_mem _ hy⟩
  · intro x a hxa
    unfold relabel_nodes
    exact List.mem_map.mpr ⟨(x, a), hxa, rfl⟩
  · intro x hx
    unfold applyMap
    rw [List.find?_eq_none.mpr]
    intro p hp
    simp only [beq_iff_eq]
    intro hpx
    exact hx (List.mem_map.mpr ⟨p, hp, by rw [hpx]⟩)
  · intro u v l huvl
    unfold relabel_nodes
    exact List.mem_map.mpr ⟨(u, v, l), huvl, rfl⟩


theorem exceptBindVal_ok {α β : Type} {e : Except String α} {k : α → Except String β}
    {a : α} (h : e = .ok a) : (e >>= k) = k a := by
  rw [h]
  rfl

theorem exceptBindVal_err {α β : Type} {e : Except String α} {k : α → Except String β}
    {msg : String} (h : e = .error msg) : (e >>= k) = .error msg := by
  rw [h]
  rfl

def freshC : Nat → String := fun _ => "cccccccc-0000-4000-8000-000000000000"

def gW6 : Graph :=
  ⟨[(NId.s "my-dataset", ⟨["sc:Dataset"], []⟩), (NId.s "u1", ⟨["User"], []⟩)],
    [(NId.s "u1", NId.s "my-dataset", ["USES"])]⟩

def mW6 : List (NId × NId) :=
  [(NId.s "my-dataset", NId.s "cccccccc-0000-4000-8000-000000000000")]

/-- Witness for the amended claim C6: the non-UUID dataset id my-dataset is
relabeled to the fresh uuid4 everywhere while the User node id u1 stays. -/
theorem claim_C6_witness :
    (NId.s "cccccccc-0000-4000-8000-000000000000",
        NAttrs.mk ["sc:Dataset"] []) ∈ (relabel_nodes gW6 mW6).nodes ∧
      applyMap mW6 (NId.s "u1") = NId.s "u1" ∧
      (NId.s "u1", NId.s "cccccccc-0000-4000-8000-000000000000", ["USES"]) ∈
        (relabel_nodes gW6 mW6).edges := by
  have h := claim_C6_id_normalization gW6 [NId.s "my-dataset"] freshC 0 1 mW6
    (fun n => rfl) (by decide)
  refine ⟨?_, ?_, ?_⟩
  · exact h.2.2.1 (NId.s "my-dataset") (NAttrs.mk ["sc:Dataset"] []) (by decide)
  · exact h.2.2.2.1 (NId.s "u1") (by decide)
  · exact h.2.2.2.2 (NId.s "u1") (NId.s "my-dataset") ["USES"] (by decide)

/-- Counterexample to claim C6 as stated: a version-1 UUID is not a valid
version-4 UUID, yet it passes the code's is_valid_uuid (the lenient
uuid.UUID parse), so the relabel map of extract_datasets_from_AP stays
empty and the dataset keeps its non-v4 id instead of receiving a fresh
uuid4. -/
theorem claim_C6_counterexample :
    isUuidV4 "00000000-0000-1000-8000-000000000000" = false ∧
    is_valid_uuid "00000000-0000-1000-8000-000000000000" = true ∧
    buildRelabelMap [NId.s "00000000-0000-1000-8000-000000000000"] freshC 0 =
      .ok ([], 0) ∧
    applyMap [] (NId.s "00000000-0000-1000-8000-000000000000") =
      NId.s "00000000-0000-1000-8000-000000000000" := by
  decide

theorem collectDatasets_err (g : Graph) (ctxT refsT : List (String × JValue))
    (ids : List NId)
    (hne : ids.filter
      (fun i => !(hasKey (getNodeAttrs g i).properties "sc:archivedAt")) ≠ []) :
    collectDatasets g ctxT refsT ids =
      .error (missingArchivedMsg (ids.filter
        (fun i => !(hasKey (getNodeAttrs g i).properties "sc:archivedAt")))) := by
  have hne2 : (ids.filter
      (fun i => !(hasKey (getNodeAttrs g i).properties "sc:archivedAt"))).isEmpty
        = false := by
    simpa [List.isEmpty_iff] using hne
  simp only [collectDatasets, collectLoop_snd, hne2]
  rfl

/-- Claim C8: on an AP payload that passes the cardinality checks and the
optional process/command checks, with the relabel step succeeding, if at
least one (relabeled) dataset node lacks the sc:archivedAt property then
dataset extraction fails with the single accumulated missing-property error
whose message lists exactly the offending dataset ids -- the filter over
all dataset ids, not just the first offender. -/
theorem claim_C8_missing_archived_accumulated (ap : APRequest)
    (expProc expCmd : Option String) (fresh : Nat → String)
    (ctxT refsT : List (String × JValue))
    (aps ops dss us : List NId) (m : List (NId × NId)) (j : Nat) (G2 : Graph)
    (hcls : classify_AP_nodes "DataModelManagement_Operator"
      (json_to_graph ap).nodes = (aps, ops, dss, us))
    (h1 : aps.length = 1) (h2 : ops.length = 1) (h3 : 1 ≤ dss.length)
    (h4 : us.length = 1)
    (hm : buildRelabelMap dss fresh 0 = .ok (m, j))
    (hG2 : G2 = if m.isEmpty then json_to_graph ap
      else relabel_nodes (json_to_graph ap) m)
    (hcmd : ∀ c, expCmd = some c →
      (c != "" && !(getKey (getNodeAttrs G2 (ops.headD (NId.s ""))).properties
        "command" == some (.str c))) = false)
    (hproc : ∀ p, expProc = some p →
      (p != "" && !(getKey (getNodeAttrs G2 (aps.headD (NId.s ""))).properties
        "Process" == some (.str p))) = false)
    (hmiss : (dss.map (applyMap m)).filter
      (fun i => !(hasKey (getNodeAttrs G2 i).properties "sc:archivedAt")) ≠ []) :
    extract_datasets_from_AP ap expProc expCmd none fresh ctxT refsT =
      .error (missingArchivedMsg ((dss.map (applyMap m)).filter
        (fun i => !(hasKey (getNodeAttrs G2 i).properties "sc:archivedAt")))) ∧
    ∀ x, x ∈ (dss.map (applyMap m)).filter
        (fun i => !(hasKey (getNodeAttrs G2 i).properties "sc:archivedAt")) ↔
      x ∈ dss.map (applyMap m) ∧
        hasKey (getNodeAttrs G2 x).properties "sc:archivedAt" = false := by
  constructor
  · unfold extract_datasets_from_AP
    simp only [hcls]
    rw [exceptSeq_pass (errIf_false (by simp [h1]))]
    rw [exceptSeq_pass (errIf_false (by simp [h2]))]
    rw [exceptSeq_pass (errIf_false (by
      simp only [decide_eq_false_iff_not]
      omega))]
    rw [exceptSeq_pass rfl]
    rw [exceptSeq_pass (errIf_false (by simp [h4]))]
    rw [exceptBindVal_ok hm]
    rw [← hG2]
    have hcol := collectDatasets_err G2 ctxT refsT (dss.map (applyMap m)) hmiss
    cases expCmd with
    | none =>
        rw [exceptSeq_pass rfl]
        cases expProc with
        | none =>
            rw [exceptSeq_pass rfl]
            rw [exceptBindVal_err hcol]
        | some p =>
            rw [exceptSeq_pass (errIf_false (hproc p rfl))]
            rw [exceptBindVal_err hcol]
    | some c =>
        rw [exceptSeq_pass (errIf_false (hcmd c rfl))]
        cases expProc with
        | none =>
            rw [exceptSeq_pass rfl]
            rw [exceptBindVal_err hcol]
        | some p =>
            rw [exceptSeq_pass (errIf_false (hproc p rfl))]
            rw [exceptBindVal_err hcol]
  · intro x
    rw [List.mem_filter]
    simp only [Bool.not_eq_true']


def apNodeD : APNode := { id := .s "ap1", labels := ["Analytical_Pattern"], properties := [] }

def opNodeD : APNode :=
  { id := .s "op1", labels := ["DataModelManagement_Operator"], properties := [] }

def dsNodeD1 : APNode :=
  { id := .s "11111111-2222-4333-8444-555555555555", labels := ["sc:Dataset"],
    properties := [] }

def dsNodeD2 : APNode :=
  { id := .s "22222222-2222-4333-8444-555555555555", labels := ["sc:Dataset"],
    properties := [] }

def userNodeD : APNode := { id := .s "us1", labels := ["User"], properties := [] }

/-- AP payload with two dataset nodes, both missing the archivedAt property. -/
def apMissW : APRequest :=
  { nodes := [apNodeD, opNodeD, dsNodeD1, dsNodeD2, userNodeD], edges := [] }

/-- Witness for claim C8 on a payload with two datasets both missing
sc:archivedAt: one error listing both ids. -/
theorem claim_C8_witness :
    extract_datasets_from_AP apMissW none none none freshC [] [] =
      .error ("The following Dataset nodes are missing 'sc:archivedAt': " ++
        "['11111111-2222-4333-8444-555555555555', " ++
        "'22222222-2222-4333-8444-555555555555']") ∧
    NId.s "11111111-2222-4333-8444-555555555555" ∈
      ([NId.s "11111111-2222-4333-8444-555555555555",
        NId.s "22222222-2222-4333-8444-555555555555"].map (applyMap [])).filter
        (fun i =>
          !(hasKey (getNodeAttrs (json_to_graph apMissW) i).properties
            "sc:archivedAt")) := by
  have h := claim_C8_missing_archived_accumulated apMissW none none freshC [] []
    [NId.s "ap1"] [NId.s "op1"]
    [NId.s "11111111-2222-4333-8444-555555555555",
      NId.s "22222222-2222-4333-8444-555555555555"]
    [NId.s "us1"] [] 0 (json_to_graph apMissW)
    (by decide) rfl rfl (by decide) rfl (by decide) rfl
    (fun c hc => nomatch hc) (fun p hp => nomatch hp) (by decide)
  refine ⟨h.1.trans (by decide), ?_⟩
  exact (h.2 (NId.s "11111111-2222-4333-8444-555555555555")).mpr
    ⟨by decide, by decide⟩


/-- Claim C10: the shared role classification of extract_query_from_AP and
extract_datasets_from_AP is first-match-wins in the fixed order
Analytical_Pattern, operator label, sc:Dataset, User: each bucket collects
exactly the nodes whose labels contain its role label and none of the
earlier role labels, so a node carrying several role labels is counted
toward the earliest matching bucket only and contributes nothing to the
cardinality counts of the later roles. -/
theorem bool_false_eq_true_iff : ((false : Bool) = true) ↔ False := by
  simp

theorem claim_C10_first_match_classification (opLabel : String)
    (ns : List (NId × NAttrs)) :
    classify_AP_nodes opLabel ns =
      ((ns.filter (fun p => p.2.labels.contains "Analytical_Pattern")).map Prod.fst,
       (ns.filter (fun p => !p.2.labels.contains "Analytical_Pattern" &&
         p.2.labels.contains opLabel)).map Prod.fst,
       (ns.filter (fun p => !p.2.labels.contains "Analytical_Pattern" &&
         !p.2.labels.contains opLabel &&
         p.2.labels.contains "sc:Dataset")).map Prod.fst,
       (ns.filter (fun p => !p.2.labels.contains "Analytical_Pattern" &&
         !p.2.labels.contains opLabel && !p.2.labels.contains "sc:Dataset" &&
         p.2.labels.contains "User")).map Prod.fst) := by
  induction ns with
  | nil => rfl
  | cons p rest ih =>
      obtain ⟨nid, attrs⟩ := p
      cases h1 : attrs.labels.contains "Analytical_Pattern" with
      | true =>
          simp only [classify_AP_nodes, List.filter_cons, ih, h1, Bool.not_true,
            Bool.false_and, if_true, if_false, bool_false_eq_true_iff, List.map_cons]
      | false =>
          cases h2 : attrs.labels.contains opLabel with
          | true =>
              simp only [classify_AP_nodes, List.filter_cons, ih, h1, h2,
                Bool.not_true, Bool.not_false, Bool.true_and, Bool.false_and,
                if_true, if_false, bool_false_eq_true_iff, List.map_cons]
          | false =>
              cases h3 : attrs.labels.contains "sc:Dataset" with
              | true =>
                  simp only [classify_AP_nodes, List.filter_cons, ih, h1, h2, h3,
                    Bool.not_true, Bool.not_false, Bool.true_and, Bool.false_and,
                    Bool.and_false, if_true, if_false, bool_false_eq_true_iff, List.map_cons]
              | false =>
                  cases h4 : attrs.labels.contains "User" with
                  | true =>
                      simp only [classify_AP_nodes, List.filter_cons, ih, h1, h2,
                        h3, h4, Bool.not_true, Bool.not_false, Bool.true_and,
                        Bool.false_and, Bool.and_false, if_true, if_false, bool_false_eq_true_iff, List.map_cons]
                  | false =>
                      simp only [classify_AP_nodes, List.filter_cons, ih, h1, h2,
                        h3, h4, Bool.not_true, Bool.not_false, Bool.true_and,
                        Bool.false_and, Bool.and_false, if_true, if_false, bool_false_eq_true_iff, List.map_cons]


theorem mem_dedupNId (x : NId) : ∀ (l : List NId) (seen : List NId),
    x ∈ dedupNId seen l ↔ x ∈ l ∧ ¬ x ∈ seen := by
  intro l
  induction l with
  | nil => intro seen; simp [dedupNId]
  | cons a rest ih =>
      intro seen
      by_cases ha : seen.contains a
      · rw [dedupNId, if_pos ha]
        rw [ih seen]
        constructor
        · rintro ⟨hx, hns⟩
          exact ⟨List.mem_cons_of_mem _ hx, hns⟩
        · rintro ⟨hx, hns⟩
          rcases List.mem_cons.mp hx with rfl | hx2
          · exact absurd (by simpa using ha) hns
          · exact ⟨hx2, hns⟩
      · rw [dedupNId, if_neg ha]
        constructor
        · intro hx
          rcases List.mem_cons.mp hx with rfl | hx2
          · exact ⟨List.mem_cons_self _ _, by simpa using ha⟩
          · obtain ⟨h1, h2⟩ := (ih (a :: seen)).mp hx2
            refine ⟨List.mem_cons_of_mem _ h1, fun hc => h2 (List.mem_cons_of_mem _ hc)⟩
        · rintro ⟨hx, hns⟩
          rcases List.mem_cons.mp hx with rfl | hx2
          · exact List.mem_cons_self _ _
          · by_cases hxa : x = a
            · subst hxa
              exact List.mem_cons_self _ _
            · refine List.mem_cons_of_mem _ ((ih (a :: seen)).mpr ⟨hx2, ?_⟩)
              intro hc
              rcases List.mem_cons.mp hc with h | h
              · exact hxa h
              · exact hns h

theorem mem_successors (g : Graph) (u v : NId) :
    v ∈ successors g u ↔ ∃ l, (u, v, l) ∈ g.edges := by
  unfold successors
  rw [mem_dedupNId]
  simp only [List.not_mem_nil, not_false_iff, and_true, List.mem_map,
    List.mem_filter]
  constructor
  · rintro ⟨e, ⟨he, hu⟩, hv⟩
    obtain ⟨e1, e2, e3⟩ := e
    simp only [beq_iff_eq] at hu
    subst hu
    subst hv
    exact ⟨e3, he⟩
  · rintro ⟨l, hl⟩
    exact ⟨(u, v, l), ⟨hl, by simp⟩, rfl⟩

theorem mem_predecessors (g : Graph) (u v : NId) :
    u ∈ predecessors g v ↔ ∃ l, (u, v, l) ∈ g.edges := by
  unfold predecessors
  rw [mem_dedupNId]
  simp only [List.not_mem_nil, not_false_iff, and_true, List.mem_map,
    List.mem_filter]
  constructor
  · rintro ⟨e, ⟨he, hv⟩, hu⟩
    obtain ⟨e1, e2, e3⟩ := e
    simp only [beq_iff_eq] at hv
    subst hv
    subst hu
    exact ⟨e3, he⟩
  · rintro ⟨l, hl⟩
    exact ⟨(u, v, l), ⟨hl, by simp⟩, rfl⟩

theorem addNode_pres_node (g : Graph) (id : NId) (a : NAttrs) (x : NId)
    (hx : x ∈ g.nodes.map Prod.fst) : x ∈ (addNode g id a).nodes.map Prod.fst := by
  unfold addNode
  by_cases hc : (g.nodes.map Prod.fst).contains id
  · rw [if_pos hc]
    obtain ⟨p, hp, hpx⟩ := List.mem_map.mp hx
    refine List.mem_map.mpr ⟨if p.1 = id then (id, a) else p, List.mem_map_of_mem _ hp, ?_⟩
    by_cases hpe : p.1 = id
    · rw [if_pos hpe]
      rw [← hpx, hpe]
    · rw [if_neg hpe]
      exact hpx
  · rw [if_neg hc]
    simp only [List.map_append]
    exact List.mem_append_left _ hx

theorem ensureNode_pres_node (g : Graph) (id : NId) (x : NId)
    (hx : x ∈ g.nodes.map Prod.fst) : x ∈ (ensureNode g id).nodes.map Prod.fst := by
  unfold ensureNode
  by_cases hc : (g.nodes.map Prod.fst).contains id
  · rw [if_pos hc]
    exact hx
  · rw [if_neg hc]
    simp only [List.map_append]
    exact List.mem_append_left _ hx

theorem ensureNode_mem (g : Graph) (id : NId) :
    id ∈ (ensureNode g id).nodes.map Prod.fst := by
  unfold ensureNode
  by_cases hc : (g.nodes.map Prod.fst).contains id
  · rw [if_pos hc]
    simpa using hc
  · rw [if_neg hc]
    simp

theorem addEdge_pres_node (g : Graph) (u v : NId) (lbls : List String)
    (mg : Bool) (x : NId) (hx : x ∈ g.nodes.map Prod.fst) :
    x ∈ (addEdge g u v lbls mg).nodes.map Prod.fst := by
  unfold addEdge
  have h1 := ensureNode_pres_node (ensureNode g u) v x (ensureNode_pres_node g u x hx)
  by_cases hmg : mg
  · rw [if_pos hmg]
    exact h1
  · rw [if_neg hmg]
    by_cases hany : (ensureNode (ensureNode g u) v).edges.any
        (fun e => e.1 == u && e.2.1 == v)
    · rw [if_pos hany]
      exact h1
    · rw [if_neg hany]
      exact h1

theorem addEdge_mem_source (g : Graph) (u v : NId) (lbls : List String) (mg : Bool) :
    u ∈ (addEdge g u v lbls mg).nodes.map Prod.fst := by
  unfold addEdge
  have h1 := ensureNode_pres_node (ensureNode g u) v u (ensureNode_mem g u)
  by_cases hmg : mg
  · rw [if_pos hmg]
    exact h1
  · rw [if_neg hmg]
    by_cases hany : (ensureNode (ensureNode g u) v).edges.any
        (fun e => e.1 == u && e.2.1 == v)
    · rw [if_pos hany]
      exact h1
    · rw [if_neg hany]
      exact h1

theorem addEdge_mem_target (g : Graph) (u v : NId) (lbls : List String) (mg : Bool) :
    v ∈ (addEdge g u v lbls mg).nodes.map Prod.fst := by
  unfold addEdge
  have h1 := ensureNode_mem (ensureNode g u) v
  by_cases hmg : mg
  · rw [if_pos hmg]
    exact h1
  · rw [if_neg hmg]
    by_cases hany : (ensureNode (ensureNode g u) v).edges.any
        (fun e => e.1 == u && e.2.1 == v)
    · rw [if_pos hany]
      exact h1
    · rw [if_neg hany]
      exact h1

theorem ensureNode_edges (g : Graph) (id : NId) :
    (ensureNode g id).edges = g.edges := by
  unfold ensureNode
  by_cases hc : (g.nodes.map Prod.fst).contains id
  · rw [if_pos hc]
  · rw [if_neg hc]

theorem addEdge_pres_edge (g : Graph) (u v : NId) (lbls : List String)
    (mg : Bool) (a b : NId) (h : ∃ l, (a, b, l) ∈ g.edges) :
    ∃ l, (a, b, l) ∈ (addEdge g u v lbls mg).edges := by
  obtain ⟨l, hl0⟩ := h
  have hl : (a, b, l) ∈ (ensureNode (ensureNode g u) v).edges := by
    rw [ensureNode_edges, ensureNode_edges]
    exact hl0
  unfold addEdge
  by_cases hmg : mg
  · rw [if_pos hmg]
    exact ⟨l, List.mem_append_left _ hl⟩
  · rw [if_neg hmg]
    by_cases hany : (ensureNode (ensureNode g u) v).edges.any
        (fun e => e.1 == u && e.2.1 == v)
    · rw [if_pos hany]
      by_cases hab : a = u ∧ b = v
      · obtain ⟨rfl, rfl⟩ := hab
        refine ⟨lbls, List.mem_map.mpr ⟨(a, b, l), hl, ?_⟩⟩
        simp
      · refine ⟨l, List.mem_map.mpr ⟨(a, b, l), hl, ?_⟩⟩
        have : ((a, b, l).1 == u && (a, b, l).2.1 == v) = false := by
          rcases not_and_or.mp hab with h | h
          · simp [h]
          · simp [h]
        rw [this]
        rfl
    · rw [if_neg hany]
      exact ⟨l, List.mem_append_left _ hl⟩

theorem addEdge_mem_edge (g : Graph) (u v : NId) (lbls : List String) (mg : Bool) :
    ∃ l, (u, v, l) ∈ (addEdge g u v lbls mg).edges := by
  unfold addEdge
  by_cases hmg : mg
  · rw [if_pos hmg]
    exact ⟨lbls, List.mem_append_right _ (List.mem_singleton.mpr rfl)⟩
  · rw [if_neg hmg]
    by_cases hany : (ensureNode (ensureNode g u) v).edges.any
        (fun e => e.1 == u && e.2.1 == v)
    · rw [if_pos hany]
      obtain ⟨e, he, hcond⟩ := List.any_eq_true.mp hany
      refine ⟨lbls, List.mem_map.mpr ⟨e, he, ?_⟩⟩
      rw [hcond]
      rfl
    · rw [if_neg hany]
      exact ⟨lbls, List.mem_append_right _ (List.mem_singleton.mpr rfl)⟩

theorem edgeFold_pres (mg : Bool) (a b : NId) :
    ∀ (es : List APEdge) (g : Graph),
    (a ∈ g.nodes.map Prod.fst ∧ b ∈ g.nodes.map Prod.fst ∧
      ∃ l, (a, b, l) ∈ g.edges) →
    (a ∈ (es.foldl (fun g e => addEdge g e.source e.target e.labels mg) g).nodes.map
        Prod.fst ∧
      b ∈ (es.foldl (fun g e => addEdge g e.source e.target e.labels mg) g).nodes.map
        Prod.fst ∧
      ∃ l, (a, b, l) ∈
        (es.foldl (fun g e => addEdge g e.source e.target e.labels mg) g).edges) := by
  intro es
  induction es with
  | nil => intro g h; exact h
  | cons e rest ih =>
      intro g h
      refine ih _ ⟨?_, ?_, ?_⟩
      · exact addEdge_pres_node g e.source e.target e.labels mg a h.1
      · exact addEdge_pres_node g e.source e.target e.labels mg b h.2.1
      · exact addEdge_pres_edge g e.source e.target e.labels mg a b h.2.2


theorem edgeFold_establish (mg : Bool) (e : APEdge) :
    ∀ (es : List APEdge) (g : Graph), e ∈ es →
    (e.source ∈ (es.foldl (fun g x => addEdge g x.source x.target x.labels mg)
        g).nodes.map Prod.fst ∧
      e.target ∈ (es.foldl (fun g x => addEdge g x.source x.target x.labels mg)
        g).nodes.map Prod.fst ∧
      ∃ l, (e.source, e.target, l) ∈
        (es.foldl (fun g x => addEdge g x.source x.target x.labels mg) g).edges) := by
  intro es
  induction es with
  | nil =>
      intro g h
      simp at h
  | cons e0 rest ih =>
      intro g h
      rcases List.mem_cons.mp h with rfl | h2
      · exact edgeFold_pres mg e.source e.target rest
          (addEdge g e.source e.target e.labels mg)
          ⟨addEdge_mem_source g e.source e.target e.labels mg,
            addEdge_mem_target g e.source e.target e.labels mg,
            addEdge_mem_edge g e.source e.target e.labels mg⟩
      · exact ih _ h2

def nodeA7 : APNode := { id := .s "a", labels := [], properties := [] }

def edgeAB7 : APEdge := { source := .s "a", target := .s "b", labels := ["REL"] }

/-- Payload whose single edge targets the id b absent from the node list. -/
def apDangW : APRequest := { nodes := [nodeA7], edges := [edgeAB7] }

/-- Counterexample to claim C7: on a payload whose edge targets an id absent
from the node list, construction indeed does not reject, but the dangling
edge does contribute adjacency: the target becomes a successor of the
source, the source a predecessor of the target, and the missing endpoint is
implicitly added as a node, contradicting that the edge contributes no
successors or predecessors. -/
theorem claim_C7_counterexample :
    ¬ NId.s "b" ∈ apDangW.nodes.map APNode.id ∧
    successors (json_to_graph apDangW) (NId.s "a") = [NId.s "b"] ∧
    predecessors (json_to_graph apDangW) (NId.s "b") = [NId.s "a"] ∧
    NId.s "b" ∈ (json_to_graph apDangW).nodes.map Prod.fst := by
  decide

/-- Amended claim C7: graph construction accepts every payload (it is a
total function) and, for every edge of the payload, both endpoints are
present as nodes of the built graph (a missing endpoint is created
implicitly), the target is among the successors of the source, and the
source among the predecessors of the target — so a dangling reference
yields implicit empty-attribute nodes and real adjacency, not an empty
neighbor set contributed by the edge. -/
theorem claim_C7_dangling_edges_corrected (ap : APRequest) (e : APEdge)
    (he : e ∈ ap.edges) :
    e.source ∈ (json_to_graph ap).nodes.map Prod.fst ∧
    e.target ∈ (json_to_graph ap).nodes.map Prod.fst ∧
    e.target ∈ successors (json_to_graph ap) e.source ∧
    e.source ∈ predecessors (json_to_graph ap) e.target := by
  have h := edgeFold_establish ap.multigraph e ap.edges
    (ap.nodes.foldl (fun g n => addNode g n.id ⟨n.labels, n.properties⟩) ⟨[], []⟩) he
  exact ⟨h.1, h.2.1, (mem_successors _ _ _).mpr h.2.2,
    (mem_predecessors _ _ _).mpr h.2.2⟩

/-- Witness for the amended claim C7 on the dangling-edge payload. -/
theorem claim_C7_witness :
    NId.s "b" ∈ successors (json_to_graph apDangW) (NId.s "a") ∧
    NId.s "a" ∈ predecessors (json_to_graph apDangW) (NId.s "b") ∧
    NId.s "b" ∈ (json_to_graph apDangW).nodes.map Prod.fst :=
  have h := claim_C7_dangling_edges_corrected apDangW edgeAB7 (by decide)
  ⟨h.2.2.1, h.2.2.2, h.2.1⟩
